import Mathlib

/-!
Verification of `src/Frontend/scripts/translate_locales.py` (locale
synchronization engine).  The Python data model (JSON values: dicts, lists,
strings, numbers, booleans, null) is embedded as the inductive `Node`;
Python dicts are insertion-ordered association lists.  Python dict keys can
be strings or (via `current[int_index] = value` in `set_nested_value`)
integers, hence `PyKey`.  Functions that can raise exceptions in Python
(`set_nested_value` raising `TypeError` / `AttributeError` / `KeyError` /
`IndexError`) are embedded as `Option`-valued functions where `none` means
the Python call raises.  Floating-point leaves are outside the model.
-/

set_option maxHeartbeats 1000000

namespace TranslateLocales

/-- A Python dict key as used by this script: JSON object keys are strings,
and `set_nested_value` can additionally install integer keys via
`current[idx] = value` when `current` is a dict. -/
inductive PyKey where
  | ks : String → PyKey
  | ki : Nat → PyKey
deriving DecidableEq, Repr

/-- A JSON-like Python value: `str`, `int`, `bool`, `None`, `dict`
(insertion-ordered association list) and `list`. -/
inductive Node where
  | vstr : String → Node
  | vint : Int → Node
  | vbool : Bool → Node
  | vnull : Node
  | map : List (PyKey × Node) → Node
  | seq : List Node → Node

/-- Python dict lookup `d[k]` (as `Option`): first matching key. -/
def dget {κ α : Type} [DecidableEq κ] : List (κ × α) → κ → Option α
  | [], _ => none
  | (k', v) :: m, k => if k' = k then some v else dget m k

/-- Python dict assignment `d[k] = v`: overwrite in place if the key is
present (keeping its position), else append at the end. -/
def dset {κ α : Type} [DecidableEq κ] : List (κ × α) → κ → α → List (κ × α)
  | [], k, v => [(k, v)]
  | (k', v') :: m, k, v => if k' = k then (k', v) :: m else (k', v') :: dset m k v

/-- Python `k in d` membership test for dicts. -/
def dmem {κ α : Type} [DecidableEq κ] (m : List (κ × α)) (k : κ) : Bool :=
  (dget m k).isSome

/-- Decimal digits of a natural number, most significant first
(the digits of Python `str(n)` for `n ≥ 0`). -/
def natToDigits (n : Nat) : List Char :=
  if h : n < 10 then [Char.ofNat (48 + n)]
  else natToDigits (n / 10) ++ [Char.ofNat (48 + n % 10)]
decreasing_by exact Nat.div_lt_self (by omega) (by omega)

/-- Python `str(n)` for a natural number. -/
def natToString (n : Nat) : String := ⟨natToDigits n⟩

/-- Python `str(i)` for an integer. -/
def intToString (i : Int) : String :=
  if i < 0 then "-" ++ natToString i.natAbs else natToString i.natAbs

/-- Python `str(value)` restricted to the scalar values this script ever
stringifies (`flatten_data` only calls `str` on non-dict non-list values,
so the container branches below are never reached by the embedded code). -/
def pyStr : Node → String
  | Node.vstr s => s
  | Node.vint i => intToString i
  | Node.vbool b => if b then "True" else "False"
  | Node.vnull => "None"
  | Node.map _ => ""
  | Node.seq _ => ""

/-- Python truthiness of a JSON-like value (`if data:` / `if not data:`). -/
def pyTruthy : Node → Bool
  | Node.vstr s => !(s = "")
  | Node.vint i => !(i = 0)
  | Node.vbool b => b
  | Node.vnull => false
  | Node.map m => !m.isEmpty
  | Node.seq l => !l.isEmpty

/-- Python `s.isdigit()` for the ASCII strings this script handles:
nonempty and all decimal digits. -/
def isAllDigits (s : String) : Bool :=
  !(s.data = []) && s.data.all Char.isDigit

/-- Python `int(s)` on a string of decimal digits. -/
def strToNat (s : String) : Nat :=
  s.data.foldl (fun a c => a * 10 + (c.toNat - 48)) 0

/-- The character scan of `set_nested_value` (lines 94-107): split the
key path on `.` and `[`, drop `]`, flushing the accumulated part when
nonempty. -/
def scanParts : List Char → List String → List Char → List String
  | [], parts, cur => if cur = [] then parts else parts ++ [⟨cur⟩]
  | c :: cs, parts, cur =>
    if c = '.' then scanParts cs (if cur = [] then parts else parts ++ [⟨cur⟩]) []
    else if c = '[' then scanParts cs (if cur = [] then parts else parts ++ [⟨cur⟩]) []
    else if c = ']' then scanParts cs parts cur
    else scanParts cs parts (cur ++ [c])

/-- Tokenization of a dotted/bracketed key path into parts
(`set_nested_value` lines 94-107). -/
def parseParts (keyPath : String) : List String :=
  scanParts keyPath.data [] []

/-- Final assignment step of `set_nested_value` (lines 126-134), acting on
the container reached by the traversal.  `none` models a Python exception:
an all-digit part over a dict shorter than the index hits
`current.append` (`AttributeError`); any part over a scalar raises
(`TypeError` on item assignment, or `len` of a non-sized value). -/
def setFinal (cur : Node) (p : String) (v : Node) : Option Node :=
  if isAllDigits p then
    match cur with
    | Node.seq l =>
      some (Node.seq ((l ++ List.replicate (strToNat p + 1 - l.length) Node.vnull).set (strToNat p) v))
    | Node.map m =>
      if m.length ≤ strToNat p then none
      else some (Node.map (dset m (PyKey.ki (strToNat p)) v))
    | _ => none
  else
    match cur with
    | Node.map m => some (Node.map (dset m (PyKey.ks p) v))
    | _ => none

/-- One traversal-plus-write of `set_nested_value` over the parsed parts
(lines 109-134).  A traversal part over a list pads the list with empty
dicts up to the index and descends; over a dict it creates a fresh `[]`
or `{}` member chosen by the *next* part's kind when the key is absent.
`none` models a Python exception: all-digit traversal over a dict hits
`current.append` (`AttributeError`) when the dict is short, or
`current[int]` (`KeyError`) when the integer key is absent; a non-digit
traversal over a list raises `TypeError`; traversal over a scalar raises
on this or the following part (strings are the one scalar Python lets a
digit part index into, but every continuation from a string scalar also
raises before any assignment succeeds, so the call as a whole raises). -/
def setParts : Node → List String → Node → Option Node
  | _, [], _ => none
  | cur, [p], v => setFinal cur p v
  | cur, p :: q :: rest, v =>
    if isAllDigits p then
      match cur with
      | Node.seq l =>
        let l' := l ++ List.replicate (strToNat p + 1 - l.length) (Node.map [])
        match setParts (l'.getD (strToNat p) (Node.map [])) (q :: rest) v with
        | some child => some (Node.seq (l'.set (strToNat p) child))
        | none => none
      | Node.map m =>
        if m.length ≤ strToNat p then none
        else
          match dget m (PyKey.ki (strToNat p)) with
          | none => none
          | some child =>
            match setParts child (q :: rest) v with
            | some child' => some (Node.map (dset m (PyKey.ki (strToNat p)) child'))
            | none => none
      | _ => none
    else
      match cur with
      | Node.map m =>
        let child :=
          match dget m (PyKey.ks p) with
          | some c => c
          | none => if isAllDigits q then Node.seq [] else Node.map []
        match setParts child (q :: rest) v with
        | some child' => some (Node.map (dset m (PyKey.ks p) child'))
        | none => none
      | _ => none

/-- `set_nested_value(data, key_path, value)` (lines 89-134), as the tree
it leaves behind; `none` when the Python call raises (including the
`IndexError` of `parts[-1]` on an empty parts list). -/
def set_nested_value (data : Node) (keyPath : String) (value : Node) : Option Node :=
  setParts data (parseParts keyPath) value

/-- The string a dict key contributes to an f-string (`f"{prefix}.{key}"`):
string keys verbatim, integer keys in decimal. -/
def pyKeyStr : PyKey → String
  | PyKey.ks s => s
  | PyKey.ki n => natToString n

/-- Python `dict.update(other)`: fold every pair of `other` into the dict
with `dset` (insert-or-overwrite, keeping the position of existing keys). -/
def dupdate {κ α : Type} [DecidableEq κ] (d : List (κ × α)) (ps : List (κ × α)) :
    List (κ × α) :=
  ps.foldl (fun acc kv => dset acc kv.1 kv.2) d

mutual

/-- `flatten_data(data, prefix)` (lines 38-61): flattens a dict/list into a
single dict of dot-notation keys, stringifying every non-container leaf.
The result dict is built by `flat[k] = v` and `flat.update(sub)` in
traversal order. -/
def flatten_data : Node → String → List (String × String)
  | Node.map m, pre => flattenMapLoop m pre []
  | Node.seq l, pre => flattenSeqLoop l 0 pre []
  | d, pre => [(pre, pyStr d)]

/-- The `for key, value in data.items()` loop of `flatten_data`, carrying
the `flat` accumulator dict. -/
def flattenMapLoop : List (PyKey × Node) → String → List (String × String) →
    List (String × String)
  | [], _, flat => flat
  | (k, v) :: rest, pre, flat =>
    match v with
    | Node.map _ =>
      flattenMapLoop rest pre
        (dupdate flat (flatten_data v (if pre = "" then pyKeyStr k else pre ++ "." ++ pyKeyStr k)))
    | Node.seq _ =>
      flattenMapLoop rest pre
        (dupdate flat (flatten_data v (if pre = "" then pyKeyStr k else pre ++ "." ++ pyKeyStr k)))
    | _ =>
      flattenMapLoop rest pre
        (dset flat (if pre = "" then pyKeyStr k else pre ++ "." ++ pyKeyStr k) (pyStr v))

/-- The `for i, item in enumerate(data)` loop of `flatten_data`, carrying
the running index and the `flat` accumulator dict. -/
def flattenSeqLoop : List Node → Nat → String → List (String × String) →
    List (String × String)
  | [], _, _, flat => flat
  | item :: rest, i, pre, flat =>
    match item with
    | Node.map _ =>
      flattenSeqLoop rest (i + 1) pre
        (dupdate flat (flatten_data item (pre ++ "[" ++ natToString i ++ "]")))
    | Node.seq _ =>
      flattenSeqLoop rest (i + 1) pre
        (dupdate flat (flatten_data item (pre ++ "[" ++ natToString i ++ "]")))
    | _ =>
      flattenSeqLoop rest (i + 1) pre
        (dset flat (pre ++ "[" ++ natToString i ++ "]") (pyStr item))

end

mutual

/-- The raw depth-first (key, value) emission stream of `flatten_data`,
before the pairs are folded into the result dict.  When no two emitted
keys collide (the case for the well-formed trees below) `flatten_data`
returns exactly this list. -/
def flatten_pairs : Node → String → List (String × String)
  | Node.map m, pre => flattenMapPairs m pre
  | Node.seq l, pre => flattenSeqPairs l 0 pre
  | d, pre => [(pre, pyStr d)]

/-- Emission stream of the dict loop of `flatten_data`. -/
def flattenMapPairs : List (PyKey × Node) → String → List (String × String)
  | [], _ => []
  | (k, v) :: rest, pre =>
    (match v with
     | Node.map _ =>
       flatten_pairs v (if pre = "" then pyKeyStr k else pre ++ "." ++ pyKeyStr k)
     | Node.seq _ =>
       flatten_pairs v (if pre = "" then pyKeyStr k else pre ++ "." ++ pyKeyStr k)
     | _ => [((if pre = "" then pyKeyStr k else pre ++ "." ++ pyKeyStr k), pyStr v)]) ++
    flattenMapPairs rest pre

/-- Emission stream of the list loop of `flatten_data`. -/
def flattenSeqPairs : List Node → Nat → String → List (String × String)
  | [], _, _ => []
  | item :: rest, i, pre =>
    (match item with
     | Node.map _ => flatten_pairs item (pre ++ "[" ++ natToString i ++ "]")
     | Node.seq _ => flatten_pairs item (pre ++ "[" ++ natToString i ++ "]")
     | _ => [(pre ++ "[" ++ natToString i ++ "]", pyStr item)]) ++
    flattenSeqPairs rest (i + 1) pre

end

/-- `get_hashes(flat_data)` (lines 63-70): a dict mapping each key to the
hash of its value.  The hash function (MD5 hex digest in the source) is a
parameter: the engine only relies on it being deterministic. -/
def get_hashes (hash : String → String) (flat : List (String × String)) :
    List (String × String) :=
  flat.foldl (fun acc kv => dset acc kv.1 (hash kv.2)) []

/-- The changed-key detection loop of `main` (lines 188-191): a key is
collected iff it occurs in the current hashes, occurs in the old hashes,
and the two hashes differ.  Python accumulates a `set` (unordered); since
`current_hashes` is a dict its keys are unique, and the set is modelled as
the filtered key list in iteration order (no theorem below depends on
this order, only on membership). -/
def changed_keys_of (currentHashes oldHashes : List (String × String)) : List String :=
  (currentHashes.filter (fun kv =>
    match dget oldHashes kv.1 with
    | some h' => decide (h' ≠ kv.2)
    | none => false)).map Prod.fst

/-- `BATCH_SIZE` (line 13). -/
def BATCH_SIZE : Nat := 50

/-- The batching loop of `batch_translate` (lines 136-159) together with
its call trace: returns the `translated` list and the list of batches
submitted to the capability, in order.  The capability (the `GoogleTranslator`
for the target language) is a parameter returning `none` when
`translate_batch` raises for that batch; in that case the loop falls back
to extending the output with the original batch. -/
def bt_loop (cap : List String → Option (List String)) (texts : List String) :
    List String × List (List String) :=
  if h : texts = [] then ([], [])
  else
    let batch := texts.take BATCH_SIZE
    let r := bt_loop cap (texts.drop BATCH_SIZE)
    match cap batch with
    | some results => (results ++ r.1, batch :: r.2)
    | none => (batch ++ r.1, batch :: r.2)
termination_by texts.length
decreasing_by
  have hne : texts.length ≠ 0 := fun hl => h (List.eq_nil_of_length_eq_zero hl)
  simp only [List.length_drop, BATCH_SIZE]
  omega

/-- `batch_translate(texts, target_lang)` (lines 136-159): the translated
list (with per-batch fallback to the original strings on a capability
error).  The `if not texts: return []` early exit is the `[]` case of
`bt_loop`. -/
def batch_translate (cap : List String → Option (List String)) (texts : List String) :
    List String :=
  (bt_loop cap texts).1

/-- The batches `batch_translate` submits to the capability, in order
(each batch is submitted exactly once; a failed batch is not retried). -/
def batch_translate_calls (cap : List String → Option (List String)) (texts : List String) :
    List (List String) :=
  (bt_loop cap texts).2

/-- Partition into consecutive chunks of `n` (the batches
`range(0, len(texts), BATCH_SIZE)` slices out). -/
def chunksOf {α : Type} (n : Nat) : List α → List (List α)
  | [] => []
  | a :: l => (a :: l).take n :: chunksOf n (l.drop (n - 1))
termination_by l => l.length
decreasing_by
  simp only [List.length_drop, List.length_cons]
  omega

/-- `TARGET_LANGS` (line 12). -/
def TARGET_LANGS : List String := ["fr", "es", "de", "hi"]

/-- `load_json(path)` (lines 23-31) as a function of the parse attempt:
a missing or malformed (non-JSON) file yields `{}` (the `JSONDecodeError`
is logged and swallowed); a successfully parsed file yields its tree. -/
def load_json : Option Node → Node
  | some t => t
  | none => Node.map []

/-- The inputs of one run of `main`, after I/O: the parsed source file
(`load_json(SOURCE_FILE)`, `{}` = `Node.map []` when missing or malformed),
the parsed hashes file, the parsed `git show` result (`none` when git is
unavailable or fails), the parsed target file per language, the
translation capability per language (`none` = the batch raises), and the
hash function. -/
structure Env where
  sourceData : Node
  hashesData : List (String × String)
  gitOld : Option Node
  targets : String → Node
  cap : String → List String → Option (List String)
  hash : String → String

/-- What `main` does for one target language: skip (`continue`, no save),
save the updated tree, or crash (an exception from `set_nested_value`
propagates out of `main`). -/
inductive LangOutcome where
  | skip : LangOutcome
  | write : Node → LangOutcome
  | crash : LangOutcome

/-- The `for key, text in zip(keys_to_translate, translated_texts)` loop of
`main` (lines 223-224): apply `set_nested_value` for every pair in order;
`none` when one of the calls raises. -/
def apply_updates (target : Node) : List (String × String) → Option Node
  | [] => some target
  | (k, text) :: rest =>
    match set_nested_value target k (Node.vstr text) with
    | some t' => apply_updates t' rest
    | none => none

/-- `missing_keys` of `main` (line 205): the source keys absent from the
flattened target, in source iteration order. -/
def missing_keys (flatSource flatTarget : List (String × String)) : List String :=
  (flatSource.map Prod.fst).filter (fun k => !dmem flatTarget k)

/-- `keys_to_translate = list(set(missing_keys) | changed_keys)` of `main`
(line 209).  The Python set is iterated in unspecified order; it is
modelled as the missing keys followed by the changed keys not already
missing (no theorem below depends on the order chosen, only on membership
and on emptiness). -/
def keys_to_translate (missing changed : List String) : List String :=
  missing ++ changed.filter (fun k => !missing.contains k)

/-- The body of the `for lang in TARGET_LANGS` loop of `main`
(lines 198-227) for one language.  The `flat_source[k]` lookups cannot
fail in `main` (every planned key is a source key); the `getD` default is
unreachable there. -/
def processLang (cap : List String → Option (List String))
    (flatSource : List (String × String)) (changed : List String)
    (target : Node) : LangOutcome :=
  let flatTarget := flatten_data target ""
  let keysToTranslate := keys_to_translate (missing_keys flatSource flatTarget) changed
  if keysToTranslate.isEmpty then LangOutcome.skip
  else
    let texts := keysToTranslate.map (fun k => (dget flatSource k).getD "")
    let translated := batch_translate cap texts
    match apply_updates target (keysToTranslate.zip translated) with
    | some t' => LangOutcome.write t'
    | none => LangOutcome.crash

/-- Baseline acquisition of `main` (lines 173-185): the stored hashes file
if truthy; else the fingerprint of the `git show HEAD~1` tree when git
returned a truthy document; else the current fingerprint. -/
def resolve_old_hashes (env : Env) (currentHashes : List (String × String)) :
    List (String × String) :=
  if env.hashesData.isEmpty then
    match env.gitOld with
    | some oldContent =>
      if pyTruthy oldContent then get_hashes env.hash (flatten_data oldContent "")
      else currentHashes
    | none => currentHashes
  else env.hashesData

/-- The language loop of `main`: the `save_json(target_file, ...)` calls
performed (in order) and whether an exception aborted the loop (in which
case the remaining languages and the final hashes write never run). -/
def mainLoop (env : Env) (flatSource : List (String × String))
    (changed : List String) : List String → List (String × Node) × Bool
  | [] => ([], false)
  | lang :: rest =>
    match processLang (env.cap lang) flatSource changed (env.targets lang) with
    | LangOutcome.skip => mainLoop env flatSource changed rest
    | LangOutcome.write t =>
      ((lang, t) :: (mainLoop env flatSource changed rest).1,
       (mainLoop env flatSource changed rest).2)
    | LangOutcome.crash => ([], true)

/-- The observable file writes of one run of `main`. -/
structure RunResult where
  writes : List (String × Node)
  hashWrite : Option (List (String × String))

/-- `main()` (lines 161-230) as a function of its run inputs: the early
return on a falsy source document, change detection against the resolved
baseline (the `if old_hashes:` guard is redundant: an empty baseline
yields no changed keys anyway), the per-language loop, and the final
`save_json(HASHES_FILE, current_hashes)` — skipped when an exception
aborted the loop. -/
def mainModel (env : Env) : RunResult :=
  if !pyTruthy env.sourceData then ⟨[], none⟩
  else
    let flatSource := flatten_data env.sourceData ""
    let currentHashes := get_hashes env.hash flatSource
    let oldHashes := resolve_old_hashes env currentHashes
    let changed := changed_keys_of currentHashes oldHashes
    let r := mainLoop env flatSource changed TARGET_LANGS
    if r.2 then ⟨r.1, none⟩ else ⟨r.1, some currentHashes⟩

/-! ### Dictionary (association list) lemmas -/

theorem dget_dset_self {κ α : Type} [DecidableEq κ] (m : List (κ × α)) (k : κ) (v : α) :
    dget (dset m k v) k = some v := by
  induction m with
  | nil => simp [dget, dset]
  | cons kv m ih =>
    obtain ⟨k', v'⟩ := kv
    by_cases h : k' = k <;> simp [dget, dset, h, ih]

theorem dget_dset_ne {κ α : Type} [DecidableEq κ] (m : List (κ × α)) (k k' : κ) (v : α)
    (h : k' ≠ k) : dget (dset m k v) k' = dget m k' := by
  induction m with
  | nil =>
    have h' : ¬k = k' := fun hh => h hh.symm
    simp [dget, dset, h']
  | cons kv m ih =>
    obtain ⟨k₀, v₀⟩ := kv
    by_cases h0 : k₀ = k
    · subst h0
      have h' : ¬k₀ = k' := fun hh => h hh.symm
      simp [dget, dset, h']
    · by_cases h1 : k₀ = k' <;> simp [dget, dset, h0, h1, h, ih]

theorem dset_dset_self {κ α : Type} [DecidableEq κ] (m : List (κ × α)) (k : κ) (v w : α) :
    dset (dset m k v) k w = dset m k w := by
  induction m with
  | nil => simp [dset]
  | cons kv m ih =>
    obtain ⟨k₀, v₀⟩ := kv
    by_cases h : k₀ = k <;> simp [dset, h, ih]

theorem mem_dset {κ α : Type} [DecidableEq κ] (m : List (κ × α)) (k : κ) (v : α)
    (kv : κ × α) : kv ∈ dset m k v → kv ∈ m ∨ kv = (k, v) := by
  induction m with
  | nil =>
    intro h
    exact Or.inr (by simpa [dset] using h)
  | cons kv₀ m ih =>
    obtain ⟨k₀, v₀⟩ := kv₀
    intro h
    by_cases h0 : k₀ = k
    · subst h0
      rcases List.mem_cons.mp (by simpa [dset] using h) with h1 | h1
      · exact Or.inr h1
      · exact Or.inl (List.mem_cons_of_mem _ h1)
    · rcases List.mem_cons.mp (by simpa [dset, h0] using h) with h1 | h1
      · subst h1
        exact Or.inl (List.mem_cons_self _ _)
      · rcases ih h1 with h2 | h2
        · exact Or.inl (List.mem_cons_of_mem _ h2)
        · exact Or.inr h2

theorem dset_eq_append {κ α : Type} [DecidableEq κ] (m : List (κ × α)) (k : κ) (v : α) :
    dget m k = none → dset m k v = m ++ [(k, v)] := by
  induction m with
  | nil => intro _; simp [dset]
  | cons kv m ih =>
    obtain ⟨k₀, v₀⟩ := kv
    intro h
    by_cases h0 : k₀ = k
    · simp [dget, h0] at h
    · simp only [dget, if_neg h0] at h
      simp [dset, h0, ih h]

theorem dget_eq_none_iff {κ α : Type} [DecidableEq κ] (m : List (κ × α)) (k : κ) :
    dget m k = none ↔ k ∉ m.map Prod.fst := by
  induction m with
  | nil => simp [dget]
  | cons kv m ih =>
    obtain ⟨k₀, v₀⟩ := kv
    by_cases h0 : k₀ = k
    · subst h0
      simp [dget]
    · have h0' : ¬k = k₀ := fun hh => h0 hh.symm
      simp [dget, h0, h0', ih]

theorem dget_isSome_iff {κ α : Type} [DecidableEq κ] (m : List (κ × α)) (k : κ) :
    (dget m k).isSome = true ↔ k ∈ m.map Prod.fst := by
  constructor
  · intro h
    by_contra hmem
    rw [← dget_eq_none_iff] at hmem
    rw [hmem] at h
    simp at h
  · intro hmem
    cases hd : dget m k with
    | none => exact absurd ((dget_eq_none_iff m k).mp hd) (fun hh => hh hmem)
    | some v => simp

theorem dget_mem {κ α : Type} [DecidableEq κ] (m : List (κ × α)) (k : κ) (v : α) :
    dget m k = some v → (k, v) ∈ m := by
  induction m with
  | nil => intro h; simp [dget] at h
  | cons kv m ih =>
    obtain ⟨k₀, v₀⟩ := kv
    intro h
    by_cases h0 : k₀ = k
    · subst h0
      simp [dget] at h
      rw [← h]
      exact List.mem_cons_self _ _
    · simp only [dget, if_neg h0] at h
      exact List.mem_cons_of_mem _ (ih h)

theorem dget_of_mem_nodup {κ α : Type} [DecidableEq κ] (m : List (κ × α)) (k : κ) (v : α) :
    (m.map Prod.fst).Nodup → (k, v) ∈ m → dget m k = some v := by
  induction m with
  | nil => intro _ h; simp at h
  | cons kv₀ m ih =>
    obtain ⟨k₀, v₀⟩ := kv₀
    intro hnd h
    simp only [List.map_cons, List.nodup_cons] at hnd
    rcases List.mem_cons.mp h with h1 | h1
    · have hk : k = k₀ := congrArg Prod.fst h1
      have hv : v = v₀ := congrArg Prod.snd h1
      subst hk; subst hv
      simp [dget]
    · have hmem : k ∈ m.map Prod.fst := List.mem_map.mpr ⟨(k, v), h1, rfl⟩
      have hne : ¬k₀ = k := fun he => hnd.1 (by rw [he]; exact hmem)
      simp [dget, hne, ih hnd.2 h1]

theorem mem_dupdate {κ α : Type} [DecidableEq κ] (ps d : List (κ × α)) (kv : κ × α) :
    kv ∈ dupdate d ps → kv ∈ d ∨ kv ∈ ps := by
  induction ps generalizing d with
  | nil => intro h; exact Or.inl (by simpa [dupdate] using h)
  | cons p ps ih =>
    obtain ⟨k, v⟩ := p
    intro h
    have h' : kv ∈ dupdate (dset d k v) ps := by simpa [dupdate] using h
    rcases ih _ h' with h'' | h''
    · rcases mem_dset _ _ _ _ h'' with h3 | h3
      · exact Or.inl h3
      · exact Or.inr (List.mem_cons.mpr (Or.inl h3))
    · exact Or.inr (List.mem_cons_of_mem _ h'')

/-! ### Decimal digit lemmas -/

theorem digitChar_spec (d : Nat) (hd : d < 10) :
    (Char.ofNat (48 + d)).isDigit = true ∧ (Char.ofNat (48 + d)).toNat = 48 + d ∧
    Char.ofNat (48 + d) ≠ '.' ∧ Char.ofNat (48 + d) ≠ '[' ∧ Char.ofNat (48 + d) ≠ ']' := by
  interval_cases d <;> exact ⟨by decide, by decide, by decide, by decide, by decide⟩

theorem natToDigits_ne_nil (n : Nat) : natToDigits n ≠ [] := by
  rw [natToDigits]
  split <;> simp

theorem natToDigits_mem (n : Nat) (c : Char) (hc : c ∈ natToDigits n) :
    ∃ d, d < 10 ∧ c = Char.ofNat (48 + d) := by
  induction n using Nat.strong_induction_on with
  | _ n ih =>
    rw [natToDigits] at hc
    split at hc
    · next h =>
      have hc' : c = Char.ofNat (48 + n) := by simpa using hc
      exact ⟨n, h, hc'⟩
    · next h =>
      rcases List.mem_append.mp hc with h1 | h1
      · exact ih (n / 10) (Nat.div_lt_self (by omega) (by omega)) h1
      · have hc' : c = Char.ofNat (48 + n % 10) := by simpa using h1
        exact ⟨n % 10, Nat.mod_lt _ (by omega), hc'⟩

theorem natToDigits_isDigit (n : Nat) (c : Char) (hc : c ∈ natToDigits n) :
    c.isDigit = true := by
  obtain ⟨d, hd, rfl⟩ := natToDigits_mem n c hc
  exact (digitChar_spec d hd).1

theorem isAllDigits_natToString (n : Nat) : isAllDigits (natToString n) = true := by
  simp only [isAllDigits, natToString, Bool.and_eq_true, List.all_eq_true]
  exact ⟨by simpa using natToDigits_ne_nil n, fun c hc => natToDigits_isDigit n c hc⟩

theorem foldl_digits (n : Nat) : ∀ a : Nat,
    (natToDigits n).foldl (fun a c => a * 10 + (c.toNat - 48)) a =
      a * 10 ^ (natToDigits n).length + n := by
  induction n using Nat.strong_induction_on with
  | _ n ih =>
    intro a
    rw [natToDigits]
    split
    · next h =>
      simp [(digitChar_spec n h).2.1]
    · next h =>
      rw [List.foldl_append]
      rw [ih (n / 10) (Nat.div_lt_self (by omega) (by omega)) a]
      simp only [List.length_append, List.foldl_cons, List.foldl_nil, List.length_cons,
        List.length_nil]
      rw [(digitChar_spec (n % 10) (Nat.mod_lt _ (by omega))).2.1]
      rw [pow_succ]
      have hmod : 48 + n % 10 - 48 = n % 10 := by omega
      rw [hmod]
      have hexp : (a * 10 ^ (natToDigits (n / 10)).length + n / 10) * 10 + n % 10 =
          a * (10 ^ (natToDigits (n / 10)).length * 10) + (n / 10 * 10 + n % 10) := by ring
      rw [hexp]
      omega

theorem strToNat_natToString (n : Nat) : strToNat (natToString n) = n := by
  simpa [strToNat, natToString] using foldl_digits n 0

theorem natToString_ne_empty (n : Nat) : (natToString n).data ≠ [] := by
  simpa [natToString] using natToDigits_ne_nil n

/-! ### Structural path segments (the spec's `Path`)

A path addresses a node structurally: `key` segments address dict members,
`idx` segments address list positions.  `renderPath` is the string the
flattening loops build for a path (a key after a non-root position is
prefixed with `.`, an index is wrapped in `[...]`); `parsePath` is the
segment sequence `set_nested_value` effectively works with: its tokenizer
(`parseParts`) followed by the all-digit test it applies to each part. -/

inductive Seg where
  | key : String → Seg
  | idx : Nat → Seg
deriving DecidableEq, Repr

/-- The token a segment contributes to a rendered path string. -/
def segString : Seg → String
  | Seg.key k => k
  | Seg.idx i => natToString i

/-- Characters with no special meaning to the tokenizer of
`set_nested_value`. -/
def goodKeyChar (c : Char) : Bool :=
  !(c = '.') && !(c = '[') && !(c = ']')

/-- A dict key that survives the codec: nonempty, not all digits (an
all-digit key would be re-read as an index), and free of the tokenizer's
special characters. -/
def goodKeyStr (s : String) : Bool :=
  !(s.data = []) && !isAllDigits s && s.data.all goodKeyChar

/-- Keys rendered by `flatten_data` for positions after the first segment:
`.key` for dict members, `[i]` for list positions. -/
def renderCont : List Seg → String
  | [] => ""
  | Seg.key k :: p => "." ++ k ++ renderCont p
  | Seg.idx i :: p => "[" ++ natToString i ++ "]" ++ renderCont p

/-- The full rendered path string, as built by `flatten_data` starting
from an empty prefix: the leading key has no `.`. -/
def renderPath : List Seg → String
  | [] => ""
  | Seg.key k :: p => k ++ renderCont p
  | Seg.idx i :: p => "[" ++ natToString i ++ "]" ++ renderCont p

/-- The rendered path of `p` under the running prefix `pre`, as
`flatten_data` builds it (`f"{prefix}.{key}"` with the empty-prefix
special case, `f"{prefix}[{i}]"`). -/
def renderAt (pre : String) (p : List Seg) : String :=
  if pre = "" then renderPath p else pre ++ renderCont p

/-- The segment `set_nested_value` reads out of one tokenized part: all
digits means a list index, anything else a dict key. -/
def parseSeg (p : String) : Seg :=
  if isAllDigits p then Seg.idx (strToNat p) else Seg.key p

/-- The segment sequence `set_nested_value` effectively operates on:
tokenize (lines 94-107), then classify each part by `part.isdigit()`. -/
def parsePath (s : String) : List Seg :=
  (parseParts s).map parseSeg

/-- A segment whose rendered token survives the codec: any index, or a
key that is nonempty, not all-digit, and free of special characters. -/
def goodSeg : Seg → Bool
  | Seg.key k => goodKeyStr k
  | Seg.idx _ => true

/-- A path whose key segments survive the codec. -/
@[reducible]
def goodSegs (q : List Seg) : Prop :=
  ∀ s ∈ q, goodSeg s = true

/-! ### Scanner lemmas: parsing a rendered path recovers the parts -/

theorem isDigit_goodKeyChar (c : Char) (h : c.isDigit = true) : goodKeyChar c = true := by
  simp only [goodKeyChar, Bool.and_eq_true, Bool.not_eq_true']
  refine ⟨⟨?_, ?_⟩, ?_⟩ <;>
    · apply decide_eq_false
      intro he
      subst he
      simp [Char.isDigit] at h

theorem scanParts_plain (ks : List Char) (hks : ∀ c ∈ ks, goodKeyChar c = true) :
    ∀ cs parts cur, scanParts (ks ++ cs) parts cur = scanParts cs parts (cur ++ ks) := by
  induction ks with
  | nil => intro cs parts cur; simp
  | cons c ks ih =>
    intro cs parts cur
    have hc := hks c (List.mem_cons_self _ _)
    simp only [goodKeyChar, Bool.and_eq_true, Bool.not_eq_true', decide_eq_false_iff_not] at hc
    rw [List.cons_append, scanParts, if_neg hc.1.1, if_neg hc.1.2, if_neg hc.2]
    rw [ih (fun c hc => hks c (List.mem_cons_of_mem _ hc)) cs parts (cur ++ [c])]
    rw [List.append_assoc]
    rfl

/-- Flushing the scanner's accumulated part. -/
def flushPart (parts : List String) (cur : List Char) : List String :=
  if cur = [] then parts else parts ++ [⟨cur⟩]

theorem scanParts_dot (cs : List Char) (parts : List String) (cur : List Char) :
    scanParts ('.' :: cs) parts cur = scanParts cs (flushPart parts cur) [] := by
  rw [scanParts]
  simp [flushPart]

theorem scanParts_lbrack (cs : List Char) (parts : List String) (cur : List Char) :
    scanParts ('[' :: cs) parts cur = scanParts cs (flushPart parts cur) [] := by
  rw [scanParts]
  simp [flushPart]

theorem scanParts_rbrack (cs : List Char) (parts : List String) (cur : List Char) :
    scanParts (']' :: cs) parts cur = scanParts cs parts cur := by
  rw [scanParts]
  simp

theorem scanParts_nil (parts : List String) (cur : List Char) :
    scanParts [] parts cur = flushPart parts cur := by
  rw [scanParts, flushPart]

theorem flushPart_key (parts : List String) (k : String) (hk : ¬k.data = []) :
    flushPart parts k.data = parts ++ [k] := by
  simp only [flushPart, if_neg hk]

theorem natToString_digits_good (i : Nat) :
    ∀ c ∈ (natToString i).data, goodKeyChar c = true := by
  intro c hc
  exact isDigit_goodKeyChar c (natToDigits_isDigit i c (by simpa [natToString] using hc))

theorem scanParts_renderCont (q : List Seg) (hq : goodSegs q) :
    ∀ parts cur, scanParts ((renderCont q).data) parts cur =
      flushPart parts cur ++ q.map segString := by
  induction q with
  | nil =>
    intro parts cur
    simp [renderCont, scanParts_nil]
  | cons s q ih =>
    have hq' : goodSegs q := fun s hs => hq s (List.mem_cons_of_mem _ hs)
    intro parts cur
    match s with
    | Seg.key k =>
      have hk := hq (Seg.key k) (List.mem_cons_self _ _)
      simp only [goodSeg, goodKeyStr, Bool.and_eq_true, Bool.not_eq_true',
        decide_eq_false_iff_not, List.all_eq_true] at hk
      have hdata : (renderCont (Seg.key k :: q)).data = '.' :: (k.data ++ (renderCont q).data) := by
        simp [renderCont, String.data_append]
      rw [hdata, scanParts_dot, scanParts_plain k.data hk.2 _ _ [], List.nil_append,
        ih hq' (flushPart parts cur) k.data, flushPart_key _ _ hk.1.1, List.append_assoc]
      rfl
    | Seg.idx i =>
      have hdata : (renderCont (Seg.idx i :: q)).data =
          '[' :: ((natToString i).data ++ (']' :: (renderCont q).data)) := by
        simp [renderCont, String.data_append]
      rw [hdata, scanParts_lbrack, scanParts_plain _ (natToString_digits_good i) _ _ [],
        List.nil_append, scanParts_rbrack, ih hq' (flushPart parts cur) (natToString i).data,
        flushPart_key _ _ (natToString_ne_empty i), List.append_assoc]
      rfl

theorem parseParts_renderPath (q : List Seg) (hq : goodSegs q) :
    parseParts (renderPath q) = q.map segString := by
  match q with
  | [] => rfl
  | Seg.key k :: q' =>
    have hq' : goodSegs q' := fun s hs => hq s (List.mem_cons_of_mem _ hs)
    have hk := hq (Seg.key k) (List.mem_cons_self _ _)
    simp only [goodSeg, goodKeyStr, Bool.and_eq_true, Bool.not_eq_true',
      decide_eq_false_iff_not, List.all_eq_true] at hk
    have hdata : (renderPath (Seg.key k :: q')).data = k.data ++ (renderCont q').data := by
      simp [renderPath, String.data_append]
    rw [parseParts, hdata, scanParts_plain k.data hk.2 _ _ [], List.nil_append,
      scanParts_renderCont q' hq' [] k.data, flushPart_key _ _ hk.1.1, List.nil_append]
    rfl
  | Seg.idx i :: q' =>
    have hq' : goodSegs q' := fun s hs => hq s (List.mem_cons_of_mem _ hs)
    have hdata : (renderPath (Seg.idx i :: q')).data =
        '[' :: ((natToString i).data ++ (']' :: (renderCont q').data)) := by
      simp [renderPath, String.data_append]
    rw [parseParts, hdata, scanParts_lbrack, scanParts_plain _ (natToString_digits_good i) _ _ [],
      List.nil_append, scanParts_rbrack,
      scanParts_renderCont q' hq' (flushPart [] []) (natToString i).data]
    rw [show flushPart [] [] = ([] : List String) from rfl,
      flushPart_key _ _ (natToString_ne_empty i), List.nil_append]
    rfl

theorem parseSeg_segString (s : Seg) (hs : goodSeg s = true) :
    parseSeg (segString s) = s := by
  match s with
  | Seg.key k =>
    simp only [goodSeg, goodKeyStr, Bool.and_eq_true, Bool.not_eq_true'] at hs
    simp [parseSeg, segString, hs.1.2]
  | Seg.idx i =>
    simp [parseSeg, segString, isAllDigits_natToString, strToNat_natToString]

theorem parsePath_renderPath (q : List Seg) (hq : goodSegs q) :
    parsePath (renderPath q) = q := by
  rw [parsePath, parseParts_renderPath q hq, List.map_map]
  have : ∀ s ∈ q, (parseSeg ∘ segString) s = id s := by
    intro s hs
    exact parseSeg_segString s (hq s hs)
  rw [List.map_congr_left this, List.map_id]

/-! ### Claim C6 -/

/-- C6 counterexample: the claim quantifies over *every* sequence of Key
and Index segments, but rendering the single all-digit Key `"0"` yields
the string `"0"`, which parses back as the Index `0`, not the Key `"0"`:
the Key-vs-Index kind is not reconstructed. -/
theorem C6_counterexample :
    parsePath (renderPath [Seg.key "0"]) ≠ [Seg.key "0"] := by
  decide

/-- C6 (amended): for every path whose Key segments are nonempty, not made
solely of decimal digits, and free of the characters `.`, `[`, `]`,
parsing the rendered string reconstructs the exact segment sequence,
including each segment's Key-vs-Index kind. -/
theorem C6_parse_render (q : List Seg) (hq : goodSegs q) :
    parsePath (renderPath q) = q :=
  parsePath_renderPath q hq

/-- C6 witness: the amended round-trip at a concrete mixed path. -/
theorem C6_witness :
    parsePath (renderPath [Seg.key "a", Seg.idx 0, Seg.key "b7", Seg.idx 12]) =
      [Seg.key "a", Seg.idx 0, Seg.key "b7", Seg.idx 12] :=
  C6_parse_render [Seg.key "a", Seg.idx 0, Seg.key "b7", Seg.idx 12] (by decide)

/-! ### Claim C3 -/

/-- C3: a path is in the changed set iff it carries a hash in both the
current and the baseline fingerprint and the two hashes differ; a path
present in only one of the two mappings is never reported as changed. -/
theorem C3_changed_keys (cur old : List (String × String)) (k : String)
    (hnd : (cur.map Prod.fst).Nodup) :
    k ∈ changed_keys_of cur old ↔
      ∃ hc hb, dget cur k = some hc ∧ dget old k = some hb ∧ hc ≠ hb := by
  constructor
  · intro hmem
    obtain ⟨⟨k', hc⟩, hin, hk⟩ := List.mem_map.mp hmem
    obtain ⟨hincur, hp⟩ := List.mem_filter.mp hin
    subst hk
    cases hold : dget old k' with
    | none => rw [hold] at hp; simp at hp
    | some hb =>
      rw [hold] at hp
      simp only [decide_eq_true_eq] at hp
      exact ⟨hc, hb, dget_of_mem_nodup _ _ _ hnd hincur, rfl, fun he => hp (he ▸ rfl)⟩
  · rintro ⟨hc, hb, hcur, hold, hne⟩
    apply List.mem_map.mpr
    refine ⟨(k, hc), List.mem_filter.mpr ⟨dget_mem _ _ _ hcur, ?_⟩, rfl⟩
    rw [hold]
    simp only [decide_eq_true_eq]
    exact fun he => hne he.symm

/-- C3 witness: the characterization applied to concrete fingerprints in
which `a` changed, `b` is unchanged, `c` exists only in the current
fingerprint and `d` only in the baseline. -/
theorem C3_witness :
    ("a" ∈ changed_keys_of [("a", "h1"), ("b", "h2"), ("c", "h3")]
        [("a", "h9"), ("b", "h2"), ("d", "h4")] ↔
      ∃ hc hb, dget [("a", "h1"), ("b", "h2"), ("c", "h3")] "a" = some hc ∧
        dget [("a", "h9"), ("b", "h2"), ("d", "h4")] "a" = some hb ∧ hc ≠ hb) :=
  C3_changed_keys [("a", "h1"), ("b", "h2"), ("c", "h3")]
    [("a", "h9"), ("b", "h2"), ("d", "h4")] "a" (by decide)

/-! ### Claim C4 -/

theorem chunksOf_cons {α : Type} (n : Nat) (hn : n ≠ 0) (a : α) (l : List α) :
    chunksOf n (a :: l) = (a :: l).take n :: chunksOf n ((a :: l).drop n) := by
  obtain ⟨m, rfl⟩ : ∃ m, n = m + 1 := ⟨n - 1, by omega⟩
  rw [chunksOf, List.drop_succ_cons]
  simp

theorem bt_loop_nil (cap : List String → Option (List String)) :
    bt_loop cap [] = ([], []) := by
  rw [bt_loop]
  simp

theorem bt_loop_cons (cap : List String → Option (List String)) (t : String) (ts : List String) :
    bt_loop cap (t :: ts) =
      match cap ((t :: ts).take BATCH_SIZE) with
      | some results => (results ++ (bt_loop cap ((t :: ts).drop BATCH_SIZE)).1,
          (t :: ts).take BATCH_SIZE :: (bt_loop cap ((t :: ts).drop BATCH_SIZE)).2)
      | none => ((t :: ts).take BATCH_SIZE ++ (bt_loop cap ((t :: ts).drop BATCH_SIZE)).1,
          (t :: ts).take BATCH_SIZE :: (bt_loop cap ((t :: ts).drop BATCH_SIZE)).2) := by
  rw [bt_loop]
  simp

theorem chunksOf_nil {α : Type} (n : Nat) : chunksOf n ([] : List α) = [] := by
  rw [chunksOf]

theorem chunksOf_ne_nil_of_get {α : Type} (texts : List α) (ci : Nat) (b : List α)
    (hb : (chunksOf BATCH_SIZE texts)[ci]? = some b) : texts ≠ [] := by
  intro he
  subst he
  simp [chunksOf] at hb

theorem bt_loop_spec (cap : List String → Option (List String))
    (hlen : ∀ b r, cap b = some r → r.length = b.length) :
    ∀ (n : Nat) (texts : List String), texts.length ≤ n →
      (bt_loop cap texts).1.length = texts.length ∧
      (bt_loop cap texts).2 = chunksOf BATCH_SIZE texts ∧
      (∀ ci b, (chunksOf BATCH_SIZE texts)[ci]? = some b → cap b = none →
        ∀ j, j < b.length → (bt_loop cap texts).1[BATCH_SIZE * ci + j]? = b[j]?) ∧
      (∀ ci b r, (chunksOf BATCH_SIZE texts)[ci]? = some b → cap b = some r →
        ∀ j, j < r.length → (bt_loop cap texts).1[BATCH_SIZE * ci + j]? = r[j]?) := by
  intro n
  induction n with
  | zero =>
    intro texts h
    have he : texts = [] := List.eq_nil_of_length_eq_zero (Nat.le_zero.mp h)
    subst he
    refine ⟨by rw [bt_loop_nil], by rw [bt_loop_nil, chunksOf_nil], ?_, ?_⟩
    · intro ci b hb
      exact absurd rfl (chunksOf_ne_nil_of_get _ _ _ hb)
    · intro ci b r hb
      exact absurd rfl (chunksOf_ne_nil_of_get _ _ _ hb)
  | succ n ih =>
    intro texts h
    match texts with
    | [] =>
      refine ⟨by rw [bt_loop_nil], by rw [bt_loop_nil, chunksOf_nil], ?_, ?_⟩
      · intro ci b hb
        exact absurd rfl (chunksOf_ne_nil_of_get _ _ _ hb)
      · intro ci b r hb
        exact absurd rfl (chunksOf_ne_nil_of_get _ _ _ hb)
    | t :: ts =>
      have hdl : ((t :: ts).drop BATCH_SIZE).length ≤ n := by
        simp only [List.length_drop, List.length_cons, BATCH_SIZE]
        simp only [List.length_cons] at h
        omega
      obtain ⟨ih1, ih2, ih3, ih4⟩ := ih ((t :: ts).drop BATCH_SIZE) hdl
      have hchunks : chunksOf BATCH_SIZE (t :: ts) =
          (t :: ts).take BATCH_SIZE :: chunksOf BATCH_SIZE ((t :: ts).drop BATCH_SIZE) :=
        chunksOf_cons BATCH_SIZE (by decide) t ts
      have hBlen : ((t :: ts).drop BATCH_SIZE) ≠ [] →
          ((t :: ts).take BATCH_SIZE).length = BATCH_SIZE := by
        intro hne
        have : ((t :: ts).drop BATCH_SIZE).length ≠ 0 := fun hz =>
          hne (List.eq_nil_of_length_eq_zero hz)
        simp only [List.length_drop, List.length_cons, BATCH_SIZE] at this
        simp only [List.length_take, List.length_cons, BATCH_SIZE]
        omega
      -- common continuation for a known first block of the output
      have main : ∀ first : List String,
          bt_loop cap (t :: ts) =
            (first ++ (bt_loop cap ((t :: ts).drop BATCH_SIZE)).1,
             (t :: ts).take BATCH_SIZE :: (bt_loop cap ((t :: ts).drop BATCH_SIZE)).2) →
          first.length = ((t :: ts).take BATCH_SIZE).length →
          ((∀ b, (t :: ts).take BATCH_SIZE = b → cap b = none →
             ∀ j, j < b.length → first[j]? = b[j]?) ∧
           (∀ b r, (t :: ts).take BATCH_SIZE = b → cap b = some r →
             ∀ j, j < r.length → first[j]? = r[j]?)) →
          (bt_loop cap (t :: ts)).1.length = (t :: ts).length ∧
          (bt_loop cap (t :: ts)).2 = chunksOf BATCH_SIZE (t :: ts) ∧
          (∀ ci b, (chunksOf BATCH_SIZE (t :: ts))[ci]? = some b → cap b = none →
            ∀ j, j < b.length →
              (bt_loop cap (t :: ts)).1[BATCH_SIZE * ci + j]? = b[j]?) ∧
          (∀ ci b r, (chunksOf BATCH_SIZE (t :: ts))[ci]? = some b → cap b = some r →
            ∀ j, j < r.length →
              (bt_loop cap (t :: ts)).1[BATCH_SIZE * ci + j]? = r[j]?) := by
        intro first hbt hfl ⟨hfail, hok⟩
        have hright : ∀ ci j, ((t :: ts).drop BATCH_SIZE) ≠ [] →
            (first ++ (bt_loop cap ((t :: ts).drop BATCH_SIZE)).1)[BATCH_SIZE * (ci + 1) + j]? =
              (bt_loop cap ((t :: ts).drop BATCH_SIZE)).1[BATCH_SIZE * ci + j]? := by
          intro ci j hne
          have hf50 : first.length = BATCH_SIZE := by rw [hfl]; exact hBlen hne
          have hle : first.length ≤ BATCH_SIZE * (ci + 1) + j := by
            rw [hf50]
            simp only [BATCH_SIZE]
            omega
          rw [List.getElem?_append_right hle, hf50]
          congr 1
          simp only [BATCH_SIZE]
          omega
        refine ⟨?_, ?_, ?_, ?_⟩
        · rw [hbt]
          simp only [List.length_append, hfl, ih1, List.length_take, List.length_drop,
            List.length_cons]
          omega
        · rw [hbt, hchunks]
          simp only [ih2]
        · intro ci b hb hcb j hj
          rw [hchunks] at hb
          match ci, hb with
          | 0, hb =>
            have hbB : (t :: ts).take BATCH_SIZE = b := by
              simpa using hb
            rw [hbt]
            dsimp only
            simp only [Nat.mul_zero, Nat.zero_add]
            have hjf : j < first.length := by rw [hfl, hbB]; exact hj
            rw [List.getElem?_append_left hjf]
            exact hfail b hbB hcb j hj
          | ci + 1, hb =>
            have hb' : (chunksOf BATCH_SIZE ((t :: ts).drop BATCH_SIZE))[ci]? = some b := by
              simpa using hb
            have hne := chunksOf_ne_nil_of_get _ _ _ hb'
            rw [hbt]
            dsimp only
            rw [hright ci j hne]
            exact ih3 ci b hb' hcb j hj
        · intro ci b r hb hcb j hj
          rw [hchunks] at hb
          match ci, hb with
          | 0, hb =>
            have hbB : (t :: ts).take BATCH_SIZE = b := by
              simpa using hb
            rw [hbt]
            dsimp only
            simp only [Nat.mul_zero, Nat.zero_add]
            have hjf : j < first.length := by
              rw [hfl, hbB, ← hlen b r hcb]
              exact hj
            rw [List.getElem?_append_left hjf]
            exact hok b r hbB hcb j hj
          | ci + 1, hb =>
            have hb' : (chunksOf BATCH_SIZE ((t :: ts).drop BATCH_SIZE))[ci]? = some b := by
              simpa using hb
            have hne := chunksOf_ne_nil_of_get _ _ _ hb'
            rw [hbt]
            dsimp only
            rw [hright ci j hne]
            exact ih4 ci b r hb' hcb j hj
      cases hc : cap ((t :: ts).take BATCH_SIZE) with
      | none =>
        refine main ((t :: ts).take BATCH_SIZE) (by rw [bt_loop_cons, hc]) rfl ⟨?_, ?_⟩
        · intro b hbB _ j hj
          rw [hbB]
        · intro b r hbB hcb
          rw [hbB] at hc
          rw [hc] at hcb
          exact absurd hcb (by simp)
      | some results =>
        refine main results (by rw [bt_loop_cons, hc]) ?_ ⟨?_, ?_⟩
        · exact hlen _ _ hc
        · intro b hbB hcb
          rw [hbB] at hc
          rw [hc] at hcb
          exact absurd hcb (by simp)
        · intro b r hbB hcb j hj
          rw [hbB] at hc
          rw [hc] at hcb
          have : results = r := by injection hcb
          rw [this]

/-- C4: with a capability that returns same-length batches when it
succeeds, `batch_translate` (i) returns as many results as inputs,
(ii) submits exactly the consecutive `BATCH_SIZE`-chunks of the input,
each once, in order (a failed batch is not retried), (iii) on a failed
chunk the corresponding output positions hold that chunk's original
strings, and (iv) on a successful chunk they hold the capability's
results in order; no exception escapes the loop (the fallback is total). -/
theorem C4_batch_translate (cap : List String → Option (List String)) (texts : List String)
    (hlen : ∀ b r, cap b = some r → r.length = b.length) :
    (batch_translate cap texts).length = texts.length ∧
    batch_translate_calls cap texts = chunksOf BATCH_SIZE texts ∧
    (∀ ci b, (chunksOf BATCH_SIZE texts)[ci]? = some b → cap b = none →
      ∀ j, j < b.length →
        (batch_translate cap texts)[BATCH_SIZE * ci + j]? = b[j]?) ∧
    (∀ ci b r, (chunksOf BATCH_SIZE texts)[ci]? = some b → cap b = some r →
      ∀ j, j < r.length →
        (batch_translate cap texts)[BATCH_SIZE * ci + j]? = r[j]?) :=
  bt_loop_spec cap hlen texts.length texts (Nat.le_refl _)

/-- C4 witness: the specification applied to a concrete two-text input
with a capability that succeeds with same-length output. -/
theorem C4_witness :
    (batch_translate (fun b => some b) ["x", "y"]).length = (["x", "y"] : List String).length ∧
    batch_translate_calls (fun b => some b) ["x", "y"] = chunksOf BATCH_SIZE ["x", "y"] ∧
    (∀ ci b, (chunksOf BATCH_SIZE (["x", "y"] : List String))[ci]? = some b →
      (fun (b : List String) => some b) b = none →
      ∀ j, j < b.length →
        (batch_translate (fun b => some b) ["x", "y"])[BATCH_SIZE * ci + j]? = b[j]?) ∧
    (∀ ci b r, (chunksOf BATCH_SIZE (["x", "y"] : List String))[ci]? = some b →
      (fun (b : List String) => some b) b = some r →
      ∀ j, j < r.length →
        (batch_translate (fun b => some b) ["x", "y"])[BATCH_SIZE * ci + j]? = r[j]?) :=
  C4_batch_translate (fun b => some b) ["x", "y"]
    (fun b r h => by injection h with h; rw [← h])

/-! ### Node size (for strong induction over the nested tree type) -/

mutual

def nodeSize : Node → Nat
  | Node.map m => 1 + entriesSize m
  | Node.seq l => 1 + itemsSize l
  | _ => 1

def entriesSize : List (PyKey × Node) → Nat
  | [] => 0
  | (_, v) :: rest => 1 + nodeSize v + entriesSize rest

def itemsSize : List Node → Nat
  | [] => 0
  | v :: rest => 1 + nodeSize v + itemsSize rest

end

theorem nodeSize_pos (d : Node) : 1 ≤ nodeSize d := by
  cases d <;> (simp only [nodeSize]; omega)

theorem nodeSize_le_entriesSize (m : List (PyKey × Node)) (k : PyKey) (v : Node) :
    (k, v) ∈ m → nodeSize v ≤ entriesSize m := by
  induction m with
  | nil => intro h; simp at h
  | cons kv m ih =>
    obtain ⟨k₀, v₀⟩ := kv
    intro h
    rcases List.mem_cons.mp h with h | h
    · have : v = v₀ := congrArg Prod.snd h
      subst this
      simp [entriesSize]
      omega
    · have := ih h
      simp [entriesSize]
      omega

theorem nodeSize_le_itemsSize (l : List Node) (v : Node) :
    v ∈ l → nodeSize v ≤ itemsSize l := by
  induction l with
  | nil => intro h; simp at h
  | cons v₀ l ih =>
    intro h
    rcases List.mem_cons.mp h with h | h
    · subst h
      simp [itemsSize]
      omega
    · have := ih h
      simp [itemsSize]
      omega

/-! ### Leaves of a tree -/

/-- Whether a value is a Python container (`dict` or `list`). -/
def isContainer : Node → Bool
  | Node.map _ => true
  | Node.seq _ => true
  | _ => false

/-- `w` occurs as a non-container leaf value somewhere in `d`. -/
inductive LeafOf : Node → Node → Prop where
  | self (w : Node) : isContainer w = false → LeafOf w w
  | inMap (w : Node) (m : List (PyKey × Node)) (k : PyKey) (v : Node) :
      (k, v) ∈ m → LeafOf w v → LeafOf w (Node.map m)
  | inSeq (w : Node) (l : List Node) (v : Node) :
      v ∈ l → LeafOf w v → LeafOf w (Node.seq l)

theorem flatten_pairs_leafOf :
    ∀ (n : Nat) (d : Node), nodeSize d ≤ n → ∀ (pre : String) (kv : String × String),
      kv ∈ flatten_pairs d pre → ∃ w, LeafOf w d ∧ kv.2 = pyStr w := by
  intro n
  induction n with
  | zero =>
    intro d hd
    have := nodeSize_pos d
    omega
  | succ n ih =>
    intro d hd pre kv hkv
    cases d with
    | vstr s =>
      have he : kv = (pre, pyStr (Node.vstr s)) := by simpa [flatten_pairs] using hkv
      exact ⟨Node.vstr s, LeafOf.self _ rfl, by rw [he]⟩
    | vint i =>
      have he : kv = (pre, pyStr (Node.vint i)) := by simpa [flatten_pairs] using hkv
      exact ⟨Node.vint i, LeafOf.self _ rfl, by rw [he]⟩
    | vbool b =>
      have he : kv = (pre, pyStr (Node.vbool b)) := by simpa [flatten_pairs] using hkv
      exact ⟨Node.vbool b, LeafOf.self _ rfl, by rw [he]⟩
    | vnull =>
      have he : kv = (pre, pyStr Node.vnull) := by simpa [flatten_pairs] using hkv
      exact ⟨Node.vnull, LeafOf.self _ rfl, by rw [he]⟩
    | map m =>
      have hsz : ∀ k v, (k, v) ∈ m → nodeSize v ≤ n := by
        intro k v hm
        have h1 := nodeSize_le_entriesSize m k v hm
        simp [nodeSize] at hd
        omega
      have hkv' : kv ∈ flattenMapPairs m pre := by simpa [flatten_pairs] using hkv
      have aux : ∀ m', (∀ k v, (k, v) ∈ m' → nodeSize v ≤ n) →
          kv ∈ flattenMapPairs m' pre →
          ∃ k v w, (k, v) ∈ m' ∧ LeafOf w v ∧ kv.2 = pyStr w := by
        intro m'
        induction m' with
        | nil => intro _ h; simp [flattenMapPairs] at h
        | cons kv₀ m' ihm =>
          obtain ⟨k₀, v₀⟩ := kv₀
          intro hsz' h
          have hsub := fun k v hm => hsz' k v (List.mem_cons_of_mem (k₀, v₀) hm)
          have hrest : kv ∈ flattenMapPairs m' pre →
              ∃ k v w, (k, v) ∈ (k₀, v₀) :: m' ∧ LeafOf w v ∧ kv.2 = pyStr w := by
            intro h1
            obtain ⟨k', v', w, hm', hw, hv⟩ := ihm hsub h1
            exact ⟨k', v', w, List.mem_cons_of_mem _ hm', hw, hv⟩
          cases v₀ with
          | map m₀ =>
            simp only [flattenMapPairs] at h
            rcases List.mem_append.mp h with h1 | h1
            · obtain ⟨w, hw, hv⟩ := ih _ (hsz' k₀ _ (List.mem_cons_self _ _)) _ kv h1
              exact ⟨k₀, Node.map m₀, w, List.mem_cons_self _ _, hw, hv⟩
            · exact hrest h1
          | seq l₀ =>
            simp only [flattenMapPairs] at h
            rcases List.mem_append.mp h with h1 | h1
            · obtain ⟨w, hw, hv⟩ := ih _ (hsz' k₀ _ (List.mem_cons_self _ _)) _ kv h1
              exact ⟨k₀, Node.seq l₀, w, List.mem_cons_self _ _, hw, hv⟩
            · exact hrest h1
          | vstr s₀ =>
            simp only [flattenMapPairs] at h
            rcases List.mem_append.mp h with h1 | h1
            · exact ⟨k₀, Node.vstr s₀, Node.vstr s₀, List.mem_cons_self _ _,
                LeafOf.self _ rfl, by rw [List.mem_singleton.mp h1]⟩
            · exact hrest h1
          | vint i₀ =>
            simp only [flattenMapPairs] at h
            rcases List.mem_append.mp h with h1 | h1
            · exact ⟨k₀, Node.vint i₀, Node.vint i₀, List.mem_cons_self _ _,
                LeafOf.self _ rfl, by rw [List.mem_singleton.mp h1]⟩
            · exact hrest h1
          | vbool b₀ =>
            simp only [flattenMapPairs] at h
            rcases List.mem_append.mp h with h1 | h1
            · exact ⟨k₀, Node.vbool b₀, Node.vbool b₀, List.mem_cons_self _ _,
                LeafOf.self _ rfl, by rw [List.mem_singleton.mp h1]⟩
            · exact hrest h1
          | vnull =>
            simp only [flattenMapPairs] at h
            rcases List.mem_append.mp h with h1 | h1
            · exact ⟨k₀, Node.vnull, Node.vnull, List.mem_cons_self _ _,
                LeafOf.self _ rfl, by rw [List.mem_singleton.mp h1]⟩
            · exact hrest h1
      obtain ⟨k', v', w, hm', hw, hv⟩ := aux m hsz hkv'
      exact ⟨w, LeafOf.inMap w m k' v' hm' hw, hv⟩
    | seq l =>
      have hsz : ∀ v, v ∈ l → nodeSize v ≤ n := by
        intro v hm
        have h1 := nodeSize_le_itemsSize l v hm
        simp [nodeSize] at hd
        omega
      have hkv' : kv ∈ flattenSeqPairs l 0 pre := by simpa [flatten_pairs] using hkv
      have aux : ∀ l' i, (∀ v, v ∈ l' → nodeSize v ≤ n) →
          kv ∈ flattenSeqPairs l' i pre →
          ∃ v w, v ∈ l' ∧ LeafOf w v ∧ kv.2 = pyStr w := by
        intro l'
        induction l' with
        | nil => intro i _ h; simp [flattenSeqPairs] at h
        | cons v₀ l' ihl =>
          intro i hsz' h
          have hsub := fun v hm => hsz' v (List.mem_cons_of_mem v₀ hm)
          have hrest : kv ∈ flattenSeqPairs l' (i + 1) pre →
              ∃ v w, v ∈ v₀ :: l' ∧ LeafOf w v ∧ kv.2 = pyStr w := by
            intro h1
            obtain ⟨v', w, hm', hw, hv⟩ := ihl (i + 1) hsub h1
            exact ⟨v', w, List.mem_cons_of_mem _ hm', hw, hv⟩
          cases v₀ with
          | map m₀ =>
            simp only [flattenSeqPairs] at h
            rcases List.mem_append.mp h with h1 | h1
            · obtain ⟨w, hw, hv⟩ := ih _ (hsz' _ (List.mem_cons_self _ _)) _ kv h1
              exact ⟨Node.map m₀, w, List.mem_cons_self _ _, hw, hv⟩
            · exact hrest h1
          | seq l₀ =>
            simp only [flattenSeqPairs] at h
            rcases List.mem_append.mp h with h1 | h1
            · obtain ⟨w, hw, hv⟩ := ih _ (hsz' _ (List.mem_cons_self _ _)) _ kv h1
              exact ⟨Node.seq l₀, w, List.mem_cons_self _ _, hw, hv⟩
            · exact hrest h1
          | vstr s₀ =>
            simp only [flattenSeqPairs] at h
            rcases List.mem_append.mp h with h1 | h1
            · exact ⟨Node.vstr s₀, Node.vstr s₀, List.mem_cons_self _ _,
                LeafOf.self _ rfl, by rw [List.mem_singleton.mp h1]⟩
            · exact hrest h1
          | vint i₀ =>
            simp only [flattenSeqPairs] at h
            rcases List.mem_append.mp h with h1 | h1
            · exact ⟨Node.vint i₀, Node.vint i₀, List.mem_cons_self _ _,
                LeafOf.self _ rfl, by rw [List.mem_singleton.mp h1]⟩
            · exact hrest h1
          | vbool b₀ =>
            simp only [flattenSeqPairs] at h
            rcases List.mem_append.mp h with h1 | h1
            · exact ⟨Node.vbool b₀, Node.vbool b₀, List.mem_cons_self _ _,
                LeafOf.self _ rfl, by rw [List.mem_singleton.mp h1]⟩
            · exact hrest h1
          | vnull =>
            simp only [flattenSeqPairs] at h
            rcases List.mem_append.mp h with h1 | h1
            · exact ⟨Node.vnull, Node.vnull, List.mem_cons_self _ _,
                LeafOf.self _ rfl, by rw [List.mem_singleton.mp h1]⟩
            · exact hrest h1
      obtain ⟨v', w, hm', hw, hv⟩ := aux l 0 hsz hkv'
      exact ⟨w, LeafOf.inSeq w l v' hm' hw, hv⟩

theorem mem_flatten_data :
    ∀ (n : Nat) (d : Node), nodeSize d ≤ n → ∀ (pre : String) (kv : String × String),
      kv ∈ flatten_data d pre → kv ∈ flatten_pairs d pre := by
  intro n
  induction n with
  | zero =>
    intro d hd
    have := nodeSize_pos d
    omega
  | succ n ih =>
    intro d hd pre kv hkv
    cases d with
    | vstr s => simpa [flatten_data, flatten_pairs] using hkv
    | vint i => simpa [flatten_data, flatten_pairs] using hkv
    | vbool b => simpa [flatten_data, flatten_pairs] using hkv
    | vnull => simpa [flatten_data, flatten_pairs] using hkv
    | map m =>
      have hsz : ∀ k v, (k, v) ∈ m → nodeSize v ≤ n := by
        intro k v hm
        have h1 := nodeSize_le_entriesSize m k v hm
        simp [nodeSize] at hd
        omega
      have aux : ∀ m' flat, (∀ k v, (k, v) ∈ m' → nodeSize v ≤ n) →
          kv ∈ flattenMapLoop m' pre flat → kv ∈ flat ∨ kv ∈ flattenMapPairs m' pre := by
        intro m'
        induction m' with
        | nil => intro flat _ h; exact Or.inl (by simpa [flattenMapLoop] using h)
        | cons kv₀ m' ihm =>
          obtain ⟨k₀, v₀⟩ := kv₀
          intro flat hsz' h
          have hsub := fun k v hm => hsz' k v (List.mem_cons_of_mem (k₀, v₀) hm)
          cases v₀ with
          | map m₀ =>
            simp only [flattenMapLoop] at h
            rcases ihm _ hsub h with h1 | h1
            · rcases mem_dupdate _ _ _ h1 with h2 | h2
              · exact Or.inl h2
              · have h3 := ih _ (hsz' k₀ _ (List.mem_cons_self _ _)) _ kv h2
                refine Or.inr ?_
                simp only [flattenMapPairs]
                exact List.mem_append.mpr (Or.inl h3)
            · refine Or.inr ?_
              simp only [flattenMapPairs]
              exact List.mem_append.mpr (Or.inr h1)
          | seq l₀ =>
            simp only [flattenMapLoop] at h
            rcases ihm _ hsub h with h1 | h1
            · rcases mem_dupdate _ _ _ h1 with h2 | h2
              · exact Or.inl h2
              · have h3 := ih _ (hsz' k₀ _ (List.mem_cons_self _ _)) _ kv h2
                refine Or.inr ?_
                simp only [flattenMapPairs]
                exact List.mem_append.mpr (Or.inl h3)
            · refine Or.inr ?_
              simp only [flattenMapPairs]
              exact List.mem_append.mpr (Or.inr h1)
          | vstr s₀ =>
            simp only [flattenMapLoop] at h
            rcases ihm _ hsub h with h1 | h1
            · rcases mem_dset _ _ _ _ h1 with h2 | h2
              · exact Or.inl h2
              · refine Or.inr ?_
                simp only [flattenMapPairs]
                exact List.mem_append.mpr (Or.inl (by rw [h2]; exact List.mem_singleton.mpr rfl))
            · refine Or.inr ?_
              simp only [flattenMapPairs]
              exact List.mem_append.mpr (Or.inr h1)
          | vint i₀ =>
            simp only [flattenMapLoop] at h
            rcases ihm _ hsub h with h1 | h1
            · rcases mem_dset _ _ _ _ h1 with h2 | h2
              · exact Or.inl h2
              · refine Or.inr ?_
                simp only [flattenMapPairs]
                exact List.mem_append.mpr (Or.inl (by rw [h2]; exact List.mem_singleton.mpr rfl))
            · refine Or.inr ?_
              simp only [flattenMapPairs]
              exact List.mem_append.mpr (Or.inr h1)
          | vbool b₀ =>
            simp only [flattenMapLoop] at h
            rcases ihm _ hsub h with h1 | h1
            · rcases mem_dset _ _ _ _ h1 with h2 | h2
              · exact Or.inl h2
              · refine Or.inr ?_
                simp only [flattenMapPairs]
                exact List.mem_append.mpr (Or.inl (by rw [h2]; exact List.mem_singleton.mpr rfl))
            · refine Or.inr ?_
              simp only [flattenMapPairs]
              exact List.mem_append.mpr (Or.inr h1)
          | vnull =>
            simp only [flattenMapLoop] at h
            rcases ihm _ hsub h with h1 | h1
            · rcases mem_dset _ _ _ _ h1 with h2 | h2
              · exact Or.inl h2
              · refine Or.inr ?_
                simp only [flattenMapPairs]
                exact List.mem_append.mpr (Or.inl (by rw [h2]; exact List.mem_singleton.mpr rfl))
            · refine Or.inr ?_
              simp only [flattenMapPairs]
              exact List.mem_append.mpr (Or.inr h1)
      have hkv' : kv ∈ flattenMapLoop m pre [] := by simpa [flatten_data] using hkv
      rcases aux m [] hsz hkv' with h | h
      · simp at h
      · simpa [flatten_pairs] using h
    | seq l =>
      have hsz : ∀ v, v ∈ l → nodeSize v ≤ n := by
        intro v hm
        have h1 := nodeSize_le_itemsSize l v hm
        simp [nodeSize] at hd
        omega
      have aux : ∀ l' i flat, (∀ v, v ∈ l' → nodeSize v ≤ n) →
          kv ∈ flattenSeqLoop l' i pre flat → kv ∈ flat ∨ kv ∈ flattenSeqPairs l' i pre := by
        intro l'
        induction l' with
        | nil => intro i flat _ h; exact Or.inl (by simpa [flattenSeqLoop] using h)
        | cons v₀ l' ihl =>
          intro i flat hsz' h
          have hsub := fun v hm => hsz' v (List.mem_cons_of_mem v₀ hm)
          cases v₀ with
          | map m₀ =>
            simp only [flattenSeqLoop] at h
            rcases ihl _ _ hsub h with h1 | h1
            · rcases mem_dupdate _ _ _ h1 with h2 | h2
              · exact Or.inl h2
              · have h3 := ih _ (hsz' _ (List.mem_cons_self _ _)) _ kv h2
                refine Or.inr ?_
                simp only [flattenSeqPairs]
                exact List.mem_append.mpr (Or.inl h3)
            · refine Or.inr ?_
              simp only [flattenSeqPairs]
              exact List.mem_append.mpr (Or.inr h1)
          | seq l₀ =>
            simp only [flattenSeqLoop] at h
            rcases ihl _ _ hsub h with h1 | h1
            · rcases mem_dupdate _ _ _ h1 with h2 | h2
              · exact Or.inl h2
              · have h3 := ih _ (hsz' _ (List.mem_cons_self _ _)) _ kv h2
                refine Or.inr ?_
                simp only [flattenSeqPairs]
                exact List.mem_append.mpr (Or.inl h3)
            · refine Or.inr ?_
              simp only [flattenSeqPairs]
              exact List.mem_append.mpr (Or.inr h1)
          | vstr s₀ =>
            simp only [flattenSeqLoop] at h
            rcases ihl _ _ hsub h with h1 | h1
            · rcases mem_dset _ _ _ _ h1 with h2 | h2
              · exact Or.inl h2
              · refine Or.inr ?_
                simp only [flattenSeqPairs]
                exact List.mem_append.mpr (Or.inl (by rw [h2]; exact List.mem_singleton.mpr rfl))
            · refine Or.inr ?_
              simp only [flattenSeqPairs]
              exact List.mem_append.mpr (Or.inr h1)
          | vint i₀ =>
            simp only [flattenSeqLoop] at h
            rcases ihl _ _ hsub h with h1 | h1
            · rcases mem_dset _ _ _ _ h1 with h2 | h2
              · exact Or.inl h2
              · refine Or.inr ?_
                simp only [flattenSeqPairs]
                exact List.mem_append.mpr (Or.inl (by rw [h2]; exact List.mem_singleton.mpr rfl))
            · refine Or.inr ?_
              simp only [flattenSeqPairs]
              exact List.mem_append.mpr (Or.inr h1)
          | vbool b₀ =>
            simp only [flattenSeqLoop] at h
            rcases ihl _ _ hsub h with h1 | h1
            · rcases mem_dset _ _ _ _ h1 with h2 | h2
              · exact Or.inl h2
              · refine Or.inr ?_
                simp only [flattenSeqPairs]
                exact List.mem_append.mpr (Or.inl (by rw [h2]; exact List.mem_singleton.mpr rfl))
            · refine Or.inr ?_
              simp only [flattenSeqPairs]
              exact List.mem_append.mpr (Or.inr h1)
          | vnull =>
            simp only [flattenSeqLoop] at h
            rcases ihl _ _ hsub h with h1 | h1
            · rcases mem_dset _ _ _ _ h1 with h2 | h2
              · exact Or.inl h2
              · refine Or.inr ?_
                simp only [flattenSeqPairs]
                exact List.mem_append.mpr (Or.inl (by rw [h2]; exact List.mem_singleton.mpr rfl))
            · refine Or.inr ?_
              simp only [flattenSeqPairs]
              exact List.mem_append.mpr (Or.inr h1)
      have hkv' : kv ∈ flattenSeqLoop l 0 pre [] := by simpa [flatten_data] using hkv
      rcases aux l 0 [] hsz hkv' with h | h
      · simp at h
      · simpa [flatten_pairs] using h

/-! ### Claim C10 -/

/-- C10: every value in the flat dict produced by `flatten_data` is the
Python string form of some non-container leaf of the input tree (so
numbers, booleans and null become strings before hashing and translation),
and at a concrete mixed-type tree the coercions are `str`, `"5"`,
`"True"`, `"None"`. -/
theorem C10_flatten_stringifies :
    (∀ (d : Node) (pre : String) (kv : String × String), kv ∈ flatten_data d pre →
      ∃ w, LeafOf w d ∧ kv.2 = pyStr w) ∧
    flatten_data (Node.map [(PyKey.ks "a", Node.vint 5), (PyKey.ks "b", Node.vbool true),
        (PyKey.ks "c", Node.vnull), (PyKey.ks "d", Node.vstr "s")]) "" =
      [("a", "5"), ("b", "True"), ("c", "None"), ("d", "s")] := by
  constructor
  · intro d pre kv hkv
    exact flatten_pairs_leafOf (nodeSize d) d (Nat.le_refl _) pre kv
      (mem_flatten_data (nodeSize d) d (Nat.le_refl _) pre kv hkv)
  · simp [flatten_data, flattenMapLoop, flattenSeqLoop, dupdate, dset, pyStr, pyKeyStr,
      intToString, natToString, natToDigits]

/-- C10 witness: the leaf-origin property applied at a concrete pair of the
concrete flat dict. -/
theorem C10_witness :
    ∃ w, LeafOf w (Node.map [(PyKey.ks "a", Node.vint 5)]) ∧
      (("a", "5") : String × String).2 = pyStr w :=
  C10_flatten_stringifies.1 (Node.map [(PyKey.ks "a", Node.vint 5)]) ""
    ("a", "5") (by
      have he : flatten_data (Node.map [(PyKey.ks "a", Node.vint 5)]) "" = [("a", "5")] := by
        simp [flatten_data, flattenMapLoop, dupdate, dset, pyStr, pyKeyStr,
          intToString, natToString, natToDigits]
      rw [he]
      exact List.mem_singleton.mpr rfl)

/-! ### Dict-build lemmas for fingerprints -/

theorem dkeys_dset {κ α : Type} [DecidableEq κ] (m : List (κ × α)) (k : κ) (v : α) :
    (dset m k v).map Prod.fst =
      if dmem m k then m.map Prod.fst else m.map Prod.fst ++ [k] := by
  induction m with
  | nil => simp [dset, dmem, dget]
  | cons kv m ih =>
    obtain ⟨k₀, v₀⟩ := kv
    by_cases h0 : k₀ = k
    · subst h0
      simp [dset, dmem, dget]
    · simp only [dset, if_neg h0, List.map_cons, ih, dmem, dget, if_neg h0]
      by_cases hm : (dget m k).isSome <;> simp [dmem, hm]

theorem nodup_dset {κ α : Type} [DecidableEq κ] (m : List (κ × α)) (k : κ) (v : α)
    (h : (m.map Prod.fst).Nodup) : ((dset m k v).map Prod.fst).Nodup := by
  rw [dkeys_dset]
  by_cases hm : dmem m k
  · rw [if_pos hm]; exact h
  · rw [if_neg hm]
    rw [List.nodup_append]
    refine ⟨h, List.nodup_singleton k, ?_⟩
    intro a ha hb
    have hab : a = k := List.mem_singleton.mp hb
    subst hab
    simp only [dmem, Bool.not_eq_true] at hm
    exact absurd ((dget_isSome_iff m a).mpr ha) (by rw [hm]; simp)

theorem get_hashes_nodup (hash : String → String) (flat : List (String × String)) :
    ((get_hashes hash flat).map Prod.fst).Nodup := by
  have aux : ∀ (ps acc : List (String × String)), (acc.map Prod.fst).Nodup →
      ((ps.foldl (fun a kv => dset a kv.1 (hash kv.2)) acc).map Prod.fst).Nodup := by
    intro ps
    induction ps with
    | nil => intro acc h; exact h
    | cons kv ps ih =>
      intro acc h
      exact ih _ (nodup_dset _ _ _ h)
  exact aux flat [] (by simp)

theorem changed_keys_of_self (c : List (String × String))
    (hnd : (c.map Prod.fst).Nodup) : changed_keys_of c c = [] := by
  rw [changed_keys_of]
  have : c.filter (fun kv =>
      match dget c kv.1 with
      | some h' => decide (h' ≠ kv.2)
      | none => false) = [] := by
    rw [List.filter_eq_nil]
    intro kv hkv
    obtain ⟨k, v⟩ := kv
    rw [dget_of_mem_nodup c k v hnd hkv]
    simp
  rw [this]
  rfl

/-! ### The language loop under no crash -/

theorem mainLoop_no_crash (env : Env) (flatS : List (String × String)) (chg : List String) :
    ∀ langs : List String,
      (∀ l ∈ langs, processLang (env.cap l) flatS chg (env.targets l) ≠ LangOutcome.crash) →
      mainLoop env flatS chg langs =
        (langs.filterMap (fun l =>
          match processLang (env.cap l) flatS chg (env.targets l) with
          | LangOutcome.write t => some (l, t)
          | _ => none), false) := by
  intro langs
  induction langs with
  | nil => intro _; rfl
  | cons l langs ih =>
    intro hnc
    have ih' := ih (fun l' hl' => hnc l' (List.mem_cons_of_mem _ hl'))
    cases hpl : processLang (env.cap l) flatS chg (env.targets l) with
    | skip => simp [mainLoop, hpl, ih']
    | write t => simp [mainLoop, hpl, ih']
    | crash => exact absurd hpl (hnc l (List.mem_cons_self _ _))

/-- The changed-key set one run of `main` computes from its inputs. -/
def run_changed (env : Env) : List String :=
  changed_keys_of (get_hashes env.hash (flatten_data env.sourceData ""))
    (resolve_old_hashes env (get_hashes env.hash (flatten_data env.sourceData "")))

/-- The outcome of `main`'s language loop body for one language. -/
def langOutcome (env : Env) (l : String) : LangOutcome :=
  processLang (env.cap l) (flatten_data env.sourceData "") (run_changed env) (env.targets l)

theorem mainModel_no_crash (env : Env) (hsrc : pyTruthy env.sourceData = true)
    (hnc : ∀ l ∈ TARGET_LANGS, langOutcome env l ≠ LangOutcome.crash) :
    mainModel env =
      ⟨TARGET_LANGS.filterMap (fun l =>
        match langOutcome env l with
        | LangOutcome.write t => some (l, t)
        | _ => none),
       some (get_hashes env.hash (flatten_data env.sourceData ""))⟩ := by
  rw [mainModel, if_neg (by rw [hsrc]; simp)]
  have hloop := mainLoop_no_crash env (flatten_data env.sourceData "")
    (run_changed env) TARGET_LANGS hnc
  simp only [run_changed, langOutcome] at hloop ⊢
  rw [hloop]
  simp

/-! ### Claim C5 -/

/-- A concrete cold-start run: no baseline, no git history, source
`{"a": "x"}`, every target already `{"a": "x1"}`. -/
def envC5 : Env where
  sourceData := Node.map [(PyKey.ks "a", Node.vstr "x")]
  hashesData := []
  gitOld := none
  targets := fun _ => Node.map [(PyKey.ks "a", Node.vstr "x1")]
  cap := fun _ _ => none
  hash := fun s => s

/-- C5: with no persisted baseline and no git snapshot, the baseline is
seeded from the current fingerprint, so the changed set is empty and the
per-language plan is exactly the missing keys; concretely, for source
`{"a": "x"}` and targets `{"a": "x1"}` no target file is written (the
existing value survives) while the baseline is still persisted. -/
theorem C5_cold_start (env : Env) (hbase : env.hashesData = []) (hgit : env.gitOld = none) :
    (resolve_old_hashes env (get_hashes env.hash (flatten_data env.sourceData "")) =
      get_hashes env.hash (flatten_data env.sourceData "")) ∧
    run_changed env = [] ∧
    (∀ flatTarget,
      keys_to_translate (missing_keys (flatten_data env.sourceData "") flatTarget)
          (run_changed env) =
        missing_keys (flatten_data env.sourceData "") flatTarget) ∧
    mainModel envC5 = ⟨[], some [("a", "x")]⟩ := by
  have hres : resolve_old_hashes env (get_hashes env.hash (flatten_data env.sourceData "")) =
      get_hashes env.hash (flatten_data env.sourceData "") := by
    rw [resolve_old_hashes, hbase, hgit]
    simp
  have hchg : run_changed env = [] := by
    rw [run_changed, hres]
    exact changed_keys_of_self _ (get_hashes_nodup _ _)
  refine ⟨hres, hchg, ?_, ?_⟩
  · intro flatTarget
    rw [hchg, keys_to_translate]
    simp
  · have h1 : mainModel envC5 =
        ⟨TARGET_LANGS.filterMap (fun l =>
          match langOutcome envC5 l with
          | LangOutcome.write t => some (l, t)
          | _ => none),
         some (get_hashes envC5.hash (flatten_data envC5.sourceData ""))⟩ := by
      apply mainModel_no_crash
      · rfl
      · intro l _
        have : langOutcome envC5 l = LangOutcome.skip := by
          rw [langOutcome, processLang]
          have : keys_to_translate
              (missing_keys (flatten_data envC5.sourceData "")
                (flatten_data (envC5.targets l) ""))
              (run_changed envC5) = [] := by
            simp [run_changed, envC5, resolve_old_hashes, keys_to_translate, missing_keys,
              flatten_data, flattenMapLoop, dupdate, dset, dget, dmem, get_hashes,
              changed_keys_of, pyStr]
          rw [this]
          simp
        rw [this]
        simp
    rw [h1]
    have h2 : ∀ l, langOutcome envC5 l = LangOutcome.skip := by
      intro l
      rw [langOutcome, processLang]
      have : keys_to_translate
          (missing_keys (flatten_data envC5.sourceData "")
            (flatten_data (envC5.targets l) ""))
          (run_changed envC5) = [] := by
        simp [run_changed, envC5, resolve_old_hashes, keys_to_translate, missing_keys,
          flatten_data, flattenMapLoop, dupdate, dset, dget, dmem, get_hashes,
          changed_keys_of, pyStr]
      rw [this]
      simp
    simp only [h2]
    simp [TARGET_LANGS, envC5, get_hashes, flatten_data, flattenMapLoop, dset, dget,
      dupdate, pyStr, pyKeyStr]

/-- C5 witness: the cold-start theorem at the concrete environment. -/
theorem C5_witness :
    (resolve_old_hashes envC5 (get_hashes envC5.hash (flatten_data envC5.sourceData "")) =
      get_hashes envC5.hash (flatten_data envC5.sourceData "")) ∧
    run_changed envC5 = [] ∧
    (∀ flatTarget,
      keys_to_translate (missing_keys (flatten_data envC5.sourceData "") flatTarget)
          (run_changed envC5) =
        missing_keys (flatten_data envC5.sourceData "") flatTarget) ∧
    mainModel envC5 = ⟨[], some [("a", "x")]⟩ :=
  C5_cold_start envC5 rfl rfl

/-! ### Claim C9 -/

/-- A run whose source file failed to parse (`load_json` returned `{}`)
while a baseline exists and targets would otherwise be processed. -/
def envC9 : Env where
  sourceData := load_json none
  hashesData := [("a", "h")]
  gitOld := none
  targets := fun _ => Node.map []
  cap := fun _ _ => some []
  hash := fun s => s

/-- C9 counterexample: for a malformed *source* file the run does not
proceed: the tree is treated as empty and `main` returns before
processing any language and before updating the baseline — no target
writes and no baseline write happen, contradicting "processing of the
other files, and the run as a whole, proceeds". -/
theorem C9_counterexample :
    envC9.sourceData = load_json none ∧ mainModel envC9 = ⟨[], none⟩ :=
  ⟨rfl, rfl⟩

/-- C9 (amended): a malformed document is parsed as the empty tree
(`load_json`); a malformed *target* only affects its own language — each
language's outcome is a function of its own target tree alone — and when
no language crashes the run processes every language and persists the
baseline; but a malformed (hence falsy) *source* makes `main` return
early with no writes at all. -/
theorem C9_malformed :
    (load_json none = Node.map []) ∧
    (∀ env : Env, ∀ t' : String → Node, ∀ l l' : String, l' ≠ l →
      t' l' = env.targets l' →
      langOutcome { env with targets := t' } l' = langOutcome env l') ∧
    (∀ env : Env, pyTruthy env.sourceData = true →
      (∀ l ∈ TARGET_LANGS, langOutcome env l ≠ LangOutcome.crash) →
      mainModel env =
        ⟨TARGET_LANGS.filterMap (fun l =>
          match langOutcome env l with
          | LangOutcome.write t => some (l, t)
          | _ => none),
         some (get_hashes env.hash (flatten_data env.sourceData ""))⟩) ∧
    (∀ env : Env, pyTruthy env.sourceData = false → mainModel env = ⟨[], none⟩) := by
  refine ⟨rfl, ?_, ?_, ?_⟩
  · intro env t' l l' _ ht
    rw [langOutcome, langOutcome]
    simp only [run_changed]
    rw [ht]
    simp [resolve_old_hashes]
  · intro env hsrc hnc
    exact mainModel_no_crash env hsrc hnc
  · intro env hsrc
    rw [mainModel, if_pos (by rw [hsrc]; rfl)]

/-- C9 witness: the amended behaviour at concrete runs — a truthy-source
run with all-skip languages completes with a baseline write, and the
empty-source run returns early. -/
theorem C9_witness :
    langOutcome { envC5 with targets := fun _ => Node.map [(PyKey.ks "a", Node.vstr "x1")] }
        "es" = langOutcome envC5 "es" ∧
    mainModel envC9 = ⟨[], none⟩ :=
  ⟨C9_malformed.2.1 envC5 (fun _ => Node.map [(PyKey.ks "a", Node.vstr "x1")]) "fr" "es"
    (by decide) rfl,
   C9_malformed.2.2.2 envC9 rfl⟩

/-! ### Claim C8: idempotence of the merger -/

theorem dset_length_le {κ α : Type} [DecidableEq κ] (m : List (κ × α)) (k : κ) (v : α) :
    m.length ≤ (dset m k v).length := by
  induction m with
  | nil => simp [dset]
  | cons kv m ih =>
    obtain ⟨k₀, v₀⟩ := kv
    by_cases h : k₀ = k <;> simp [dset, h]
    exact ih

theorem getD_set_self (l : List Node) (i : Nat) (c d : Node) (h : i < l.length) :
    (l.set i c).getD i d = c := by
  rw [List.getD_eq_getElem?_getD, List.getElem?_set]
  simp [h]

theorem setFinal_idem (t : Node) (p : String) (v : Node) (t' : Node)
    (h : setFinal t p v = some t') : setFinal t' p v = some t' := by
  by_cases hd : isAllDigits p
  · cases t with
    | seq l =>
      simp only [setFinal, if_pos hd] at h
      obtain rfl : Node.seq ((l ++ List.replicate (strToNat p + 1 - l.length) Node.vnull).set
          (strToNat p) v) = t' := by simpa using h
      have h0 : strToNat p + 1 - ((l ++ List.replicate (strToNat p + 1 - l.length)
          Node.vnull).set (strToNat p) v).length = 0 := by
        simp only [List.length_set, List.length_append, List.length_replicate]
        omega
      simp only [setFinal, if_pos hd, h0, List.replicate_zero, List.append_nil, List.set_set]
    | map m =>
      simp only [setFinal, if_pos hd] at h
      by_cases hlen : m.length ≤ strToNat p
      · rw [if_pos hlen] at h
        cases h
      · rw [if_neg hlen] at h
        obtain rfl : Node.map (dset m (PyKey.ki (strToNat p)) v) = t' := by simpa using h
        have hlen' : ¬(dset m (PyKey.ki (strToNat p)) v).length ≤ strToNat p := by
          have := dset_length_le m (PyKey.ki (strToNat p)) v
          omega
        simp only [setFinal, if_pos hd, if_neg hlen', dset_dset_self]
    | vstr s => simp [setFinal, if_pos hd] at h
    | vint i => simp [setFinal, if_pos hd] at h
    | vbool b => simp [setFinal, if_pos hd] at h
    | vnull => simp [setFinal, if_pos hd] at h
  · cases t with
    | map m =>
      simp only [setFinal, if_neg hd] at h
      obtain rfl : Node.map (dset m (PyKey.ks p) v) = t' := by simpa using h
      simp only [setFinal, if_neg hd, dset_dset_self]
    | seq l => simp [setFinal, if_neg hd] at h
    | vstr s => simp [setFinal, if_neg hd] at h
    | vint i => simp [setFinal, if_neg hd] at h
    | vbool b => simp [setFinal, if_neg hd] at h
    | vnull => simp [setFinal, if_neg hd] at h

theorem setParts_idem :
    ∀ (n : Nat) (parts : List String), parts.length ≤ n → ∀ (t v t' : Node),
      setParts t parts v = some t' → setParts t' parts v = some t' := by
  intro n
  induction n with
  | zero =>
    intro parts hlen t v t' h
    have : parts = [] := List.eq_nil_of_length_eq_zero (Nat.le_zero.mp hlen)
    subst this
    simp [setParts] at h
  | succ n ih =>
    intro parts hlen t v t' h
    match parts with
    | [] => simp [setParts] at h
    | [p] =>
      simp only [setParts] at h ⊢
      exact setFinal_idem t p v t' h
    | p :: q :: rest =>
      have hlen' : (q :: rest).length ≤ n := by
        simp only [List.length_cons] at hlen ⊢
        omega
      by_cases hd : isAllDigits p
      · cases t with
        | seq l =>
          simp only [setParts, if_pos hd] at h
          cases hchild : setParts ((l ++ List.replicate (strToNat p + 1 - l.length)
              (Node.map [])).getD (strToNat p) (Node.map [])) (q :: rest) v with
          | none => rw [hchild] at h; cases h
          | some c' =>
            rw [hchild] at h
            obtain rfl : Node.seq ((l ++ List.replicate (strToNat p + 1 - l.length)
                (Node.map [])).set (strToNat p) c') = t' := by simpa using h
            have hil : strToNat p <
                (l ++ List.replicate (strToNat p + 1 - l.length) (Node.map [])).length := by
              simp only [List.length_append, List.length_replicate]
              omega
            have h0 : strToNat p + 1 - ((l ++ List.replicate (strToNat p + 1 - l.length)
                (Node.map [])).set (strToNat p) c').length = 0 := by
              simp only [List.length_set, List.length_append, List.length_replicate]
              omega
            simp only [setParts, if_pos hd, h0, List.replicate_zero, List.append_nil]
            rw [getD_set_self _ _ _ _ hil]
            rw [ih (q :: rest) hlen' _ v c' hchild]
            simp only [List.set_set]
        | map m =>
          simp only [setParts, if_pos hd] at h
          by_cases hlm : m.length ≤ strToNat p
          · rw [if_pos hlm] at h
            cases h
          · rw [if_neg hlm] at h
            split at h
            · cases h
            · next child hget =>
              split at h
              · next c' hchild =>
                obtain rfl : Node.map (dset m (PyKey.ki (strToNat p)) c') = t' := by
                  simpa using h
                have hlm' : ¬(dset m (PyKey.ki (strToNat p)) c').length ≤ strToNat p := by
                  have := dset_length_le m (PyKey.ki (strToNat p)) c'
                  omega
                simp only [setParts, if_pos hd, if_neg hlm', dget_dset_self]
                rw [ih (q :: rest) hlen' _ v c' hchild]
                simp only [dset_dset_self]
              · cases h
        | vstr s => simp [setParts, if_pos hd] at h
        | vint i => simp [setParts, if_pos hd] at h
        | vbool b => simp [setParts, if_pos hd] at h
        | vnull => simp [setParts, if_pos hd] at h
      · cases t with
        | map m =>
          simp only [setParts, if_neg hd] at h
          cases hchild : setParts
              (match dget m (PyKey.ks p) with
               | some c => c
               | none => if isAllDigits q then Node.seq [] else Node.map [])
              (q :: rest) v with
          | none => rw [hchild] at h; cases h
          | some c' =>
            rw [hchild] at h
            obtain rfl : Node.map (dset m (PyKey.ks p) c') = t' := by simpa using h
            simp only [setParts, if_neg hd, dget_dset_self]
            rw [ih (q :: rest) hlen' _ v c' hchild]
            simp only [dset_dset_self]
        | seq l => simp [setParts, if_neg hd] at h
        | vstr s => simp [setParts, if_neg hd] at h
        | vint i => simp [setParts, if_neg hd] at h
        | vbool b => simp [setParts, if_neg hd] at h
        | vnull => simp [setParts, if_neg hd] at h

/-- C8: `set_nested_value` is idempotent: applying the same (path, value)
update twice yields the same tree as applying it once — including the
failure cases (if the first application raises, so does the composition). -/
theorem C8_set_nested_value_idempotent (t : Node) (keyPath : String) (v : Node) :
    (set_nested_value t keyPath v).bind (fun t' => set_nested_value t' keyPath v) =
      set_nested_value t keyPath v := by
  cases h : set_nested_value t keyPath v with
  | none => rfl
  | some t' =>
    show set_nested_value t' keyPath v = some t'
    exact setParts_idem (parseParts keyPath).length (parseParts keyPath) (Nat.le_refl _)
      t v t' h

/-! ### Claim C2: the exact success domain of the merger -/

/-- The shape conditions under which `set_nested_value`'s traversal
succeeds, by recursion on the parsed parts: a non-digit part needs a dict
(created members are fine); an all-digit part needs either a list (padded
as required) or a dict longer than the index that already holds the
integer key (when traversing); any part over a scalar fails.  The
Key-vs-Index reading of an all-digit part is decided by the shape of the
container present at that position, never lexically. -/
def can_set : Node → List String → Bool
  | _, [] => false
  | cur, [p] =>
    if isAllDigits p then
      match cur with
      | Node.seq _ => true
      | Node.map m => decide (strToNat p < m.length)
      | _ => false
    else
      match cur with
      | Node.map _ => true
      | _ => false
  | cur, p :: q :: rest =>
    if isAllDigits p then
      match cur with
      | Node.seq l =>
        can_set ((l ++ List.replicate (strToNat p + 1 - l.length) (Node.map [])).getD
          (strToNat p) (Node.map [])) (q :: rest)
      | Node.map m =>
        if strToNat p < m.length then
          match dget m (PyKey.ki (strToNat p)) with
          | some child => can_set child (q :: rest)
          | none => false
        else false
      | _ => false
    else
      match cur with
      | Node.map m =>
        can_set (match dget m (PyKey.ks p) with
          | some c => c
          | none => if isAllDigits q then Node.seq [] else Node.map []) (q :: rest)
      | _ => false

theorem setParts_isSome :
    ∀ (n : Nat) (parts : List String), parts.length ≤ n → ∀ (t v : Node),
      (setParts t parts v).isSome = can_set t parts := by
  intro n
  induction n with
  | zero =>
    intro parts hlen t v
    have : parts = [] := List.eq_nil_of_length_eq_zero (Nat.le_zero.mp hlen)
    subst this
    simp [setParts, can_set]
  | succ n ih =>
    intro parts hlen t v
    match parts with
    | [] => simp [setParts, can_set]
    | [p] =>
      by_cases hd : isAllDigits p
      · cases t with
        | seq l => simp [setParts, setFinal, can_set, hd]
        | map m =>
          by_cases hlm : m.length ≤ strToNat p
          · simp [setParts, setFinal, can_set, hd, hlm]
            try omega
          · simp [setParts, setFinal, can_set, hd, hlm]
            try omega
        | vstr s => simp [setParts, setFinal, can_set, hd]
        | vint i => simp [setParts, setFinal, can_set, hd]
        | vbool b => simp [setParts, setFinal, can_set, hd]
        | vnull => simp [setParts, setFinal, can_set, hd]
      · cases t with
        | map m => simp [setParts, setFinal, can_set, hd]
        | seq l => simp [setParts, setFinal, can_set, hd]
        | vstr s => simp [setParts, setFinal, can_set, hd]
        | vint i => simp [setParts, setFinal, can_set, hd]
        | vbool b => simp [setParts, setFinal, can_set, hd]
        | vnull => simp [setParts, setFinal, can_set, hd]
    | p :: q :: rest =>
      have hlen' : (q :: rest).length ≤ n := by
        simp only [List.length_cons] at hlen ⊢
        omega
      by_cases hd : isAllDigits p
      · cases t with
        | seq l =>
          simp only [setParts, can_set, if_pos hd]
          rw [← ih (q :: rest) hlen' _ v]
          cases setParts ((l ++ List.replicate (strToNat p + 1 - l.length)
              (Node.map [])).getD (strToNat p) (Node.map [])) (q :: rest) v <;> simp
        | map m =>
          simp only [setParts, can_set, if_pos hd]
          by_cases hlm : m.length ≤ strToNat p
          · rw [if_pos hlm, if_neg (by omega)]
            simp
          · rw [if_neg hlm, if_pos (by omega)]
            cases hget : dget m (PyKey.ki (strToNat p)) with
            | none => simp
            | some child =>
              dsimp only
              rw [← ih (q :: rest) hlen' child v]
              cases setParts child (q :: rest) v <;> simp
        | vstr s => simp [setParts, can_set, hd]
        | vint i => simp [setParts, can_set, hd]
        | vbool b => simp [setParts, can_set, hd]
        | vnull => simp [setParts, can_set, hd]
      · cases t with
        | map m =>
          simp only [setParts, can_set, if_neg hd]
          rw [← ih (q :: rest) hlen' _ v]
          cases setParts (match dget m (PyKey.ks p) with
            | some c => c
            | none => if isAllDigits q then Node.seq [] else Node.map []) (q :: rest) v <;>
            simp
        | seq l => simp [setParts, can_set, hd]
        | vstr s => simp [setParts, can_set, hd]
        | vint i => simp [setParts, can_set, hd]
        | vbool b => simp [setParts, can_set, hd]
        | vnull => simp [setParts, can_set, hd]

/-- C2 counterexample: `set_nested_value` is not total over every tree and
well-formed path: on the tree `{"a": "x"}` the path `"a.b"` traverses the
scalar `"x"` and the Python call raises (`TypeError`), modelled as `none`. -/
theorem C2_counterexample :
    set_nested_value (Node.map [(PyKey.ks "a", Node.vstr "x")]) "a.b" (Node.vstr "y") =
      none := by
  rfl

/-- C2 (amended): `set_nested_value` succeeds exactly when the parsed
parts satisfy the shape conditions of `can_set` over the tree — missing
members are created, and an all-digit part is resolved by the shape of
the container already present at that position (list index if a list is
there, integer dict key if a long-enough dict is there), never lexically;
it fails iff some traversed position holds a scalar, an all-digit part
meets a too-short dict or an absent integer key, or the parts are empty.
Success is independent of the value written. -/
theorem C2_set_nested_value_domain (t : Node) (keyPath : String) (v : Node) :
    (set_nested_value t keyPath v).isSome = can_set t (parseParts keyPath) :=
  setParts_isSome (parseParts keyPath).length (parseParts keyPath) (Nat.le_refl _) t v

/-! ### Structural leaf paths, goodness, and surgery

Machinery for the flatten/merge round trip: the structural paths of a
tree's leaves, the well-formedness conditions under which the codec
round-trips, and tree surgery (read / replace at a path, grafting a
freshly created chain). -/

mutual

/-- The structural (path, leaf) pairs of a tree, in the depth-first order
`flatten_data` visits them. -/
def leafPV : Node → List (List Seg × Node)
  | Node.map m => leafPVMap m
  | Node.seq l => leafPVSeq l 0
  | d => [([], d)]

def leafPVMap : List (PyKey × Node) → List (List Seg × Node)
  | [] => []
  | (k, v) :: rest =>
    (leafPV v).map (fun pw => (Seg.key (pyKeyStr k) :: pw.1, pw.2)) ++ leafPVMap rest

def leafPVSeq : List Node → Nat → List (List Seg × Node)
  | [], _ => []
  | item :: rest, i =>
    (leafPV item).map (fun pw => (Seg.idx i :: pw.1, pw.2)) ++ leafPVSeq rest (i + 1)

end

mutual

/-- Structural well-formedness of a non-root subtree for the round trip:
dict keys are strings that survive the codec and are pairwise distinct,
containers are nonempty (an empty container leaves no trace in the flat
form), and a list never directly contains a list (the merger pads lists
with `{}` placeholders, so a nested list cannot be re-created). -/
def goodStruct : Node → Bool
  | Node.map m => !m.isEmpty && decide ((m.map Prod.fst).Nodup) && goodEntries m
  | Node.seq l => !l.isEmpty && goodItems l
  | _ => true

def goodEntries : List (PyKey × Node) → Bool
  | [] => true
  | (PyKey.ks s, v) :: rest => goodKeyStr s && goodStruct v && goodEntries rest
  | (PyKey.ki _, _) :: rest => false

def goodItems : List Node → Bool
  | [] => true
  | Node.seq _ :: _ => false
  | v :: rest => goodStruct v && goodItems rest

end

/-- Well-formedness of the root: a dict (the merge target starts as `{}`),
possibly empty, with good entries. -/
def goodRoot : Node → Bool
  | Node.map m => decide ((m.map Prod.fst).Nodup) && goodEntries m
  | _ => false

mutual

/-- Every leaf of the tree is a string (a non-string leaf comes back as
its string form, so deep equality needs string leaves). -/
def strLeaves : Node → Bool
  | Node.map m => strLeavesEntries m
  | Node.seq l => strLeavesItems l
  | Node.vstr _ => true
  | _ => false

def strLeavesEntries : List (PyKey × Node) → Bool
  | [] => true
  | (_, v) :: rest => strLeaves v && strLeavesEntries rest

def strLeavesItems : List Node → Bool
  | [] => true
  | v :: rest => strLeaves v && strLeavesItems rest

end

mutual

/-- Replace every leaf of `v` (sitting at structural position `base`) by
the string the path-indexed assignment `f` carries for its full path. -/
def relabel (f : List Seg → String) (base : List Seg) : Node → Node
  | Node.map m => Node.map (relabelEntries f base m)
  | Node.seq l => Node.seq (relabelItems f base 0 l)
  | _ => Node.vstr (f base)

def relabelEntries (f : List Seg → String) (base : List Seg) :
    List (PyKey × Node) → List (PyKey × Node)
  | [] => []
  | (k, v) :: rest =>
    (k, relabel f (base ++ [Seg.key (pyKeyStr k)]) v) :: relabelEntries f base rest

def relabelItems (f : List Seg → String) (base : List Seg) (i : Nat) :
    List Node → List Node
  | [] => []
  | v :: rest => relabel f (base ++ [Seg.idx i]) v :: relabelItems f base (i + 1) rest

end

/-- Read the subtree at a structural path (dict member for a key segment,
list element for an index segment). -/
def getAt : Node → List Seg → Option Node
  | t, [] => some t
  | Node.map m, Seg.key k :: p => (dget m (PyKey.ks k)).bind (fun c => getAt c p)
  | Node.seq l, Seg.idx i :: p => l[i]?.bind (fun c => getAt c p)
  | _, _ => none

/-- Replace the subtree at a structural path (meaningful when the chain of
containers along the path exists, as `getAt` checks). -/
def replaceAt : Node → List Seg → Node → Node
  | _, [], w => w
  | Node.map m, Seg.key k :: p, w =>
    Node.map (dset m (PyKey.ks k)
      (replaceAt ((dget m (PyKey.ks k)).getD (Node.map [])) p w))
  | Node.seq l, Seg.idx i :: p, w =>
    Node.seq (l.set i (replaceAt (l.getD i (Node.map [])) p w))
  | t, _, _ => t

/-- The chain of containers `set_nested_value` creates below a fresh slot:
a key segment creates a one-member dict; an index segment in traversal
position pads with `{}` (so only index `0` round-trips), in final position
with `None`. -/
def skel : List Seg → Node → Node
  | [], w => w
  | Seg.key k :: p, w => Node.map [(PyKey.ks k, skel p w)]
  | [Seg.idx i], w => Node.seq (List.replicate i Node.vnull ++ [w])
  | Seg.idx i :: p, w => Node.seq (List.replicate i (Node.map []) ++ [skel p w])

/-- The result of one `set_nested_value` call whose path continues from an
existing container `C` into a fresh suffix: a fresh dict member is
appended, a fresh list slot is appended at the current length. -/
def graftFresh : Node → List Seg → Node → Node
  | Node.map m, Seg.key k :: p, w => Node.map (dset m (PyKey.ks k) (skel p w))
  | Node.seq l, Seg.idx _ :: p, w => Node.seq (l ++ [skel p w])
  | C, _, _ => C

/-- Conditions on the continuation of a fresh suffix (everything after its
first segment): keys survive the codec, an index is `0` (a fresh list is
padded from empty) and is never followed by another index (the padding
placeholder is `{}`). -/
def freshTail : List Seg → Prop
  | [] => True
  | Seg.key k :: p => goodKeyStr k = true ∧ freshTail p
  | Seg.idx i :: p =>
    i = 0 ∧ freshTail p ∧ (match p with | Seg.idx _ :: _ => False | _ => True)

/-- A fresh suffix over the container `C`: the first segment lands on a
fresh slot of `C` (an absent dict key, or the next free list position),
and the continuation is creatable. -/
def freshSuffix : Node → List Seg → Prop
  | C, Seg.key k :: p =>
    (∃ m, C = Node.map m ∧ dget m (PyKey.ks k) = none) ∧ goodKeyStr k = true ∧ freshTail p
  | C, Seg.idx i :: p =>
    (∃ l, C = Node.seq l ∧ l.length = i) ∧ freshTail p ∧
      (match p with | Seg.idx _ :: _ => False | _ => True)
  | _, [] => False

/-- A path ending in a key segment (a list subtree cannot be re-created
right behind an index slot). -/
def endsKey : List Seg → Prop
  | [] => False
  | [Seg.key _] => True
  | [Seg.idx _] => False
  | _ :: rest => endsKey rest

/-- Fold a list of (structural path, string value) updates through
`setParts`, the way `main` folds translated values through
`set_nested_value` (failure aborts the fold). -/
def foldPairs (A : Node) : List (List Seg × String) → Option Node
  | [] => some A
  | (p, s) :: rest =>
    match setParts A (p.map segString) (Node.vstr s) with
    | some A' => foldPairs A' rest
    | none => none

/-- The (path, value) updates the flat form of `v` under base path `base`
contributes, with values drawn from the path-indexed assignment `f`. -/
def blockOf (f : List Seg → String) (base : List Seg) (v : Node) :
    List (List Seg × String) :=
  (leafPV v).map (fun pw => (base ++ pw.1, f (base ++ pw.1)))

/-! ### Rendered prefixes compose the way `flatten_data` builds keys -/

theorem ne_empty_of_data (s : String) (h : ¬s.data = []) : s ≠ "" := by
  intro he
  subst he
  exact h rfl

theorem append_data_ne_empty (a b : String) (h : ¬a.data = []) : ¬(a ++ b).data = [] := by
  rw [String.data_append]
  simp [h]

theorem lbrack_data_ne_empty (pre : String) (i : Nat) :
    ¬(pre ++ "[" ++ natToString i ++ "]").data = [] := by
  rw [String.data_append]
  simp

theorem renderAt_nil (pre : String) : renderAt pre [] = pre := by
  rw [renderAt, renderPath, renderCont]
  split
  · next h => rw [h]
  · exact String.append_empty pre

theorem renderAt_key_cons (pre k : String) (p : List Seg) (hk : ¬k.data = []) :
    renderAt pre (Seg.key k :: p) =
      renderAt (if pre = "" then k else pre ++ "." ++ k) p := by
  by_cases hpre : pre = ""
  · subst hpre
    rw [if_pos rfl, renderAt, if_pos rfl, renderPath, renderAt,
      if_neg (ne_empty_of_data k hk)]
  · rw [renderAt, if_neg hpre, renderCont, if_neg hpre, renderAt,
      if_neg (ne_empty_of_data _ (append_data_ne_empty _ _
        (append_data_ne_empty pre "." (fun hd => hpre (by
          apply String.ext
          simpa using hd)))))]
    rw [← String.append_assoc, ← String.append_assoc]

theorem renderAt_idx_cons (pre : String) (i : Nat) (p : List Seg) :
    renderAt pre (Seg.idx i :: p) = renderAt (pre ++ "[" ++ natToString i ++ "]") p := by
  have hne : pre ++ "[" ++ natToString i ++ "]" ≠ "" :=
    ne_empty_of_data _ (lbrack_data_ne_empty pre i)
  by_cases hpre : pre = ""
  · subst hpre
    rw [renderAt, if_pos rfl, renderPath, renderAt, if_neg hne, String.empty_append]
  · rw [renderAt, if_neg hpre, renderCont, renderAt, if_neg hne]
    simp only [String.append_assoc]

/-! ### The flat emission stream renders the structural leaf paths -/

theorem goodKeyStr_data_ne (s : String) (h : goodKeyStr s = true) : ¬s.data = [] := by
  simp only [goodKeyStr, Bool.and_eq_true, Bool.not_eq_true', decide_eq_false_iff_not] at h
  exact h.1.1

theorem flatten_pairs_eq :
    ∀ (n : Nat) (v : Node), nodeSize v ≤ n → goodStruct v = true → ∀ pre,
      flatten_pairs v pre =
        (leafPV v).map (fun pw => (renderAt pre pw.1, pyStr pw.2)) := by
  intro n
  induction n with
  | zero =>
    intro v h
    have := nodeSize_pos v
    omega
  | succ n ih =>
    intro v hsz hg pre
    cases v with
    | vstr s => simp [flatten_pairs, leafPV, renderAt_nil]
    | vint i => simp [flatten_pairs, leafPV, renderAt_nil]
    | vbool b => simp [flatten_pairs, leafPV, renderAt_nil]
    | vnull => simp [flatten_pairs, leafPV, renderAt_nil]
    | map m =>
      have hszm : ∀ k w, (k, w) ∈ m → nodeSize w ≤ n := by
        intro k w hm
        have h1 := nodeSize_le_entriesSize m k w hm
        simp only [nodeSize] at hsz
        omega
      have hge : goodEntries m = true := by
        simp only [goodStruct, Bool.and_eq_true] at hg
        exact hg.2
      have aux : ∀ es, (∀ k w, (k, w) ∈ es → nodeSize w ≤ n) → goodEntries es = true →
          flattenMapPairs es pre =
            (leafPVMap es).map (fun pw => (renderAt pre pw.1, pyStr pw.2)) := by
        intro es
        induction es with
        | nil => intro _ _; simp [flattenMapPairs, leafPVMap]
        | cons kv₀ es ihes =>
          obtain ⟨k₀, v₀⟩ := kv₀
          intro hszs hges
          cases k₀ with
          | ki j => simp [goodEntries] at hges
          | ks s0 =>
            have hges' : goodKeyStr s0 = true ∧ goodStruct v₀ = true ∧
                goodEntries es = true := by
              simpa [goodEntries, Bool.and_eq_true, and_assoc] using hges
            have hrec := ihes (fun k w hm => hszs k w (List.mem_cons_of_mem _ hm)) hges'.2.2
            have hprefix : ∀ pw : List Seg × Node,
                ((fun pw => (renderAt pre pw.1, pyStr pw.2)) ∘
                  (fun pw : List Seg × Node => (Seg.key (pyKeyStr (PyKey.ks s0)) :: pw.1, pw.2))) pw =
                (fun pw : List Seg × Node =>
                  (renderAt (if pre = "" then pyKeyStr (PyKey.ks s0)
                    else pre ++ "." ++ pyKeyStr (PyKey.ks s0)) pw.1, pyStr pw.2)) pw := by
              intro pw
              simp only [Function.comp, pyKeyStr]
              rw [renderAt_key_cons pre _ pw.1 (goodKeyStr_data_ne s0 hges'.1)]
            cases v₀ with
            | map m₀ =>
              simp only [flattenMapPairs, leafPVMap, List.map_append, List.map_map]
              rw [ih _ (hszs _ _ (List.mem_cons_self _ _)) hges'.2.1, hrec]
              rw [List.map_congr_left (fun pw _ => hprefix pw)]
            | seq l₀ =>
              simp only [flattenMapPairs, leafPVMap, List.map_append, List.map_map]
              rw [ih _ (hszs _ _ (List.mem_cons_self _ _)) hges'.2.1, hrec]
              rw [List.map_congr_left (fun pw _ => hprefix pw)]
            | vstr sv =>
              simp only [flattenMapPairs, leafPVMap, List.map_append, List.map_map, leafPV]
              rw [hrec, List.map_congr_left (fun pw _ => hprefix pw)]
              simp [renderAt_nil]
            | vint iv =>
              simp only [flattenMapPairs, leafPVMap, List.map_append, List.map_map, leafPV]
              rw [hrec, List.map_congr_left (fun pw _ => hprefix pw)]
              simp [renderAt_nil]
            | vbool bv =>
              simp only [flattenMapPairs, leafPVMap, List.map_append, List.map_map, leafPV]
              rw [hrec, List.map_congr_left (fun pw _ => hprefix pw)]
              simp [renderAt_nil]
            | vnull =>
              simp only [flattenMapPairs, leafPVMap, List.map_append, List.map_map, leafPV]
              rw [hrec, List.map_congr_left (fun pw _ => hprefix pw)]
              simp [renderAt_nil]
      simp only [flatten_pairs, leafPV]
      exact aux m hszm hge
    | seq l =>
      have hszl : ∀ w, w ∈ l → nodeSize w ≤ n := by
        intro w hm
        have h1 := nodeSize_le_itemsSize l w hm
        simp only [nodeSize] at hsz
        omega
      have hgl : goodItems l = true := by
        simp only [goodStruct, Bool.and_eq_true] at hg
        exact hg.2
      have aux : ∀ ls i, (∀ w, w ∈ ls → nodeSize w ≤ n) → goodItems ls = true →
          flattenSeqPairs ls i pre =
            (leafPVSeq ls i).map (fun pw => (renderAt pre pw.1, pyStr pw.2)) := by
        intro ls
        induction ls with
        | nil => intro i _ _; simp [flattenSeqPairs, leafPVSeq]
        | cons v₀ ls ihls =>
          intro i hszs hgls
          have hprefix : ∀ pw : List Seg × Node,
              ((fun pw => (renderAt pre pw.1, pyStr pw.2)) ∘
                (fun pw : List Seg × Node => (Seg.idx i :: pw.1, pw.2))) pw =
              (fun pw : List Seg × Node =>
                (renderAt (pre ++ "[" ++ natToString i ++ "]") pw.1, pyStr pw.2)) pw := by
            intro pw
            simp only [Function.comp]
            rw [renderAt_idx_cons pre i pw.1]
          cases v₀ with
          | seq l₀ => simp [goodItems] at hgls
          | map m₀ =>
            have hgls' : goodStruct (Node.map m₀) = true ∧ goodItems ls = true := by
              simpa [goodItems, Bool.and_eq_true] using hgls
            have hrec := ihls (i + 1) (fun w hm => hszs w (List.mem_cons_of_mem _ hm))
              hgls'.2
            simp only [flattenSeqPairs, leafPVSeq, List.map_append, List.map_map]
            rw [ih _ (hszs _ (List.mem_cons_self _ _)) hgls'.1, hrec]
            rw [List.map_congr_left (fun pw _ => hprefix pw)]
          | vstr sv =>
            have hgls' : goodStruct (Node.vstr sv) = true ∧ goodItems ls = true := by
              simpa [goodItems, Bool.and_eq_true] using hgls
            have hrec := ihls (i + 1) (fun w hm => hszs w (List.mem_cons_of_mem _ hm))
              hgls'.2
            simp only [flattenSeqPairs, leafPVSeq, List.map_append, List.map_map, leafPV]
            rw [hrec, List.map_congr_left (fun pw _ => hprefix pw)]
            simp [renderAt_nil]
          | vint iv =>
            have hgls' : goodStruct (Node.vint iv) = true ∧ goodItems ls = true := by
              simpa [goodItems, Bool.and_eq_true] using hgls
            have hrec := ihls (i + 1) (fun w hm => hszs w (List.mem_cons_of_mem _ hm))
              hgls'.2
            simp only [flattenSeqPairs, leafPVSeq, List.map_append, List.map_map, leafPV]
            rw [hrec, List.map_congr_left (fun pw _ => hprefix pw)]
            simp [renderAt_nil]
          | vbool bv =>
            have hgls' : goodStruct (Node.vbool bv) = true ∧ goodItems ls = true := by
              simpa [goodItems, Bool.and_eq_true] using hgls
            have hrec := ihls (i + 1) (fun w hm => hszs w (List.mem_cons_of_mem _ hm))
              hgls'.2
            simp only [flattenSeqPairs, leafPVSeq, List.map_append, List.map_map, leafPV]
            rw [hrec, List.map_congr_left (fun pw _ => hprefix pw)]
            simp [renderAt_nil]
          | vnull =>
            have hgls' : goodStruct Node.vnull = true ∧ goodItems ls = true := by
              simpa [goodItems, Bool.and_eq_true] using hgls
            have hrec := ihls (i + 1) (fun w hm => hszs w (List.mem_cons_of_mem _ hm))
              hgls'.2
            simp only [flattenSeqPairs, leafPVSeq, List.map_append, List.map_map, leafPV]
            rw [hrec, List.map_congr_left (fun pw _ => hprefix pw)]
            simp [renderAt_nil]
      simp only [flatten_pairs, leafPV]
      exact aux l 0 hszl hgl

/-! ### Rendered path strings are injective on good paths -/

theorem renderCont_append (a b : List Seg) :
    renderCont (a ++ b) = renderCont a ++ renderCont b := by
  induction a with
  | nil => simp [renderCont]
  | cons sg a ih =>
    cases sg with
    | key k =>
      show renderCont (Seg.key k :: (a ++ b)) = renderCont (Seg.key k :: a) ++ renderCont b
      rw [renderCont, renderCont, ih]
      simp only [String.append_assoc]
    | idx i =>
      show renderCont (Seg.idx i :: (a ++ b)) = renderCont (Seg.idx i :: a) ++ renderCont b
      rw [renderCont, renderCont, ih]
      simp only [String.append_assoc]

theorem renderPath_append (r p : List Seg) (hr : r ≠ []) :
    renderPath (r ++ p) = renderPath r ++ renderCont p := by
  match r, hr with
  | sg :: r', _ =>
    cases sg with
    | key k =>
      simp only [List.cons_append, renderPath, renderCont_append, String.append_assoc]
    | idx i =>
      simp only [List.cons_append, renderPath, renderCont_append, String.append_assoc]

theorem renderPath_ne_empty (r : List Seg) (hr : r ≠ []) (hg : goodSegs r) :
    renderPath r ≠ "" := by
  match r, hr with
  | Seg.key k :: r', _ =>
    have hk := hg (Seg.key k) (List.mem_cons_self _ _)
    simp only [goodSeg] at hk
    rw [renderPath]
    exact ne_empty_of_data _ (append_data_ne_empty _ _ (goodKeyStr_data_ne k hk))
  | Seg.idx i :: r', _ =>
    rw [renderPath]
    apply ne_empty_of_data
    simp [String.data_append]

theorem renderAt_renderPath (r p : List Seg) (hg : goodSegs r) :
    renderAt (renderPath r) p = renderPath (r ++ p) := by
  match r with
  | [] =>
    rw [renderAt]
    simp [renderPath]
  | sg :: r' =>
    rw [renderAt, if_neg (renderPath_ne_empty _ (by simp) hg),
      renderPath_append _ p (by simp)]

theorem renderPath_inj (p q : List Seg) (hp : goodSegs p) (hq : goodSegs q)
    (h : renderPath p = renderPath q) : p = q := by
  have := parsePath_renderPath p hp
  rw [h, parsePath_renderPath q hq] at this
  exact this.symm

/-! ### Leaf paths are good and pairwise distinct -/

theorem leafPVMap_shape (es : List (PyKey × Node)) (pw : List Seg × Node)
    (h : pw ∈ leafPVMap es) :
    ∃ k v pw', (k, v) ∈ es ∧ pw' ∈ leafPV v ∧ pw = (Seg.key (pyKeyStr k) :: pw'.1, pw'.2) := by
  induction es with
  | nil => simp [leafPVMap] at h
  | cons kv es ih =>
    obtain ⟨k₀, v₀⟩ := kv
    rw [leafPVMap] at h
    rcases List.mem_append.mp h with h1 | h1
    · obtain ⟨pw', hpw', he⟩ := List.mem_map.mp h1
      exact ⟨k₀, v₀, pw', List.mem_cons_self _ _, hpw', he.symm⟩
    · obtain ⟨k, v, pw', hm, hpw', he⟩ := ih h1
      exact ⟨k, v, pw', List.mem_cons_of_mem _ hm, hpw', he⟩

theorem leafPVSeq_shape (ls : List Node) (i : Nat) (pw : List Seg × Node)
    (h : pw ∈ leafPVSeq ls i) :
    ∃ j v pw', i ≤ j ∧ v ∈ ls ∧ pw' ∈ leafPV v ∧ pw = (Seg.idx j :: pw'.1, pw'.2) := by
  induction ls generalizing i with
  | nil => simp [leafPVSeq] at h
  | cons v₀ ls ih =>
    rw [leafPVSeq] at h
    rcases List.mem_append.mp h with h1 | h1
    · obtain ⟨pw', hpw', he⟩ := List.mem_map.mp h1
      exact ⟨i, v₀, pw', Nat.le_refl _, List.mem_cons_self _ _, hpw', he.symm⟩
    · obtain ⟨j, v, pw', hij, hm, hpw', he⟩ := ih (i + 1) h1
      exact ⟨j, v, pw', by omega, List.mem_cons_of_mem _ hm, hpw', he⟩

theorem leafPV_paths_good :
    ∀ (n : Nat) (v : Node), nodeSize v ≤ n → goodStruct v = true →
      ∀ pw ∈ leafPV v, goodSegs pw.1 := by
  intro n
  induction n with
  | zero =>
    intro v h
    have := nodeSize_pos v
    omega
  | succ n ih =>
    intro v hsz hg pw hpw
    cases v with
    | vstr s =>
      simp only [leafPV, List.mem_singleton] at hpw
      rw [hpw]
      intro sg hsg
      simp at hsg
    | vint i =>
      simp only [leafPV, List.mem_singleton] at hpw
      rw [hpw]
      intro sg hsg
      simp at hsg
    | vbool b =>
      simp only [leafPV, List.mem_singleton] at hpw
      rw [hpw]
      intro sg hsg
      simp at hsg
    | vnull =>
      simp only [leafPV, List.mem_singleton] at hpw
      rw [hpw]
      intro sg hsg
      simp at hsg
    | map m =>
      rw [leafPV] at hpw
      obtain ⟨k, w, pw', hm, hpw', he⟩ := leafPVMap_shape m pw hpw
      simp only [goodStruct, Bool.and_eq_true] at hg
      -- extract goodness of the entry (key and subtree)
      have hentry : ∀ es, goodEntries es = true → (k, w) ∈ es →
          (∃ s0, k = PyKey.ks s0 ∧ goodKeyStr s0 = true) ∧ goodStruct w = true := by
        intro es
        induction es with
        | nil => intro _ hmm; simp at hmm
        | cons kv es ihe =>
          obtain ⟨k₀, v₀⟩ := kv
          intro hge hmm
          cases k₀ with
          | ki j => simp [goodEntries] at hge
          | ks s0 =>
            have hge' : goodKeyStr s0 = true ∧ goodStruct v₀ = true ∧
                goodEntries es = true := by
              simpa [goodEntries, Bool.and_eq_true, and_assoc] using hge
            rcases List.mem_cons.mp hmm with h1 | h1
            · have hk : k = PyKey.ks s0 := congrArg Prod.fst h1
              have hw : w = v₀ := congrArg Prod.snd h1
              subst hk; subst hw
              exact ⟨⟨s0, rfl, hge'.1⟩, hge'.2.1⟩
            · exact ihe hge'.2.2 h1
      obtain ⟨⟨s0, rfl, hks⟩, hgw⟩ := hentry m hg.2 hm
      have hszw : nodeSize w ≤ n := by
        have h1 := nodeSize_le_entriesSize m _ _ hm
        simp only [nodeSize] at hsz
        omega
      have htail := ih w hszw hgw pw' hpw'
      rw [he]
      intro sg hsg
      rcases List.mem_cons.mp hsg with h1 | h1
      · rw [h1]
        simpa [goodSeg, pyKeyStr] using hks
      · exact htail sg h1
    | seq l =>
      rw [leafPV] at hpw
      obtain ⟨j, w, pw', _, hm, hpw', he⟩ := leafPVSeq_shape l 0 pw hpw
      simp only [goodStruct, Bool.and_eq_true] at hg
      have hitem : ∀ ls, goodItems ls = true → w ∈ ls → goodStruct w = true := by
        intro ls
        induction ls with
        | nil => intro _ hmm; simp at hmm
        | cons v₀ ls ihl =>
          intro hgl hmm
          cases v₀ with
          | seq l₀ => simp [goodItems] at hgl
          | map m₀ =>
            have hgl' : goodStruct (Node.map m₀) = true ∧ goodItems ls = true := by
              simpa [goodItems, Bool.and_eq_true] using hgl
            rcases List.mem_cons.mp hmm with h1 | h1
            · rw [h1]; exact hgl'.1
            · exact ihl hgl'.2 h1
          | vstr sv =>
            have hgl' : goodStruct (Node.vstr sv) = true ∧ goodItems ls = true := by
              simpa [goodItems, Bool.and_eq_true] using hgl
            rcases List.mem_cons.mp hmm with h1 | h1
            · rw [h1]; exact hgl'.1
            · exact ihl hgl'.2 h1
          | vint iv =>
            have hgl' : goodStruct (Node.vint iv) = true ∧ goodItems ls = true := by
              simpa [goodItems, Bool.and_eq_true] using hgl
            rcases List.mem_cons.mp hmm with h1 | h1
            · rw [h1]; exact hgl'.1
            · exact ihl hgl'.2 h1
          | vbool bv =>
            have hgl' : goodStruct (Node.vbool bv) = true ∧ goodItems ls = true := by
              simpa [goodItems, Bool.and_eq_true] using hgl
            rcases List.mem_cons.mp hmm with h1 | h1
            · rw [h1]; exact hgl'.1
            · exact ihl hgl'.2 h1
          | vnull =>
            have hgl' : goodStruct Node.vnull = true ∧ goodItems ls = true := by
              simpa [goodItems, Bool.and_eq_true] using hgl
            rcases List.mem_cons.mp hmm with h1 | h1
            · rw [h1]; exact hgl'.1
            · exact ihl hgl'.2 h1
      have hgw := hitem l hg.2 hm
      have hszw : nodeSize w ≤ n := by
        have h1 := nodeSize_le_itemsSize l _ hm
        simp only [nodeSize] at hsz
        omega
      have htail := ih w hszw hgw pw' hpw'
      rw [he]
      intro sg hsg
      rcases List.mem_cons.mp hsg with h1 | h1
      · rw [h1]; rfl
      · exact htail sg h1

theorem goodEntries_mem (es : List (PyKey × Node)) (k : PyKey) (v : Node)
    (hge : goodEntries es = true) (hm : (k, v) ∈ es) :
    (∃ s0, k = PyKey.ks s0 ∧ goodKeyStr s0 = true) ∧ goodStruct v = true := by
  induction es with
  | nil => simp at hm
  | cons kv es ih =>
    obtain ⟨k₀, v₀⟩ := kv
    cases k₀ with
    | ki j => simp [goodEntries] at hge
    | ks s0 =>
      have hge' : goodKeyStr s0 = true ∧ goodStruct v₀ = true ∧ goodEntries es = true := by
        simpa [goodEntries, Bool.and_eq_true, and_assoc] using hge
      rcases List.mem_cons.mp hm with h1 | h1
      · have hk : k = PyKey.ks s0 := congrArg Prod.fst h1
        have hv : v = v₀ := congrArg Prod.snd h1
        subst hk; subst hv
        exact ⟨⟨s0, rfl, hge'.1⟩, hge'.2.1⟩
      · exact ih hge'.2.2 h1

theorem goodEntries_tail (k₀ : PyKey) (v₀ : Node) (es : List (PyKey × Node))
    (hge : goodEntries ((k₀, v₀) :: es) = true) : goodEntries es = true := by
  cases k₀ with
  | ki j => simp [goodEntries] at hge
  | ks s0 =>
    have : goodKeyStr s0 = true ∧ goodStruct v₀ = true ∧ goodEntries es = true := by
      simpa [goodEntries, Bool.and_eq_true, and_assoc] using hge
    exact this.2.2

theorem goodItems_mem (ls : List Node) (w : Node)
    (hgl : goodItems ls = true) (hm : w ∈ ls) :
    goodStruct w = true ∧ ∀ l₀, w ≠ Node.seq l₀ := by
  induction ls with
  | nil => simp at hm
  | cons v₀ ls ih =>
    have hsplit : goodStruct v₀ = true ∧ goodItems ls = true ∧ ∀ l₀, v₀ ≠ Node.seq l₀ := by
      cases v₀ with
      | seq l₀ => simp [goodItems] at hgl
      | map m₀ =>
        refine ⟨?_, ?_, by intro l₀ h; cases h⟩ <;>
          simp only [goodItems, Bool.and_eq_true] at hgl
        · exact hgl.1
        · exact hgl.2
      | vstr sv =>
        refine ⟨?_, ?_, by intro l₀ h; cases h⟩ <;>
          simp only [goodItems, Bool.and_eq_true] at hgl
        · exact hgl.1
        · exact hgl.2
      | vint iv =>
        refine ⟨?_, ?_, by intro l₀ h; cases h⟩ <;>
          simp only [goodItems, Bool.and_eq_true] at hgl
        · exact hgl.1
        · exact hgl.2
      | vbool bv =>
        refine ⟨?_, ?_, by intro l₀ h; cases h⟩ <;>
          simp only [goodItems, Bool.and_eq_true] at hgl
        · exact hgl.1
        · exact hgl.2
      | vnull =>
        refine ⟨?_, ?_, by intro l₀ h; cases h⟩ <;>
          simp only [goodItems, Bool.and_eq_true] at hgl
        · exact hgl.1
        · exact hgl.2
    rcases List.mem_cons.mp hm with h1 | h1
    · subst h1
      exact ⟨hsplit.1, hsplit.2.2⟩
    · exact ih hsplit.2.1 h1

theorem leafPV_paths_nodup :
    ∀ (n : Nat) (v : Node), nodeSize v ≤ n → goodStruct v = true →
      ((leafPV v).map Prod.fst).Nodup := by
  intro n
  induction n with
  | zero =>
    intro v h
    have := nodeSize_pos v
    omega
  | succ n ih =>
    intro v hsz hg
    cases v with
    | vstr s => simp [leafPV]
    | vint i => simp [leafPV]
    | vbool b => simp [leafPV]
    | vnull => simp [leafPV]
    | map m =>
      simp only [goodStruct, Bool.and_eq_true, decide_eq_true_eq, and_assoc] at hg
      have hszm : ∀ k w, (k, w) ∈ m → nodeSize w ≤ n := by
        intro k w hm
        have h1 := nodeSize_le_entriesSize m k w hm
        simp only [nodeSize] at hsz
        omega
      rw [leafPV]
      have aux : ∀ es, (∀ k w, (k, w) ∈ es → nodeSize w ≤ n) → goodEntries es = true →
          (es.map Prod.fst).Nodup → ((leafPVMap es).map Prod.fst).Nodup := by
        intro es
        induction es with
        | nil => intro _ _ _; simp [leafPVMap]
        | cons kv₀ es ihes =>
          obtain ⟨k₀, v₀⟩ := kv₀
          intro hszs hges hnds
          obtain ⟨⟨s0, rfl, hks⟩, hgv⟩ :=
            goodEntries_mem _ _ _ hges (List.mem_cons_self _ _)
          have hges' : goodEntries es = true := goodEntries_tail _ _ _ hges
          simp only [List.map_cons, List.nodup_cons] at hnds
          rw [leafPVMap, List.map_append, List.nodup_append]
          refine ⟨?_, ihes (fun k w hm => hszs k w (List.mem_cons_of_mem _ hm)) hges'
            hnds.2, ?_⟩
          · rw [List.map_map]
            have hcomp : (Prod.fst ∘
                (fun pw : List Seg × Node =>
                  (Seg.key (pyKeyStr (PyKey.ks s0)) :: pw.1, pw.2))) =
                (fun p => Seg.key (pyKeyStr (PyKey.ks s0)) :: p) ∘ Prod.fst := rfl
            rw [hcomp, ← List.map_map]
            apply List.Nodup.map
            · intro a b hab
              simpa using hab
            · exact ih v₀ (hszs _ _ (List.mem_cons_self _ _)) hgv
          · intro a ha ha'
            rw [List.map_map] at ha
            obtain ⟨pw, hpw, hpe⟩ := List.mem_map.mp ha
            obtain ⟨pw1, hpw1, hpe1⟩ := List.mem_map.mp ha'
            obtain ⟨k', v', pw'', hm'', hpw'', he''⟩ := leafPVMap_shape es pw1 hpw1
            obtain ⟨⟨s', hk', _⟩, _⟩ := goodEntries_mem _ _ _ hges' hm''
            subst hk'
            have ha1 : Seg.key s0 :: pw.1 = a := by simpa [pyKeyStr] using hpe
            have ha2 : Seg.key s' :: pw''.1 = a := by
              rw [← hpe1, he'']
              simp [pyKeyStr]
            have heq : s0 = s' := by
              have h2 := ha1.trans ha2.symm
              simp at h2
              exact h2.1
            apply hnds.1
            exact List.mem_map.mpr ⟨(PyKey.ks s', v'), hm'', by simp [heq]⟩
      exact aux m hszm hg.2.2 hg.2.1
    | seq l =>
      simp only [goodStruct, Bool.and_eq_true] at hg
      have hszl : ∀ w, w ∈ l → nodeSize w ≤ n := by
        intro w hm
        have h1 := nodeSize_le_itemsSize l w hm
        simp only [nodeSize] at hsz
        omega
      rw [leafPV]
      have aux : ∀ ls i, (∀ w, w ∈ ls → nodeSize w ≤ n) → goodItems ls = true →
          ((leafPVSeq ls i).map Prod.fst).Nodup := by
        intro ls
        induction ls with
        | nil => intro i _ _; simp [leafPVSeq]
        | cons v₀ ls ihls =>
          intro i hszs hgls
          obtain ⟨hgv, hnotseq⟩ := goodItems_mem _ _ hgls (List.mem_cons_self _ _)
          have hgls' : goodItems ls = true := by
            cases v₀ with
            | seq l₀ => exact absurd rfl (hnotseq l₀)
            | map m₀ =>
              have h2 : goodStruct (Node.map m₀) = true ∧ goodItems ls = true := by
                simpa [goodItems, Bool.and_eq_true] using hgls
              exact h2.2
            | vstr sv =>
              have h2 : goodStruct (Node.vstr sv) = true ∧ goodItems ls = true := by
                simpa [goodItems, Bool.and_eq_true] using hgls
              exact h2.2
            | vint iv =>
              have h2 : goodStruct (Node.vint iv) = true ∧ goodItems ls = true := by
                simpa [goodItems, Bool.and_eq_true] using hgls
              exact h2.2
            | vbool bv =>
              have h2 : goodStruct (Node.vbool bv) = true ∧ goodItems ls = true := by
                simpa [goodItems, Bool.and_eq_true] using hgls
              exact h2.2
            | vnull =>
              have h2 : goodStruct Node.vnull = true ∧ goodItems ls = true := by
                simpa [goodItems, Bool.and_eq_true] using hgls
              exact h2.2
          rw [leafPVSeq, List.map_append, List.nodup_append]
          refine ⟨?_, ihls (i + 1) (fun w hm => hszs w (List.mem_cons_of_mem _ hm))
            hgls', ?_⟩
          · rw [List.map_map]
            have hcomp : (Prod.fst ∘
                (fun pw : List Seg × Node => (Seg.idx i :: pw.1, pw.2))) =
                (fun p => Seg.idx i :: p) ∘ Prod.fst := rfl
            rw [hcomp, ← List.map_map]
            apply List.Nodup.map
            · intro a b hab
              simpa using hab
            · exact ih v₀ (hszs _ (List.mem_cons_self _ _)) hgv
          · intro a ha ha'
            rw [List.map_map] at ha
            obtain ⟨pw, hpw, hpe⟩ := List.mem_map.mp ha
            obtain ⟨pw1, hpw1, hpe1⟩ := List.mem_map.mp ha'
            obtain ⟨j, v', pw'', hij, hm'', hpw'', he''⟩ := leafPVSeq_shape ls (i + 1) pw1 hpw1
            have ha1 : Seg.idx i :: pw.1 = a := by simpa using hpe
            have ha2 : Seg.idx j :: pw''.1 = a := by
              rw [← hpe1, he'']
            have heq : i = j := by
              have h2 := ha1.trans ha2.symm
              simp at h2
              exact h2.1
            omega
      exact aux l 0 hszl hg.2

/-! ### `flatten_data` agrees with the raw emission on well-formed trees -/

theorem flatten_keys_nodup (v : Node) (hg : goodStruct v = true) (r : List Seg)
    (hr : goodSegs r) : ((flatten_pairs v (renderPath r)).map Prod.fst).Nodup := by
  rw [flatten_pairs_eq (nodeSize v) v (Nat.le_refl _) hg (renderPath r), List.map_map]
  have hcomp : (Prod.fst ∘ fun pw : List Seg × Node =>
      (renderAt (renderPath r) pw.1, pyStr pw.2)) =
      (fun p => renderAt (renderPath r) p) ∘ Prod.fst := rfl
  rw [hcomp, ← List.map_map]
  apply List.Nodup.map_on
  · intro p hp q hq hpq
    have hgp := leafPV_paths_good (nodeSize v) v (Nat.le_refl _) hg
    obtain ⟨pwp, hpwp, hep⟩ := List.mem_map.mp hp
    obtain ⟨pwq, hpwq, heq⟩ := List.mem_map.mp hq
    have hgoodp : goodSegs p := by rw [← hep]; exact hgp pwp hpwp
    have hgoodq : goodSegs q := by rw [← heq]; exact hgp pwq hpwq
    have hrp : goodSegs (r ++ p) := by
      intro sg hsg
      rcases List.mem_append.mp hsg with h1 | h1
      · exact hr sg h1
      · exact hgoodp sg h1
    have hrq : goodSegs (r ++ q) := by
      intro sg hsg
      rcases List.mem_append.mp hsg with h1 | h1
      · exact hr sg h1
      · exact hgoodq sg h1
    rw [renderAt_renderPath r p hr, renderAt_renderPath r q hr] at hpq
    have := renderPath_inj _ _ hrp hrq hpq
    exact List.append_cancel_left this
  · exact leafPV_paths_nodup (nodeSize v) v (Nat.le_refl _) hg

theorem dget_append_none {κ α : Type} [DecidableEq κ] (a b : List (κ × α)) (k : κ)
    (h : dget a k = none) : dget (a ++ b) k = dget b k := by
  induction a with
  | nil => simp [dget]
  | cons kv a ih =>
    obtain ⟨k₀, v₀⟩ := kv
    by_cases h0 : k₀ = k
    · simp [dget, h0] at h
    · simp only [dget, if_neg h0] at h
      simp [dget, h0, ih h]

theorem dupdate_eq_append {κ α : Type} [DecidableEq κ] :
    ∀ (ps flat : List (κ × α)),
      (∀ k, k ∈ ps.map Prod.fst → dget flat k = none) → (ps.map Prod.fst).Nodup →
      dupdate flat ps = flat ++ ps := by
  intro ps
  induction ps with
  | nil => intro flat _ _; simp [dupdate]
  | cons kv ps ih =>
    obtain ⟨k, v⟩ := kv
    intro flat hfresh hnd
    simp only [List.map_cons, List.nodup_cons] at hnd
    have hstep : dupdate flat ((k, v) :: ps) = dupdate (dset flat k v) ps := rfl
    rw [hstep, dset_eq_append flat k v (hfresh k (by simp))]
    rw [ih (flat ++ [(k, v)]) ?_ hnd.2]
    · simp
    · intro k' hk'
      have hne : ¬k = k' := fun he => hnd.1 (he ▸ hk')
      rw [dget_append_none _ _ _ (hfresh k' (List.mem_cons_of_mem _ hk'))]
      simp [dget, hne]

theorem flatten_data_eq_pairs :
    ∀ (n : Nat) (v : Node), nodeSize v ≤ n → ∀ pre,
      ((flatten_pairs v pre).map Prod.fst).Nodup →
      flatten_data v pre = flatten_pairs v pre := by
  intro n
  induction n with
  | zero =>
    intro v h
    have := nodeSize_pos v
    omega
  | succ n ih =>
    intro v hsz pre hnd
    cases v with
    | vstr s => simp [flatten_data, flatten_pairs]
    | vint i => simp [flatten_data, flatten_pairs]
    | vbool b => simp [flatten_data, flatten_pairs]
    | vnull => simp [flatten_data, flatten_pairs]
    | map m =>
      have hszm : ∀ k w, (k, w) ∈ m → nodeSize w ≤ n := by
        intro k w hm
        have h1 := nodeSize_le_entriesSize m k w hm
        simp only [nodeSize] at hsz
        omega
      have hndm : ((flattenMapPairs m pre).map Prod.fst).Nodup := by
        simpa [flatten_pairs] using hnd
      have aux : ∀ es flat, (∀ k w, (k, w) ∈ es → nodeSize w ≤ n) →
          ((flattenMapPairs es pre).map Prod.fst).Nodup →
          (∀ k, k ∈ (flattenMapPairs es pre).map Prod.fst → dget flat k = none) →
          flattenMapLoop es pre flat = flat ++ flattenMapPairs es pre := by
        intro es
        induction es with
        | nil => intro flat _ _ _; simp [flattenMapLoop, flattenMapPairs]
        | cons kv₀ es ihes =>
          obtain ⟨k₀, v₀⟩ := kv₀
          intro flat hszs hnds hfresh
          cases v₀ with
          | map m₀ =>
            simp only [flattenMapPairs, List.map_append, List.nodup_append] at hnds
            have hA := ih _ (hszs _ _ (List.mem_cons_self _ _)) _ hnds.1
            simp only [flattenMapLoop]
            rw [hA, dupdate_eq_append _ _ ?_ hnds.1]
            · rw [ihes _ (fun k w hm => hszs k w (List.mem_cons_of_mem _ hm)) hnds.2.1 ?_]
              · simp only [flattenMapPairs]
                rw [List.append_assoc]
              · intro kk hkk
                have h1 : dget flat kk = none := by
                  apply hfresh
                  simp only [flattenMapPairs, List.map_append]
                  exact List.mem_append.mpr (Or.inr hkk)
                rw [dget_append_none _ _ _ h1, dget_eq_none_iff]
                intro hmem
                exact hnds.2.2 hmem hkk
            · intro kk hkk
              apply hfresh
              simp only [flattenMapPairs, List.map_append]
              exact List.mem_append.mpr (Or.inl hkk)
          | seq l₀ =>
            simp only [flattenMapPairs, List.map_append, List.nodup_append] at hnds
            have hA := ih _ (hszs _ _ (List.mem_cons_self _ _)) _ hnds.1
            simp only [flattenMapLoop]
            rw [hA, dupdate_eq_append _ _ ?_ hnds.1]
            · rw [ihes _ (fun k w hm => hszs k w (List.mem_cons_of_mem _ hm)) hnds.2.1 ?_]
              · simp only [flattenMapPairs]
                rw [List.append_assoc]
              · intro kk hkk
                have h1 : dget flat kk = none := by
                  apply hfresh
                  simp only [flattenMapPairs, List.map_append]
                  exact List.mem_append.mpr (Or.inr hkk)
                rw [dget_append_none _ _ _ h1, dget_eq_none_iff]
                intro hmem
                exact hnds.2.2 hmem hkk
            · intro kk hkk
              apply hfresh
              simp only [flattenMapPairs, List.map_append]
              exact List.mem_append.mpr (Or.inl hkk)
          | vstr sv =>
            simp only [flattenMapPairs, List.map_append, List.nodup_append] at hnds
            simp only [flattenMapLoop]
            rw [dset_eq_append _ _ _ (hfresh _ (by simp [flattenMapPairs]))]
            rw [ihes _ (fun k w hm => hszs k w (List.mem_cons_of_mem _ hm)) hnds.2.1 ?_]
            · simp only [flattenMapPairs]
              rw [List.append_assoc]
            · intro kk hkk
              have h1 : dget flat kk = none := by
                apply hfresh
                simp only [flattenMapPairs, List.map_append]
                exact List.mem_append.mpr (Or.inr hkk)
              rw [dget_append_none _ _ _ h1]
              have hne : ¬((if pre = "" then pyKeyStr k₀ else pre ++ "." ++ pyKeyStr k₀) = kk) := by
                intro he
                exact hnds.2.2 (by simp) (he ▸ hkk)
              simp [dget, hne]
          | vint iv =>
            simp only [flattenMapPairs, List.map_append, List.nodup_append] at hnds
            simp only [flattenMapLoop]
            rw [dset_eq_append _ _ _ (hfresh _ (by simp [flattenMapPairs]))]
            rw [ihes _ (fun k w hm => hszs k w (List.mem_cons_of_mem _ hm)) hnds.2.1 ?_]
            · simp only [flattenMapPairs]
              rw [List.append_assoc]
            · intro kk hkk
              have h1 : dget flat kk = none := by
                apply hfresh
                simp only [flattenMapPairs, List.map_append]
                exact List.mem_append.mpr (Or.inr hkk)
              rw [dget_append_none _ _ _ h1]
              have hne : ¬((if pre = "" then pyKeyStr k₀ else pre ++ "." ++ pyKeyStr k₀) = kk) := by
                intro he
                exact hnds.2.2 (by simp) (he ▸ hkk)
              simp [dget, hne]
          | vbool bv =>
            simp only [flattenMapPairs, List.map_append, List.nodup_append] at hnds
            simp only [flattenMapLoop]
            rw [dset_eq_append _ _ _ (hfresh _ (by simp [flattenMapPairs]))]
            rw [ihes _ (fun k w hm => hszs k w (List.mem_cons_of_mem _ hm)) hnds.2.1 ?_]
            · simp only [flattenMapPairs]
              rw [List.append_assoc]
            · intro kk hkk
              have h1 : dget flat kk = none := by
                apply hfresh
                simp only [flattenMapPairs, List.map_append]
                exact List.mem_append.mpr (Or.inr hkk)
              rw [dget_append_none _ _ _ h1]
              have hne : ¬((if pre = "" then pyKeyStr k₀ else pre ++ "." ++ pyKeyStr k₀) = kk) := by
                intro he
                exact hnds.2.2 (by simp) (he ▸ hkk)
              simp [dget, hne]
          | vnull =>
            simp only [flattenMapPairs, List.map_append, List.nodup_append] at hnds
            simp only [flattenMapLoop]
            rw [dset_eq_append _ _ _ (hfresh _ (by simp [flattenMapPairs]))]
            rw [ihes _ (fun k w hm => hszs k w (List.mem_cons_of_mem _ hm)) hnds.2.1 ?_]
            · simp only [flattenMapPairs]
              rw [List.append_assoc]
            · intro kk hkk
              have h1 : dget flat kk = none := by
                apply hfresh
                simp only [flattenMapPairs, List.map_append]
                exact List.mem_append.mpr (Or.inr hkk)
              rw [dget_append_none _ _ _ h1]
              have hne : ¬((if pre = "" then pyKeyStr k₀ else pre ++ "." ++ pyKeyStr k₀) = kk) := by
                intro he
                exact hnds.2.2 (by simp) (he ▸ hkk)
              simp [dget, hne]
      rw [flatten_data, flatten_pairs]
      rw [aux m [] hszm hndm (fun k _ => by simp [dget])]
      simp
    | seq l =>
      have hszl : ∀ w, w ∈ l → nodeSize w ≤ n := by
        intro w hm
        have h1 := nodeSize_le_itemsSize l w hm
        simp only [nodeSize] at hsz
        omega
      have hndl : ((flattenSeqPairs l 0 pre).map Prod.fst).Nodup := by
        simpa [flatten_pairs] using hnd
      have aux : ∀ ls i flat, (∀ w, w ∈ ls → nodeSize w ≤ n) →
          ((flattenSeqPairs ls i pre).map Prod.fst).Nodup →
          (∀ k, k ∈ (flattenSeqPairs ls i pre).map Prod.fst → dget flat k = none) →
          flattenSeqLoop ls i pre flat = flat ++ flattenSeqPairs ls i pre := by
        intro ls
        induction ls with
        | nil => intro i flat _ _ _; simp [flattenSeqLoop, flattenSeqPairs]
        | cons v₀ ls ihls =>
          intro i flat hszs hnds hfresh
          cases v₀ with
          | map m₀ =>
            simp only [flattenSeqPairs, List.map_append, List.nodup_append] at hnds
            have hA := ih _ (hszs _ (List.mem_cons_self _ _)) _ hnds.1
            simp only [flattenSeqLoop]
            rw [hA, dupdate_eq_append _ _ ?_ hnds.1]
            · rw [ihls _ _ (fun w hm => hszs w (List.mem_cons_of_mem _ hm)) hnds.2.1 ?_]
              · simp only [flattenSeqPairs]
                rw [List.append_assoc]
              · intro kk hkk
                have h1 : dget flat kk = none := by
                  apply hfresh
                  simp only [flattenSeqPairs, List.map_append]
                  exact List.mem_append.mpr (Or.inr hkk)
                rw [dget_append_none _ _ _ h1, dget_eq_none_iff]
                intro hmem
                exact hnds.2.2 hmem hkk
            · intro kk hkk
              apply hfresh
              simp only [flattenSeqPairs, List.map_append]
              exact List.mem_append.mpr (Or.inl hkk)
          | seq l₀ =>
            simp only [flattenSeqPairs, List.map_append, List.nodup_append] at hnds
            have hA := ih _ (hszs _ (List.mem_cons_self _ _)) _ hnds.1
            simp only [flattenSeqLoop]
            rw [hA, dupdate_eq_append _ _ ?_ hnds.1]
            · rw [ihls _ _ (fun w hm => hszs w (List.mem_cons_of_mem _ hm)) hnds.2.1 ?_]
              · simp only [flattenSeqPairs]
                rw [List.append_assoc]
              · intro kk hkk
                have h1 : dget flat kk = none := by
                  apply hfresh
                  simp only [flattenSeqPairs, List.map_append]
                  exact List.mem_append.mpr (Or.inr hkk)
                rw [dget_append_none _ _ _ h1, dget_eq_none_iff]
                intro hmem
                exact hnds.2.2 hmem hkk
            · intro kk hkk
              apply hfresh
              simp only [flattenSeqPairs, List.map_append]
              exact List.mem_append.mpr (Or.inl hkk)
          | vstr sv =>
            simp only [flattenSeqPairs, List.map_append, List.nodup_append] at hnds
            simp only [flattenSeqLoop]
            rw [dset_eq_append _ _ _ (hfresh _ (by simp [flattenSeqPairs]))]
            rw [ihls _ _ (fun w hm => hszs w (List.mem_cons_of_mem _ hm)) hnds.2.1 ?_]
            · simp only [flattenSeqPairs]
              rw [List.append_assoc]
            · intro kk hkk
              have h1 : dget flat kk = none := by
                apply hfresh
                simp only [flattenSeqPairs, List.map_append]
                exact List.mem_append.mpr (Or.inr hkk)
              rw [dget_append_none _ _ _ h1]
              have hne : ¬(pre ++ "[" ++ natToString i ++ "]" = kk) := by
                intro he
                exact hnds.2.2 (by simp) (he ▸ hkk)
              simp [dget, hne]
          | vint iv =>
            simp only [flattenSeqPairs, List.map_append, List.nodup_append] at hnds
            simp only [flattenSeqLoop]
            rw [dset_eq_append _ _ _ (hfresh _ (by simp [flattenSeqPairs]))]
            rw [ihls _ _ (fun w hm => hszs w (List.mem_cons_of_mem _ hm)) hnds.2.1 ?_]
            · simp only [flattenSeqPairs]
              rw [List.append_assoc]
            · intro kk hkk
              have h1 : dget flat kk = none := by
                apply hfresh
                simp only [flattenSeqPairs, List.map_append]
                exact List.mem_append.mpr (Or.inr hkk)
              rw [dget_append_none _ _ _ h1]
              have hne : ¬(pre ++ "[" ++ natToString i ++ "]" = kk) := by
                intro he
                exact hnds.2.2 (by simp) (he ▸ hkk)
              simp [dget, hne]
          | vbool bv =>
            simp only [flattenSeqPairs, List.map_append, List.nodup_append] at hnds
            simp only [flattenSeqLoop]
            rw [dset_eq_append _ _ _ (hfresh _ (by simp [flattenSeqPairs]))]
            rw [ihls _ _ (fun w hm => hszs w (List.mem_cons_of_mem _ hm)) hnds.2.1 ?_]
            · simp only [flattenSeqPairs]
              rw [List.append_assoc]
            · intro kk hkk
              have h1 : dget flat kk = none := by
                apply hfresh
                simp only [flattenSeqPairs, List.map_append]
                exact List.mem_append.mpr (Or.inr hkk)
              rw [dget_append_none _ _ _ h1]
              have hne : ¬(pre ++ "[" ++ natToString i ++ "]" = kk) := by
                intro he
                exact hnds.2.2 (by simp) (he ▸ hkk)
              simp [dget, hne]
          | vnull =>
            simp only [flattenSeqPairs, List.map_append, List.nodup_append] at hnds
            simp only [flattenSeqLoop]
            rw [dset_eq_append _ _ _ (hfresh _ (by simp [flattenSeqPairs]))]
            rw [ihls _ _ (fun w hm => hszs w (List.mem_cons_of_mem _ hm)) hnds.2.1 ?_]
            · simp only [flattenSeqPairs]
              rw [List.append_assoc]
            · intro kk hkk
              have h1 : dget flat kk = none := by
                apply hfresh
                simp only [flattenSeqPairs, List.map_append]
                exact List.mem_append.mpr (Or.inr hkk)
              rw [dget_append_none _ _ _ h1]
              have hne : ¬(pre ++ "[" ++ natToString i ++ "]" = kk) := by
                intro he
                exact hnds.2.2 (by simp) (he ▸ hkk)
              simp [dget, hne]
      rw [flatten_data, flatten_pairs]
      rw [aux l 0 [] hszl hndl (fun k _ => by simp [dget])]
      simp

/-! ### Chains of existing containers -/

/-- The container chain along a structural path exists in the tree and is
traversable by `set_nested_value` without creating anything: key segments
survive the codec and hit present dict members, index segments are in
bounds; `C` is the subtree reached. -/
def chainTo : List Seg → Node → Node → Prop
  | [], A, C => A = C
  | Seg.key k :: p, A, C =>
    match A with
    | Node.map m =>
      goodKeyStr k = true ∧ ∃ c, dget m (PyKey.ks k) = some c ∧ chainTo p c C
    | _ => False
  | Seg.idx i :: p, A, C =>
    match A with
    | Node.seq l => ∃ c, l[i]? = some c ∧ chainTo p c C
    | _ => False

/-- The (path, value) update list the leaves of `v` below base path `r`
contribute, with values drawn from the path-indexed assignment `f`. -/
def pairs (f : List Seg → String) (r : List Seg) (v : Node) :
    List (List Seg × String) :=
  (leafPV v).map (fun pw => (r ++ pw.1, f (r ++ pw.1)))

/-- Per-entry update blocks of a dict subtree, in entry order. -/
def pairsEntries (f : List Seg → String) (r : List Seg) :
    List (PyKey × Node) → List (List Seg × String)
  | [] => []
  | (k, w) :: es => pairs f (r ++ [Seg.key (pyKeyStr k)]) w ++ pairsEntries f r es

/-- Per-item update blocks of a list subtree, indices running from `i`. -/
def pairsItems (f : List Seg → String) (r : List Seg) :
    Nat → List Node → List (List Seg × String)
  | _, [] => []
  | i, w :: ls => pairs f (r ++ [Seg.idx i]) w ++ pairsItems f r (i + 1) ls

/-! ### Small list and dict helpers for the surgery lemmas -/

theorem getElem?_set_self {α : Type} :
    ∀ (l : List α) (i : Nat) (a : α), i < l.length → (l.set i a)[i]? = some a := by
  intro l
  induction l with
  | nil => intro i a h; simp at h
  | cons x l ih =>
    intro i a h
    cases i with
    | zero => simp
    | succ i =>
      simp only [List.set_cons_succ, List.getElem?_cons_succ]
      exact ih i a (by simpa using h)

theorem getD_eq_of_getElem? {α : Type} :
    ∀ (l : List α) (i : Nat) (c d : α), l[i]? = some c → l.getD i d = c := by
  intro l
  induction l with
  | nil => intro i c d h; simp at h
  | cons x l ih =>
    intro i c d h
    cases i with
    | zero => simpa [List.getD] using h
    | succ i =>
      simp only [List.getElem?_cons_succ] at h
      simpa [List.getD] using ih i c d h

theorem set_of_getElem? {α : Type} :
    ∀ (l : List α) (i : Nat) (c : α), l[i]? = some c → l.set i c = l := by
  intro l
  induction l with
  | nil => intro i c h; simp at h
  | cons x l ih =>
    intro i c h
    cases i with
    | zero => simp at h; simp [h]
    | succ i =>
      simp only [List.getElem?_cons_succ] at h
      simp [ih i c h]

theorem length_pos_of_getElem? {α : Type} (l : List α) (i : Nat) (c : α)
    (h : l[i]? = some c) : i < l.length := by
  by_contra hlt
  rw [List.getElem?_eq_none (by omega)] at h
  exact Option.noConfusion h

theorem set_append_length {α : Type} :
    ∀ (l : List α) (a b : α), (l ++ [a]).set l.length b = l ++ [b] := by
  intro l
  induction l with
  | nil => intro a b; simp
  | cons x l ih => intro a b; simp [ih]

theorem getElem?_append_length {α : Type} :
    ∀ (l : List α) (a : α), (l ++ [a])[l.length]? = some a := by
  intro l
  induction l with
  | nil => intro a; simp
  | cons x l ih => intro a; simpa using ih a

theorem dset_get_self {κ α : Type} [DecidableEq κ] :
    ∀ (m : List (κ × α)) (k : κ) (v : α), dget m k = some v → dset m k v = m := by
  intro m
  induction m with
  | nil => intro k v h; simp [dget] at h
  | cons kv m ih =>
    obtain ⟨k₀, v₀⟩ := kv
    intro k v h
    by_cases h0 : k₀ = k
    · simp only [dget, if_pos h0] at h
      have hv : v₀ = v := Option.some_inj.mp h
      subst hv
      simp [dset, h0]
    · simp only [dget, if_neg h0] at h
      simp [dset, h0, ih k v h]

theorem foldPairs_append (xs : List (List Seg × String)) :
    ∀ (A : Node) (ys : List (List Seg × String)),
      foldPairs A (xs ++ ys) = (foldPairs A xs).bind (fun B => foldPairs B ys) := by
  induction xs with
  | nil => intro A ys; simp [foldPairs]
  | cons pw xs ih =>
    intro A ys
    obtain ⟨p, str⟩ := pw
    cases h : setParts A (p.map segString) (Node.vstr str) with
    | none => simp [foldPairs, h]
    | some A' => simp [foldPairs, h, ih]

/-! ### Appending a segment to a fresh suffix -/

theorem freshTail_snoc_key :
    ∀ (p : List Seg) (k : String), goodKeyStr k = true →
      freshTail p → freshTail (p ++ [Seg.key k]) := by
  intro p
  induction p with
  | nil => intro k hk _; exact ⟨hk, trivial⟩
  | cons sg p ih =>
    intro k hk h
    cases sg with
    | key k' => exact ⟨h.1, ih k hk h.2⟩
    | idx i =>
      refine ⟨h.1, ih k hk h.2.1, ?_⟩
      cases p with
      | nil => trivial
      | cons sg' p' =>
        cases sg' with
        | key _ => trivial
        | idx _ => exact h.2.2

theorem freshTail_snoc_idx0 :
    ∀ (p : List Seg), freshTail p → (p = [] ∨ endsKey p) →
      freshTail (p ++ [Seg.idx 0]) := by
  intro p
  induction p with
  | nil => intro _ _; exact ⟨rfl, trivial, trivial⟩
  | cons sg p ih =>
    intro h hend
    have hend' : endsKey (sg :: p) := by
      rcases hend with h1 | h1
      · exact absurd h1 (by simp)
      · exact h1
    cases sg with
    | key k' =>
      cases p with
      | nil => exact ⟨h.1, ⟨rfl, trivial, trivial⟩⟩
      | cons sg' p' =>
        have : endsKey (sg' :: p') := hend'
        exact ⟨h.1, ih h.2 (Or.inr this)⟩
    | idx i =>
      cases p with
      | nil => exact absurd hend' (by simp [endsKey])
      | cons sg' p' =>
        have hend'' : endsKey (sg' :: p') := hend'
        refine ⟨h.1, ih h.2.1 (Or.inr hend''), ?_⟩
        cases sg' with
        | key _ => trivial
        | idx _ => exact h.2.2

theorem freshSuffix_snoc_key (C : Node) (q : List Seg) (k : String)
    (hk : goodKeyStr k = true) (h : freshSuffix C q) :
    freshSuffix C (q ++ [Seg.key k]) := by
  cases q with
  | nil => exact absurd h (by simp [freshSuffix])
  | cons sg tail =>
    cases sg with
    | key k₀ => exact ⟨h.1, h.2.1, freshTail_snoc_key tail k hk h.2.2⟩
    | idx i =>
      refine ⟨h.1, freshTail_snoc_key tail k hk h.2.1, ?_⟩
      cases tail with
      | nil => trivial
      | cons sg' tail' =>
        cases sg' with
        | key _ => trivial
        | idx _ => exact h.2.2

theorem endsKey_snoc_key : ∀ (p : List Seg) (k : String), endsKey (p ++ [Seg.key k]) := by
  intro p
  induction p with
  | nil => intro k; trivial
  | cons sg p ih =>
    intro k
    cases p with
    | nil =>
      cases sg with
      | key _ => exact ih k
      | idx _ => exact ih k
    | cons sg' p' =>
      cases sg with
      | key k2 => exact ih k
      | idx i2 => exact ih k

theorem freshSuffix_snoc_idx0 (C : Node) (q : List Seg)
    (h : freshSuffix C q) (he : endsKey q) : freshSuffix C (q ++ [Seg.idx 0]) := by
  cases q with
  | nil => exact absurd h (by simp [freshSuffix])
  | cons sg tail =>
    cases sg with
    | key k₀ =>
      refine ⟨h.1, h.2.1, freshTail_snoc_idx0 tail h.2.2 ?_⟩
      cases tail with
      | nil => exact Or.inl rfl
      | cons sg' tail' => exact Or.inr he
    | idx i =>
      cases tail with
      | nil => exact absurd he (by simp [endsKey])
      | cons sg' tail' =>
        refine ⟨h.1, freshTail_snoc_idx0 (sg' :: tail') h.2.1 (Or.inr he), ?_⟩
        cases sg' with
        | key _ => trivial
        | idx _ => exact h.2.2

/-! ### Surgery along an existing chain -/

theorem replaceAt_nil (A w : Node) : replaceAt A [] w = w := by
  cases A <;> rfl


theorem chainTo_trans :
    ∀ (b : List Seg) (A C : Node), chainTo b A C →
      ∀ (q : List Seg) (D : Node), chainTo q C D → chainTo (b ++ q) A D := by
  intro b
  induction b with
  | nil =>
    intro A C h q D h2
    have hAC : A = C := h
    subst hAC
    simpa using h2
  | cons sg b ih =>
    intro A C h q D h2
    cases sg with
    | key k =>
      cases A with
      | map m =>
        obtain ⟨hk, c, hget, hchain⟩ := h
        exact ⟨hk, c, hget, ih c C hchain q D h2⟩
      | seq l => exact h.elim
      | vstr s2 => exact h.elim
      | vint iv => exact h.elim
      | vbool bv => exact h.elim
      | vnull => exact h.elim
    | idx i =>
      cases A with
      | seq l =>
        obtain ⟨c, hget, hchain⟩ := h
        exact ⟨c, hget, ih c C hchain q D h2⟩
      | map m => exact h.elim
      | vstr s2 => exact h.elim
      | vint iv => exact h.elim
      | vbool bv => exact h.elim
      | vnull => exact h.elim

theorem replaceAt_self :
    ∀ (b : List Seg) (A C : Node), chainTo b A C → replaceAt A b C = A := by
  intro b
  induction b with
  | nil =>
    intro A C h
    have hAC : A = C := h
    subst hAC
    exact replaceAt_nil A A
  | cons sg b ih =>
    intro A C h
    cases sg with
    | key k =>
      cases A with
      | map m =>
        obtain ⟨hk, c, hget, hchain⟩ := h
        simp only [replaceAt, hget, Option.getD_some]
        rw [ih c C hchain, dset_get_self m _ c hget]
      | seq l => exact h.elim
      | vstr s2 => exact h.elim
      | vint iv => exact h.elim
      | vbool bv => exact h.elim
      | vnull => exact h.elim
    | idx i =>
      cases A with
      | seq l =>
        obtain ⟨c, hget, hchain⟩ := h
        simp only [replaceAt, getD_eq_of_getElem? l i c _ hget]
        rw [ih c C hchain, set_of_getElem? l i c hget]
      | map m => exact h.elim
      | vstr s2 => exact h.elim
      | vint iv => exact h.elim
      | vbool bv => exact h.elim
      | vnull => exact h.elim

theorem chainTo_replaceAt :
    ∀ (b : List Seg) (A C G : Node), chainTo b A C →
      chainTo b (replaceAt A b G) G := by
  intro b
  induction b with
  | nil =>
    intro A C G _
    rw [replaceAt_nil]
    rfl
  | cons sg b ih =>
    intro A C G h
    cases sg with
    | key k =>
      cases A with
      | map m =>
        obtain ⟨hk, c, hget, hchain⟩ := h
        simp only [replaceAt, hget, Option.getD_some]
        exact ⟨hk, replaceAt c b G, dget_dset_self m _ _, ih c C G hchain⟩
      | seq l => exact h.elim
      | vstr s2 => exact h.elim
      | vint iv => exact h.elim
      | vbool bv => exact h.elim
      | vnull => exact h.elim
    | idx i =>
      cases A with
      | seq l =>
        obtain ⟨c, hget, hchain⟩ := h
        simp only [replaceAt, getD_eq_of_getElem? l i c _ hget]
        exact ⟨replaceAt c b G,
          getElem?_set_self l i _ (length_pos_of_getElem? l i c hget),
          ih c C G hchain⟩
      | map m => exact h.elim
      | vstr s2 => exact h.elim
      | vint iv => exact h.elim
      | vbool bv => exact h.elim
      | vnull => exact h.elim

theorem replaceAt_replaceAt :
    ∀ (b : List Seg) (A C G G2 : Node), chainTo b A C →
      replaceAt (replaceAt A b G) b G2 = replaceAt A b G2 := by
  intro b
  induction b with
  | nil =>
    intro A C G G2 _
    rw [replaceAt_nil, replaceAt_nil]
  | cons sg b ih =>
    intro A C G G2 h
    cases sg with
    | key k =>
      cases A with
      | map m =>
        obtain ⟨hk, c, hget, hchain⟩ := h
        simp only [replaceAt, hget, Option.getD_some, dget_dset_self,
          dset_dset_self]
        rw [ih c C G G2 hchain]
      | seq l => exact h.elim
      | vstr s2 => exact h.elim
      | vint iv => exact h.elim
      | vbool bv => exact h.elim
      | vnull => exact h.elim
    | idx i =>
      cases A with
      | seq l =>
        obtain ⟨c, hget, hchain⟩ := h
        have hlt := length_pos_of_getElem? l i c hget
        simp only [replaceAt, getD_eq_of_getElem? l i c _ hget]
        rw [getD_eq_of_getElem? _ i _ _ (getElem?_set_self l i _ hlt),
          ih c C G G2 hchain, List.set_set]
      | map m => exact h.elim
      | vstr s2 => exact h.elim
      | vint iv => exact h.elim
      | vbool bv => exact h.elim
      | vnull => exact h.elim

theorem replaceAt_append :
    ∀ (b : List Seg) (A C : Node), chainTo b A C →
      ∀ (q : List Seg) (X : Node),
        replaceAt A (b ++ q) X = replaceAt A b (replaceAt C q X) := by
  intro b
  induction b with
  | nil =>
    intro A C h q X
    have hAC : A = C := h
    subst hAC
    rw [List.nil_append, replaceAt_nil]
  | cons sg b ih =>
    intro A C h q X
    cases sg with
    | key k =>
      cases A with
      | map m =>
        obtain ⟨hk, c, hget, hchain⟩ := h
        simp only [List.cons_append, replaceAt, hget, Option.getD_some]
        rw [List.append_eq, ih c C hchain q X]
      | seq l => exact h.elim
      | vstr s2 => exact h.elim
      | vint iv => exact h.elim
      | vbool bv => exact h.elim
      | vnull => exact h.elim
    | idx i =>
      cases A with
      | seq l =>
        obtain ⟨c, hget, hchain⟩ := h
        simp only [List.cons_append, replaceAt, getD_eq_of_getElem? l i c _ hget]
        rw [List.append_eq, ih c C hchain q X]
      | map m => exact h.elim
      | vstr s2 => exact h.elim
      | vint iv => exact h.elim
      | vbool bv => exact h.elim
      | vnull => exact h.elim

/-! ### The skeleton chains `set_nested_value` creates are traversable -/

theorem chainTo_skel :
    ∀ (p p' : List Seg) (R : Node), p' ≠ [] → freshTail (p ++ p') →
      chainTo p (skel (p ++ p') R) (skel p' R) := by
  intro p
  induction p with
  | nil =>
    intro p' R _ _
    rfl
  | cons sg rest ih =>
    intro p' R hne hft
    cases sg with
    | key k =>
      refine ⟨hft.1, skel (rest ++ p') R, by simp [skel, dget], ?_⟩
      exact ih p' R hne hft.2
    | idx i =>
      obtain ⟨hi, hft', _⟩ := hft
      subst hi
      cases hrp : rest ++ p' with
      | nil => exact absurd (List.append_eq_nil.mp hrp).2 hne
      | cons x xs =>
        have hskel : skel ((Seg.idx 0 :: rest) ++ p') R =
            Node.seq [skel (rest ++ p') R] := by
          rw [List.cons_append, hrp]
          rfl
        rw [hskel]
        exact ⟨skel (rest ++ p') R, by simp, ih p' R hne hft'⟩

theorem replaceAt_skel :
    ∀ (p p' : List Seg) (R X : Node), p' ≠ [] → freshTail (p ++ p') →
      replaceAt (skel (p ++ p') R) p X = skel p X := by
  intro p
  induction p with
  | nil =>
    intro p' R X _ _
    rw [replaceAt_nil]
    rfl
  | cons sg rest ih =>
    intro p' R X hne hft
    cases sg with
    | key k =>
      show replaceAt (Node.map [(PyKey.ks k, skel (rest ++ p') R)]) (Seg.key k :: rest) X =
        skel (Seg.key k :: rest) X
      have hrw := ih p' R X hne hft.2
      simp [replaceAt, dget, dset, skel, hrw]
    | idx i =>
      obtain ⟨hi, hft', _⟩ := hft
      subst hi
      cases hrp : rest ++ p' with
      | nil => exact absurd (List.append_eq_nil.mp hrp).2 hne
      | cons x xs =>
        have hskel : skel ((Seg.idx 0 :: rest) ++ p') R =
            Node.seq [skel (rest ++ p') R] := by
          rw [List.cons_append, hrp]
          rfl
        rw [hskel]
        cases rest with
        | nil =>
          show Node.seq ([skel p' R].set 0 (replaceAt ([skel p' R].getD 0 (Node.map []))
            [] X)) = skel [Seg.idx 0] X
          rw [replaceAt_nil]
          rfl
        | cons sg2 rest2 =>
          show Node.seq ([skel ((sg2 :: rest2) ++ p') R].set 0
              (replaceAt ([skel ((sg2 :: rest2) ++ p') R].getD 0 (Node.map []))
                (sg2 :: rest2) X)) =
            skel (Seg.idx 0 :: sg2 :: rest2) X
          have : ([skel ((sg2 :: rest2) ++ p') R].getD 0 (Node.map [])) =
              skel ((sg2 :: rest2) ++ p') R := rfl
          rw [this, ih p' R X hne hft']
          rfl

/-! ### Grafting one more segment behind a fresh suffix -/

theorem chainTo_graft_snoc (C : Node) (q : List Seg) (sg : Seg) (R : Node)
    (hq : q ≠ []) (h : freshSuffix C (q ++ [sg])) :
    chainTo q (graftFresh C (q ++ [sg]) R) (skel [sg] R) := by
  cases q with
  | nil => exact absurd rfl hq
  | cons sg₀ p =>
    cases sg₀ with
    | key k₀ =>
      obtain ⟨⟨m, hC, hget⟩, hk₀, hft⟩ := h
      subst hC
      show chainTo (Seg.key k₀ :: p)
        (Node.map (dset m (PyKey.ks k₀) (skel (p ++ [sg]) R))) (skel [sg] R)
      exact ⟨hk₀, skel (p ++ [sg]) R, dget_dset_self m _ _,
        chainTo_skel p [sg] R (by simp) hft⟩
    | idx i =>
      obtain ⟨⟨l, hC, hlen⟩, hft, _⟩ := h
      subst hC
      show chainTo (Seg.idx i :: p) (Node.seq (l ++ [skel (p ++ [sg]) R])) (skel [sg] R)
      refine ⟨skel (p ++ [sg]) R, ?_, chainTo_skel p [sg] R (by simp) hft⟩
      rw [← hlen]
      exact getElem?_append_length l _

theorem replaceAt_graft_snoc (C : Node) (q : List Seg) (sg : Seg) (R X : Node)
    (hq : q ≠ []) (h : freshSuffix C (q ++ [sg])) :
    replaceAt (graftFresh C (q ++ [sg]) R) q X = graftFresh C q X := by
  cases q with
  | nil => exact absurd rfl hq
  | cons sg₀ p =>
    cases sg₀ with
    | key k₀ =>
      obtain ⟨⟨m, hC, hget⟩, hk₀, hft⟩ := h
      subst hC
      show replaceAt (Node.map (dset m (PyKey.ks k₀) (skel (p ++ [sg]) R)))
          (Seg.key k₀ :: p) X =
        Node.map (dset m (PyKey.ks k₀) (skel p X))
      simp only [replaceAt, dget_dset_self, Option.getD_some, dset_dset_self]
      rw [replaceAt_skel p [sg] R X (by simp) hft]
    | idx i =>
      obtain ⟨⟨l, hC, hlen⟩, hft, _⟩ := h
      subst hC
      show replaceAt (Node.seq (l ++ [skel (p ++ [sg]) R])) (Seg.idx i :: p) X =
        Node.seq (l ++ [skel p X])
      have hget : (l ++ [skel (p ++ [sg]) R])[i]? = some (skel (p ++ [sg]) R) := by
        rw [← hlen]
        exact getElem?_append_length l _
      simp only [replaceAt, getD_eq_of_getElem? _ i _ _ hget]
      rw [replaceAt_skel p [sg] R X (by simp) hft, ← hlen, set_append_length]

/-! ### `set_nested_value` along an existing chain and into a fresh suffix -/

/-- The container `set_nested_value` creates for an absent dict member,
chosen by the next part's kind (line 123). -/
def emptyFor : List Seg → Node
  | Seg.idx _ :: _ => Node.seq []
  | _ => Node.map []

theorem goodKeyStr_not_digits (k : String) (h : goodKeyStr k = true) :
    isAllDigits k = false := by
  simp only [goodKeyStr, Bool.and_eq_true, Bool.not_eq_true'] at h
  exact h.1.2

theorem setParts_skel :
    ∀ (q : List Seg) (v : Node), q ≠ [] → freshTail q →
      setParts (emptyFor q) (q.map segString) v = some (skel q v) := by
  intro q
  induction q with
  | nil => intro v hne _; exact absurd rfl hne
  | cons sg q ih =>
    intro v _ hft
    cases sg with
    | key k =>
      have hdig : isAllDigits k = false := goodKeyStr_not_digits k hft.1
      cases q with
      | nil =>
        show setParts (Node.map []) [k] v = some (skel [Seg.key k] v)
        simp [setParts, setFinal, hdig, dset, skel]
      | cons sg2 q2 =>
        have hchild :
            (if isAllDigits (segString sg2) then Node.seq [] else Node.map []) =
              emptyFor (sg2 :: q2) := by
          cases sg2 with
          | key k2 => simp [segString, goodKeyStr_not_digits k2 hft.2.1, emptyFor]
          | idx j => simp [segString, isAllDigits_natToString, emptyFor]
        have hrec := ih v (by simp) hft.2
        show setParts (Node.map []) (k :: (sg2 :: q2).map segString) v =
          some (skel (Seg.key k :: sg2 :: q2) v)
        cases sg2 with
        | key k2 =>
          simp only [List.map_cons, setParts, hdig, Bool.false_eq_true, if_false,
            dget] at hrec ⊢
          rw [show (if isAllDigits (segString (Seg.key k2)) then Node.seq []
            else Node.map []) = emptyFor (Seg.key k2 :: q2) from hchild] at *
          rw [hrec]
          simp [dset, skel]
        | idx j =>
          simp only [List.map_cons, setParts, hdig, Bool.false_eq_true, if_false,
            dget] at hrec ⊢
          rw [show (if isAllDigits (segString (Seg.idx j)) then Node.seq []
            else Node.map []) = emptyFor (Seg.idx j :: q2) from hchild] at *
          rw [hrec]
          simp [dset, skel]
    | idx i =>
      obtain ⟨hi, hft', hmatch⟩ := hft
      subst hi
      cases q with
      | nil =>
        show setParts (Node.seq []) [segString (Seg.idx 0)] v =
          some (skel [Seg.idx 0] v)
        simp [setParts, setFinal, segString, isAllDigits_natToString,
          strToNat_natToString, skel]
      | cons sg2 q2 =>
        cases sg2 with
        | idx j => exact hmatch.elim
        | key k2 =>
          have hrec := ih v (by simp) hft'
          have hempty : emptyFor (Seg.key k2 :: q2) = Node.map [] := rfl
          rw [hempty] at hrec
          simp only [List.map_cons, segString] at hrec
          show setParts (Node.seq [])
            (segString (Seg.idx 0) :: (Seg.key k2 :: q2).map segString) v =
            some (skel (Seg.idx 0 :: Seg.key k2 :: q2) v)
          simp only [setParts, segString, List.map_cons, isAllDigits_natToString,
            strToNat_natToString, if_pos]
          have hgd : (([] : List Node) ++
              List.replicate (0 + 1 - ([] : List Node).length) (Node.map [])).getD 0
              (Node.map []) = Node.map [] := rfl
          rw [hgd, hrec]
          rfl

theorem setParts_chain :
    ∀ (b : List Seg) (A C : Node), chainTo b A C →
      ∀ (qs : List String) (v C2 : Node), qs ≠ [] →
        setParts C qs v = some C2 →
        setParts A (b.map segString ++ qs) v = some (replaceAt A b C2) := by
  intro b
  induction b with
  | nil =>
    intro A C h qs v C2 _ h2
    have hAC : A = C := h
    subst hAC
    rw [List.map_nil, List.nil_append, replaceAt_nil]
    exact h2
  | cons sg b ih =>
    intro A C h qs v C2 hqs h2
    cases sg with
    | key k =>
      cases A with
      | map m =>
        obtain ⟨hk, c, hget, hchain⟩ := h
        have hdig : isAllDigits k = false := goodKeyStr_not_digits k hk
        have hrec := ih c C hchain qs v C2 hqs h2
        cases htl : List.map segString b ++ qs with
        | nil =>
          rcases List.append_eq_nil.mp htl with ⟨_, h1⟩
          exact absurd h1 hqs
        | cons q₀ rest₀ =>
          rw [htl] at hrec
          show setParts (Node.map m) (k :: (List.map segString b ++ qs)) v =
            some (replaceAt (Node.map m) (Seg.key k :: b) C2)
          rw [htl]
          simp only [setParts, hdig, Bool.false_eq_true, if_false, hget]
          rw [hrec]
          simp only [replaceAt, hget, Option.getD_some]
      | seq l => exact h.elim
      | vstr s2 => exact h.elim
      | vint iv => exact h.elim
      | vbool bv => exact h.elim
      | vnull => exact h.elim
    | idx i =>
      cases A with
      | seq l =>
        obtain ⟨c, hget, hchain⟩ := h
        have hlt : i < l.length := length_pos_of_getElem? l i c hget
        have hrec := ih c C hchain qs v C2 hqs h2
        cases htl : List.map segString b ++ qs with
        | nil =>
          rcases List.append_eq_nil.mp htl with ⟨_, h1⟩
          exact absurd h1 hqs
        | cons q₀ rest₀ =>
          rw [htl] at hrec
          show setParts (Node.seq l) (segString (Seg.idx i) :: (List.map segString b ++ qs)) v =
            some (replaceAt (Node.seq l) (Seg.idx i :: b) C2)
          rw [htl]
          simp only [setParts, segString, isAllDigits_natToString,
            strToNat_natToString, if_pos]
          have hpad : l ++ List.replicate (i + 1 - l.length) (Node.map []) = l := by
            rw [show i + 1 - l.length = 0 from by omega]
            simp
          rw [hpad, getD_eq_of_getElem? l i c _ hget, hrec]
          simp only [replaceAt, getD_eq_of_getElem? l i c _ hget]
      | map m => exact h.elim
      | vstr s2 => exact h.elim
      | vint iv => exact h.elim
      | vbool bv => exact h.elim
      | vnull => exact h.elim

theorem setParts_fresh :
    ∀ (C : Node) (q : List Seg) (v : Node), freshSuffix C q →
      setParts C (q.map segString) v = some (graftFresh C q v) := by
  intro C q v h
  cases q with
  | nil => exact absurd h (by simp [freshSuffix])
  | cons sg p =>
    cases sg with
    | key k =>
      obtain ⟨⟨m, hC, hget⟩, hk, hft⟩ := h
      subst hC
      have hdig : isAllDigits k = false := goodKeyStr_not_digits k hk
      cases p with
      | nil =>
        show setParts (Node.map m) [k] v = some (graftFresh (Node.map m) [Seg.key k] v)
        simp [setParts, setFinal, hdig, graftFresh, skel]
      | cons sg2 p2 =>
        have hrec := setParts_skel (sg2 :: p2) v (by simp) hft
        have hchild :
            (if isAllDigits (segString sg2) then Node.seq [] else Node.map []) =
              emptyFor (sg2 :: p2) := by
          cases sg2 with
          | key k2 => simp [segString, goodKeyStr_not_digits k2 hft.1, emptyFor]
          | idx j => simp [segString, isAllDigits_natToString, emptyFor]
        show setParts (Node.map m) (k :: (sg2 :: p2).map segString) v =
          some (graftFresh (Node.map m) (Seg.key k :: sg2 :: p2) v)
        simp only [List.map_cons, setParts, hdig, Bool.false_eq_true, if_false, hget]
        rw [show (if isAllDigits (segString sg2) then Node.seq []
          else Node.map []) = emptyFor (sg2 :: p2) from hchild]
        rw [show ((sg2 :: p2).map segString) = (segString sg2 :: p2.map segString)
          from rfl] at hrec
        rw [hrec]
        rfl
    | idx i =>
      obtain ⟨⟨l, hC, hlen⟩, hft, hmatch⟩ := h
      subst hC
      cases p with
      | nil =>
        show setParts (Node.seq l) [segString (Seg.idx i)] v =
          some (graftFresh (Node.seq l) [Seg.idx i] v)
        simp only [setParts, setFinal, segString, isAllDigits_natToString,
          strToNat_natToString, if_pos]
        rw [show i + 1 - l.length = 1 from by omega]
        rw [show (List.replicate 1 Node.vnull) = [Node.vnull] from rfl]
        rw [← hlen, set_append_length]
        rfl
      | cons sg2 p2 =>
        cases sg2 with
        | idx j => exact hmatch.elim
        | key k2 =>
          have hrec := setParts_skel (Seg.key k2 :: p2) v (by simp) hft
          have hempty : emptyFor (Seg.key k2 :: p2) = Node.map [] := rfl
          rw [hempty] at hrec
          simp only [List.map_cons, segString] at hrec
          show setParts (Node.seq l)
            (segString (Seg.idx i) :: (Seg.key k2 :: p2).map segString) v =
            some (graftFresh (Node.seq l) (Seg.idx i :: Seg.key k2 :: p2) v)
          simp only [setParts, segString, isAllDigits_natToString,
            strToNat_natToString, if_pos]
          rw [show i + 1 - l.length = 1 from by omega]
          rw [show (List.replicate 1 (Node.map [])) = [Node.map []] from rfl]
          rw [getD_eq_of_getElem? (l ++ [Node.map []]) i _ _
            (by rw [← hlen]; exact getElem?_append_length l _)]
          rw [hrec]
          dsimp only
          rw [← hlen, set_append_length]
          rfl

theorem setParts_chain_fresh (b : List Seg) (A C : Node) (q : List Seg) (v : Node)
    (hb : chainTo b A C) (hq : freshSuffix C q) :
    setParts A ((b ++ q).map segString) v = some (replaceAt A b (graftFresh C q v)) := by
  have hqne : q ≠ [] := by
    intro he
    subst he
    exact absurd hq (by simp [freshSuffix])
  rw [List.map_append]
  exact setParts_chain b A C hb (q.map segString) v _ (by simpa using hqne)
    (setParts_fresh C q v hq)

/-! ### Update lists of containers decompose into per-member blocks -/

theorem pairsEntries_eq (f : List Seg → String) (r : List Seg) :
    ∀ (m : List (PyKey × Node)),
      (leafPVMap m).map (fun pw => (r ++ pw.1, f (r ++ pw.1))) = pairsEntries f r m := by
  intro m
  induction m with
  | nil => simp [leafPVMap, pairsEntries]
  | cons kv es ih =>
    obtain ⟨k, w⟩ := kv
    rw [show leafPVMap ((k, w) :: es) =
      (leafPV w).map (fun pw => (Seg.key (pyKeyStr k) :: pw.1, pw.2)) ++ leafPVMap es
      from by rw [leafPVMap]]
    rw [List.map_append, List.map_map, ih]
    rw [show pairsEntries f r ((k, w) :: es) =
      pairs f (r ++ [Seg.key (pyKeyStr k)]) w ++ pairsEntries f r es
      from by rw [pairsEntries]]
    congr 1
    rw [pairs]
    apply List.map_congr_left
    intro pw _
    simp [Function.comp, List.append_assoc]

theorem pairsItems_eq (f : List Seg → String) (r : List Seg) :
    ∀ (l : List Node) (i : Nat),
      (leafPVSeq l i).map (fun pw => (r ++ pw.1, f (r ++ pw.1))) = pairsItems f r i l := by
  intro l
  induction l with
  | nil => intro i; simp [leafPVSeq, pairsItems]
  | cons w ls ih =>
    intro i
    rw [show leafPVSeq (w :: ls) i =
      (leafPV w).map (fun pw => (Seg.idx i :: pw.1, pw.2)) ++ leafPVSeq ls (i + 1)
      from by rw [leafPVSeq]]
    rw [List.map_append, List.map_map, ih (i + 1)]
    rw [show pairsItems f r i (w :: ls) =
      pairs f (r ++ [Seg.idx i]) w ++ pairsItems f r (i + 1) ls
      from by rw [pairsItems]]
    congr 1
    rw [pairs]
    apply List.map_congr_left
    intro pw _
    simp [Function.comp, List.append_assoc]

theorem pairs_map (f : List Seg → String) (r : List Seg) (m : List (PyKey × Node)) :
    pairs f r (Node.map m) = pairsEntries f r m := by
  rw [pairs, show leafPV (Node.map m) = leafPVMap m from by rw [leafPV]]
  exact pairsEntries_eq f r m

theorem pairs_seq (f : List Seg → String) (r : List Seg) (l : List Node) :
    pairs f r (Node.seq l) = pairsItems f r 0 l := by
  rw [pairs, show leafPV (Node.seq l) = leafPVSeq l 0 from by rw [leafPV]]
  exact pairsItems_eq f r l 0

/-! ### The master fold lemmas: a subtree's update block builds the
relabelled subtree at a fresh slot -/

/-- Glue property for the structural induction on subtree size: folding
the update block of `v` below the fresh suffix `q` over the container `C`
(reached from the ambient tree `A` along `b`) grafts the relabelled copy
of `v` at `q`. -/
def graftSpec (v : Node) : Prop :=
  goodStruct v = true →
  ∀ (f : List Seg → String) (A C : Node) (b q : List Seg),
    chainTo b A C → freshSuffix C q →
    (match v with | Node.seq _ => endsKey q | _ => True) →
    foldPairs A (pairs f (b ++ q) v) =
      some (replaceAt A b (graftFresh C q (relabel f (b ++ q) v)))

theorem entries_fold :
    ∀ (es : List (PyKey × Node)), (∀ kv ∈ es, graftSpec kv.2) →
      goodEntries es = true →
      ∀ (f : List Seg → String) (A : Node) (r : List Seg) (mcur : List (PyKey × Node)),
        chainTo r A (Node.map mcur) →
        (∀ kv ∈ es, dget mcur kv.1 = none) →
        ((es.map Prod.fst).Nodup) →
        foldPairs A (pairsEntries f r es) =
          some (replaceAt A r (Node.map (mcur ++ relabelEntries f r es))) := by
  intro es
  induction es with
  | nil =>
    intro _ _ f A r mcur hchain _ _
    rw [show pairsEntries f r [] = [] from rfl,
      show relabelEntries f r [] = [] from by rw [relabelEntries]]
    rw [List.append_nil, foldPairs]
    rw [replaceAt_self r A (Node.map mcur) hchain]
  | cons kv es ih =>
    obtain ⟨k, w⟩ := kv
    intro hM hge f A r mcur hchain hfresh hnd
    cases k with
    | ki n => simp [goodEntries] at hge
    | ks s =>
      have hge' : goodKeyStr s = true ∧ goodStruct w = true ∧ goodEntries es = true := by
        simpa [goodEntries, and_assoc] using hge
      simp only [List.map_cons, List.nodup_cons] at hnd
      have hfresh₀ : dget mcur (PyKey.ks s) = none :=
        hfresh (PyKey.ks s, w) (List.mem_cons_self _ _)
      have hblock := hM (PyKey.ks s, w) (List.mem_cons_self _ _) hge'.2.1 f A
        (Node.map mcur) r [Seg.key s] hchain
        ⟨⟨mcur, rfl, hfresh₀⟩, hge'.1, trivial⟩
        (by cases w <;> trivial)
      set R := relabel f (r ++ [Seg.key s]) w with hR
      have hgr : graftFresh (Node.map mcur) [Seg.key s] R =
          Node.map (mcur ++ [(PyKey.ks s, R)]) := by
        show Node.map (dset mcur (PyKey.ks s) (skel [] R)) = _
        rw [show skel [] R = R from rfl, dset_eq_append mcur _ R hfresh₀]
      rw [hgr] at hblock
      set A1 := replaceAt A r (Node.map (mcur ++ [(PyKey.ks s, R)])) with hA1
      have hchain1 : chainTo r A1 (Node.map (mcur ++ [(PyKey.ks s, R)])) :=
        chainTo_replaceAt r A (Node.map mcur) _ hchain
      have hrest := ih (fun kv hkv => hM kv (List.mem_cons_of_mem _ hkv)) hge'.2.2
        f A1 r (mcur ++ [(PyKey.ks s, R)]) hchain1
        ?_ hnd.2
      · rw [show pairsEntries f r ((PyKey.ks s, w) :: es) =
          pairs f (r ++ [Seg.key (pyKeyStr (PyKey.ks s))]) w ++ pairsEntries f r es
          from by rw [pairsEntries]]
        rw [show pyKeyStr (PyKey.ks s) = s from rfl]
        rw [foldPairs_append, hblock, Option.some_bind, hrest]
        rw [replaceAt_replaceAt r A (Node.map mcur) _ _ hchain]
        rw [show relabelEntries f r ((PyKey.ks s, w) :: es) =
          (PyKey.ks s, relabel f (r ++ [Seg.key (pyKeyStr (PyKey.ks s))]) w) ::
            relabelEntries f r es from by rw [relabelEntries]]
        rw [show pyKeyStr (PyKey.ks s) = s from rfl, ← hR]
        rw [List.append_assoc, List.singleton_append]
      · intro kv hkv
        have hne : PyKey.ks s ≠ kv.1 := by
          intro he
          exact hnd.1 (he ▸ List.mem_map_of_mem Prod.fst hkv)
        rw [dget_append_none _ _ _ (hfresh kv (List.mem_cons_of_mem _ hkv))]
        simp [dget, hne]

theorem items_fold :
    ∀ (ls : List Node), (∀ w ∈ ls, graftSpec w) → goodItems ls = true →
      ∀ (f : List Seg → String) (A : Node) (r : List Seg) (lcur : List Node),
        chainTo r A (Node.seq lcur) →
        foldPairs A (pairsItems f r lcur.length ls) =
          some (replaceAt A r (Node.seq (lcur ++ relabelItems f r lcur.length ls))) := by
  intro ls
  induction ls with
  | nil =>
    intro _ _ f A r lcur hchain
    rw [show pairsItems f r lcur.length [] = [] from rfl,
      show relabelItems f r lcur.length [] = [] from by rw [relabelItems]]
    rw [List.append_nil, foldPairs]
    rw [replaceAt_self r A (Node.seq lcur) hchain]
  | cons w ls ih =>
    intro hM hgi f A r lcur hchain
    have hwns : goodStruct w = true ∧ goodItems ls = true := by
      cases w with
      | seq l2 => simp [goodItems] at hgi
      | map m2 => simpa [goodItems] using hgi
      | vstr s2 => simpa [goodItems] using hgi
      | vint iv => simpa [goodItems] using hgi
      | vbool bv => simpa [goodItems] using hgi
      | vnull => simpa [goodItems] using hgi
    have hblock := hM w (List.mem_cons_self _ _) hwns.1 f A
      (Node.seq lcur) r [Seg.idx lcur.length] hchain
      ⟨⟨lcur, rfl, rfl⟩, trivial, trivial⟩
      (by
        cases w with
        | seq l2 => simp [goodItems] at hgi
        | map m2 => trivial
        | vstr s2 => trivial
        | vint iv => trivial
        | vbool bv => trivial
        | vnull => trivial)
    set R := relabel f (r ++ [Seg.idx lcur.length]) w with hR
    have hgr : graftFresh (Node.seq lcur) [Seg.idx lcur.length] R =
        Node.seq (lcur ++ [R]) := rfl
    rw [hgr] at hblock
    set A1 := replaceAt A r (Node.seq (lcur ++ [R])) with hA1
    have hchain1 : chainTo r A1 (Node.seq (lcur ++ [R])) :=
      chainTo_replaceAt r A (Node.seq lcur) _ hchain
    have hrest := ih (fun v hv => hM v (List.mem_cons_of_mem _ hv)) hwns.2
      f A1 r (lcur ++ [R]) hchain1
    rw [show (lcur ++ [R]).length = lcur.length + 1 from by simp] at hrest
    rw [show pairsItems f r lcur.length (w :: ls) =
      pairs f (r ++ [Seg.idx lcur.length]) w ++ pairsItems f r (lcur.length + 1) ls
      from by rw [pairsItems]]
    rw [foldPairs_append, hblock, Option.some_bind, hrest]
    rw [replaceAt_replaceAt r A (Node.seq lcur) _ _ hchain]
    rw [show relabelItems f r lcur.length (w :: ls) =
      relabel f (r ++ [Seg.idx lcur.length]) w ::
        relabelItems f r (lcur.length + 1) ls from by rw [relabelItems]]
    rw [← hR, List.append_assoc, List.singleton_append]

theorem graftSpec_all : ∀ (n : Nat) (v : Node), nodeSize v ≤ n → graftSpec v := by
  intro n
  induction n with
  | zero =>
    intro v h
    have := nodeSize_pos v
    omega
  | succ n ih =>
    intro v hsz
    intro hgood f A C b q hchain hfresh hcompat
    have hqne : q ≠ [] := by
      intro he
      subst he
      exact absurd hfresh (by simp [freshSuffix])
    cases v with
    | vstr s =>
      rw [show relabel f (b ++ q) (Node.vstr s) = Node.vstr (f (b ++ q)) from by
        simp [relabel]]
      rw [show pairs f (b ++ q) (Node.vstr s) = [(b ++ q, f (b ++ q))] from by
        simp [pairs, leafPV]]
      simp only [foldPairs,
        setParts_chain_fresh b A C q (Node.vstr (f (b ++ q))) hchain hfresh]
    | vint i =>
      rw [show relabel f (b ++ q) (Node.vint i) = Node.vstr (f (b ++ q)) from by
        simp [relabel]]
      rw [show pairs f (b ++ q) (Node.vint i) = [(b ++ q, f (b ++ q))] from by
        simp [pairs, leafPV]]
      simp only [foldPairs,
        setParts_chain_fresh b A C q (Node.vstr (f (b ++ q))) hchain hfresh]
    | vbool b2 =>
      rw [show relabel f (b ++ q) (Node.vbool b2) = Node.vstr (f (b ++ q)) from by
        simp [relabel]]
      rw [show pairs f (b ++ q) (Node.vbool b2) = [(b ++ q, f (b ++ q))] from by
        simp [pairs, leafPV]]
      simp only [foldPairs,
        setParts_chain_fresh b A C q (Node.vstr (f (b ++ q))) hchain hfresh]
    | vnull =>
      rw [show relabel f (b ++ q) (Node.vnull) = Node.vstr (f (b ++ q)) from by
        simp [relabel]]
      rw [show pairs f (b ++ q) (Node.vnull) = [(b ++ q, f (b ++ q))] from by
        simp [pairs, leafPV]]
      simp only [foldPairs,
        setParts_chain_fresh b A C q (Node.vstr (f (b ++ q))) hchain hfresh]
    | map m =>
      have hg := hgood
      simp only [goodStruct, Bool.and_eq_true, Bool.not_eq_true',
        decide_eq_true_eq] at hg
      cases m with
      | nil => simp at hg
      | cons kv m' =>
        obtain ⟨k₀, w₀⟩ := kv
        cases k₀ with
        | ki nn => simp [goodEntries] at hg
        | ks s₀ =>
          have hcomp : goodKeyStr s₀ = true ∧ goodStruct w₀ = true ∧
              goodEntries m' = true := by
            simpa [goodEntries, and_assoc] using hg.2
          have hnd : (PyKey.ks s₀ ∉ m'.map Prod.fst) ∧ (m'.map Prod.fst).Nodup := by
            simpa using hg.1.2
          have hszm : entriesSize ((PyKey.ks s₀, w₀) :: m') ≤ n := by
            simp only [nodeSize] at hsz
            omega
          have hsz₀ : nodeSize w₀ ≤ n := by
            have h1 := nodeSize_le_entriesSize ((PyKey.ks s₀, w₀) :: m')
              (PyKey.ks s₀) w₀ (List.mem_cons_self _ _)
            omega
          have hq' : freshSuffix C (q ++ [Seg.key s₀]) :=
            freshSuffix_snoc_key C q s₀ hcomp.1 hfresh
          have hblock := ih w₀ hsz₀ hcomp.2.1 f A C b (q ++ [Seg.key s₀]) hchain hq'
            (by
              cases w₀ with
              | seq l2 => exact endsKey_snoc_key q s₀
              | map m2 => trivial
              | vstr s2 => trivial
              | vint iv => trivial
              | vbool bv => trivial
              | vnull => trivial)
          rw [show b ++ (q ++ [Seg.key s₀]) = (b ++ q) ++ [Seg.key s₀] from
            (List.append_assoc b q _).symm] at hblock
          have hchainA1b : chainTo b
              (replaceAt A b (graftFresh C (q ++ [Seg.key s₀])
                (relabel f ((b ++ q) ++ [Seg.key s₀]) w₀)))
              (graftFresh C (q ++ [Seg.key s₀])
                (relabel f ((b ++ q) ++ [Seg.key s₀]) w₀)) :=
            chainTo_replaceAt b A C _ hchain
          have hchainG1 : chainTo q
              (graftFresh C (q ++ [Seg.key s₀])
                (relabel f ((b ++ q) ++ [Seg.key s₀]) w₀))
              (Node.map [(PyKey.ks s₀, relabel f ((b ++ q) ++ [Seg.key s₀]) w₀)]) :=
            chainTo_graft_snoc C q (Seg.key s₀) _ hqne hq'
          have hchain1 := chainTo_trans b _ _ hchainA1b q _ hchainG1
          have hM' : ∀ kv ∈ m', graftSpec kv.2 := by
            intro kv hkv
            refine ih kv.2 ?_
            have h1 := nodeSize_le_entriesSize ((PyKey.ks s₀, w₀) :: m') kv.1 kv.2
              (List.mem_cons_of_mem _ hkv)
            omega
          have hfresh' : ∀ kv ∈ m',
              dget [(PyKey.ks s₀, relabel f ((b ++ q) ++ [Seg.key s₀]) w₀)] kv.1 =
                none := by
            intro kv hkv
            have hne2 : PyKey.ks s₀ ≠ kv.1 := by
              intro he
              exact hnd.1 (he ▸ List.mem_map_of_mem Prod.fst hkv)
            simp [dget, hne2]
          have hrest := entries_fold m' hM' hcomp.2.2 f _ (b ++ q)
            [(PyKey.ks s₀, relabel f ((b ++ q) ++ [Seg.key s₀]) w₀)]
            hchain1 hfresh' hnd.2
          rw [pairs_map]
          rw [show pairsEntries f (b ++ q) ((PyKey.ks s₀, w₀) :: m') =
            pairs f ((b ++ q) ++ [Seg.key (pyKeyStr (PyKey.ks s₀))]) w₀ ++
              pairsEntries f (b ++ q) m' from by rw [pairsEntries]]
          rw [show pyKeyStr (PyKey.ks s₀) = s₀ from rfl]
          rw [foldPairs_append, hblock, Option.some_bind, hrest]
          rw [replaceAt_append b _ _ hchainA1b]
          rw [replaceAt_replaceAt b A C _ _ hchain]
          rw [replaceAt_graft_snoc C q (Seg.key s₀) _ _ hqne hq']
          rw [show relabel f (b ++ q) (Node.map ((PyKey.ks s₀, w₀) :: m')) =
            Node.map ((PyKey.ks s₀, relabel f ((b ++ q) ++ [Seg.key s₀]) w₀) ::
              relabelEntries f (b ++ q) m') from by
            simp [relabel, relabelEntries, pyKeyStr]]
          rw [List.singleton_append]
    | seq ls =>
      have hg := hgood
      simp only [goodStruct, Bool.and_eq_true, Bool.not_eq_true'] at hg
      have hek : endsKey q := hcompat
      cases ls with
      | nil => simp at hg
      | cons w₀ ls' =>
        have hcomp : goodStruct w₀ = true ∧ goodItems ls' = true := by
          cases w₀ with
          | seq l2 => simp [goodItems] at hg
          | map m2 => simpa [goodItems] using hg.2
          | vstr s2 => simpa [goodItems] using hg.2
          | vint iv => simpa [goodItems] using hg.2
          | vbool bv => simpa [goodItems] using hg.2
          | vnull => simpa [goodItems] using hg.2
        have hszl : itemsSize (w₀ :: ls') ≤ n := by
          simp only [nodeSize] at hsz
          omega
        have hsz₀ : nodeSize w₀ ≤ n := by
          have h1 := nodeSize_le_itemsSize (w₀ :: ls') w₀ (List.mem_cons_self _ _)
          omega
        have hq' : freshSuffix C (q ++ [Seg.idx 0]) :=
          freshSuffix_snoc_idx0 C q hfresh hek
        have hblock := ih w₀ hsz₀ hcomp.1 f A C b (q ++ [Seg.idx 0]) hchain hq'
          (by
            cases w₀ with
            | seq l2 => simp [goodItems] at hg
            | map m2 => trivial
            | vstr s2 => trivial
            | vint iv => trivial
            | vbool bv => trivial
            | vnull => trivial)
        rw [show b ++ (q ++ [Seg.idx 0]) = (b ++ q) ++ [Seg.idx 0] from
          (List.append_assoc b q _).symm] at hblock
        have hchainA1b : chainTo b
            (replaceAt A b (graftFresh C (q ++ [Seg.idx 0])
              (relabel f ((b ++ q) ++ [Seg.idx 0]) w₀)))
            (graftFresh C (q ++ [Seg.idx 0])
              (relabel f ((b ++ q) ++ [Seg.idx 0]) w₀)) :=
          chainTo_replaceAt b A C _ hchain
        have hchainG1 : chainTo q
            (graftFresh C (q ++ [Seg.idx 0])
              (relabel f ((b ++ q) ++ [Seg.idx 0]) w₀))
            (Node.seq [relabel f ((b ++ q) ++ [Seg.idx 0]) w₀]) :=
          chainTo_graft_snoc C q (Seg.idx 0) _ hqne hq'
        have hchain1 := chainTo_trans b _ _ hchainA1b q _ hchainG1
        have hM' : ∀ v2 ∈ ls', graftSpec v2 := by
          intro v2 hv2
          refine ih v2 ?_
          have h1 := nodeSize_le_itemsSize (w₀ :: ls') v2 (List.mem_cons_of_mem _ hv2)
          omega
        have hrest := items_fold ls' hM' hcomp.2 f _ (b ++ q)
          [relabel f ((b ++ q) ++ [Seg.idx 0]) w₀] hchain1
        rw [show ([relabel f ((b ++ q) ++ [Seg.idx 0]) w₀] : List Node).length = 1
          from rfl] at hrest
        rw [pairs_seq]
        rw [show pairsItems f (b ++ q) 0 (w₀ :: ls') =
          pairs f ((b ++ q) ++ [Seg.idx 0]) w₀ ++ pairsItems f (b ++ q) (0 + 1) ls'
          from by rw [pairsItems]]
        simp only [Nat.zero_add]
        rw [foldPairs_append, hblock, Option.some_bind, hrest]
        rw [replaceAt_append b _ _ hchainA1b]
        rw [replaceAt_replaceAt b A C _ _ hchain]
        rw [replaceAt_graft_snoc C q (Seg.idx 0) _ _ hqne hq']
        rw [show relabel f (b ++ q) (Node.seq (w₀ :: ls')) =
          Node.seq (relabel f ((b ++ q) ++ [Seg.idx 0]) w₀ ::
            relabelItems f (b ++ q) (0 + 1) ls') from by
          simp [relabel, relabelItems]]
        simp only [Nat.zero_add]
        rw [List.singleton_append]

/-! ### Relabelling with the tree's own leaf values is the identity -/

theorem relabel_id :
    ∀ (n : Nat) (v : Node), nodeSize v ≤ n → strLeaves v = true →
      ∀ (f : List Seg → String) (base : List Seg),
        (∀ pw ∈ leafPV v, Node.vstr (f (base ++ pw.1)) = pw.2) →
        relabel f base v = v := by
  intro n
  induction n with
  | zero =>
    intro v h
    have := nodeSize_pos v
    omega
  | succ n ih =>
    intro v hsz hstr f base hf
    cases v with
    | vstr s =>
      have h1 := hf ([], Node.vstr s) (by simp [leafPV])
      simpa [relabel] using h1
    | vint i => simp [strLeaves] at hstr
    | vbool b2 => simp [strLeaves] at hstr
    | vnull => simp [strLeaves] at hstr
    | map m =>
      have hstr' : strLeavesEntries m = true := by simpa [strLeaves] using hstr
      have hszm : entriesSize m ≤ n := by
        simp only [nodeSize] at hsz
        omega
      have hf' : ∀ pw ∈ leafPVMap m, Node.vstr (f (base ++ pw.1)) = pw.2 := by
        intro pw hpw
        exact hf pw (by rw [show leafPV (Node.map m) = leafPVMap m from by rw [leafPV]]; exact hpw)
      have aux : ∀ (es : List (PyKey × Node)), entriesSize es ≤ n →
          strLeavesEntries es = true →
          (∀ pw ∈ leafPVMap es, Node.vstr (f (base ++ pw.1)) = pw.2) →
          relabelEntries f base es = es := by
        intro es
        induction es with
        | nil => intro _ _ _; rw [relabelEntries]
        | cons kv es ihes =>
          obtain ⟨k, w⟩ := kv
          intro hes hstrs hfs
          have hstrw : strLeaves w = true ∧ strLeavesEntries es = true := by
            simpa [strLeavesEntries] using hstrs
          have hszw : nodeSize w ≤ n := by
            simp only [entriesSize] at hes
            omega
          have hszes : entriesSize es ≤ n := by
            simp only [entriesSize] at hes
            omega
          rw [show relabelEntries f base ((k, w) :: es) =
            (k, relabel f (base ++ [Seg.key (pyKeyStr k)]) w) ::
              relabelEntries f base es from by rw [relabelEntries]]
          rw [ihes hszes hstrw.2 ?_, ih w hszw hstrw.1 f (base ++ [Seg.key (pyKeyStr k)]) ?_]
          · intro pw hpw
            have := hfs (Seg.key (pyKeyStr k) :: pw.1, pw.2) (by
              rw [show leafPVMap ((k, w) :: es) =
                (leafPV w).map (fun pw2 => (Seg.key (pyKeyStr k) :: pw2.1, pw2.2)) ++
                  leafPVMap es from by rw [leafPVMap]]
              exact List.mem_append.mpr (Or.inl (by
                exact List.mem_map.mpr ⟨pw, hpw, rfl⟩)))
            simpa [List.append_assoc] using this
          · intro pw hpw
            exact hfs pw (by
              rw [show leafPVMap ((k, w) :: es) =
                (leafPV w).map (fun pw2 => (Seg.key (pyKeyStr k) :: pw2.1, pw2.2)) ++
                  leafPVMap es from by rw [leafPVMap]]
              exact List.mem_append.mpr (Or.inr hpw))
      rw [show relabel f base (Node.map m) = Node.map (relabelEntries f base m) from by
        rw [relabel]]
      rw [aux m hszm hstr' hf']
    | seq ls =>
      have hstr' : strLeavesItems ls = true := by simpa [strLeaves] using hstr
      have hszl : itemsSize ls ≤ n := by
        simp only [nodeSize] at hsz
        omega
      have hf' : ∀ pw ∈ leafPVSeq ls 0, Node.vstr (f (base ++ pw.1)) = pw.2 := by
        intro pw hpw
        exact hf pw (by rw [show leafPV (Node.seq ls) = leafPVSeq ls 0 from by rw [leafPV]]; exact hpw)
      have aux : ∀ (is : List Node) (i : Nat), itemsSize is ≤ n →
          strLeavesItems is = true →
          (∀ pw ∈ leafPVSeq is i, Node.vstr (f (base ++ pw.1)) = pw.2) →
          relabelItems f base i is = is := by
        intro is
        induction is with
        | nil => intro i _ _ _; rw [relabelItems]
        | cons w is ihis =>
          intro i his hstrs hfs
          have hstrw : strLeaves w = true ∧ strLeavesItems is = true := by
            simpa [strLeavesItems] using hstrs
          have hszw : nodeSize w ≤ n := by
            simp only [itemsSize] at his
            omega
          have hszis : itemsSize is ≤ n := by
            simp only [itemsSize] at his
            omega
          rw [show relabelItems f base i (w :: is) =
            relabel f (base ++ [Seg.idx i]) w :: relabelItems f base (i + 1) is
            from by rw [relabelItems]]
          rw [ihis (i + 1) hszis hstrw.2 ?_, ih w hszw hstrw.1 f (base ++ [Seg.idx i]) ?_]
          · intro pw hpw
            have := hfs (Seg.idx i :: pw.1, pw.2) (by
              rw [show leafPVSeq (w :: is) i =
                (leafPV w).map (fun pw2 => (Seg.idx i :: pw2.1, pw2.2)) ++
                  leafPVSeq is (i + 1) from by rw [leafPVSeq]]
              exact List.mem_append.mpr (Or.inl (List.mem_map.mpr ⟨pw, hpw, rfl⟩)))
            simpa [List.append_assoc] using this
          · intro pw hpw
            exact hfs pw (by
              rw [show leafPVSeq (w :: is) i =
                (leafPV w).map (fun pw2 => (Seg.idx i :: pw2.1, pw2.2)) ++
                  leafPVSeq is (i + 1) from by rw [leafPVSeq]]
              exact List.mem_append.mpr (Or.inr hpw))
      rw [show relabel f base (Node.seq ls) = Node.seq (relabelItems f base 0 ls) from by
        rw [relabel]]
      rw [aux ls 0 hszl hstr' hf']

/-! ### Under `strLeaves` every emitted leaf is a string -/

theorem leafPV_strLeaves :
    ∀ (n : Nat) (v : Node), nodeSize v ≤ n → strLeaves v = true →
      ∀ pw ∈ leafPV v, ∃ s, pw.2 = Node.vstr s := by
  intro n
  induction n with
  | zero =>
    intro v h
    have := nodeSize_pos v
    omega
  | succ n ih =>
    intro v hsz hstr pw hpw
    cases v with
    | vstr s =>
      rw [show leafPV (Node.vstr s) = [([], Node.vstr s)] from by simp [leafPV]] at hpw
      exact ⟨s, by rw [List.mem_singleton.mp hpw]⟩
    | vint i => simp [strLeaves] at hstr
    | vbool b2 => simp [strLeaves] at hstr
    | vnull => simp [strLeaves] at hstr
    | map m =>
      have hstr' : strLeavesEntries m = true := by simpa [strLeaves] using hstr
      have hszm : entriesSize m ≤ n := by
        simp only [nodeSize] at hsz
        omega
      rw [show leafPV (Node.map m) = leafPVMap m from by rw [leafPV]] at hpw
      have aux : ∀ (es : List (PyKey × Node)), entriesSize es ≤ n →
          strLeavesEntries es = true → pw ∈ leafPVMap es →
          ∃ s, pw.2 = Node.vstr s := by
        intro es
        induction es with
        | nil => intro _ _ h; rw [show leafPVMap [] = [] from by rw [leafPVMap]] at h; simp at h
        | cons kv es ihes =>
          obtain ⟨k, w⟩ := kv
          intro hes hstrs h
          have hstrw : strLeaves w = true ∧ strLeavesEntries es = true := by
            simpa [strLeavesEntries] using hstrs
          rw [show leafPVMap ((k, w) :: es) =
            (leafPV w).map (fun pw2 => (Seg.key (pyKeyStr k) :: pw2.1, pw2.2)) ++
              leafPVMap es from by rw [leafPVMap]] at h
          rcases List.mem_append.mp h with h1 | h1
          · obtain ⟨pw2, hpw2, he⟩ := List.mem_map.mp h1
            have hszw : nodeSize w ≤ n := by
              simp only [entriesSize] at hes
              omega
            obtain ⟨s, hs⟩ := ih w hszw hstrw.1 pw2 hpw2
            exact ⟨s, by rw [← he]; exact hs⟩
          · exact ihes (by simp only [entriesSize] at hes; omega) hstrw.2 h1
      exact aux m hszm hstr' hpw
    | seq ls =>
      have hstr' : strLeavesItems ls = true := by simpa [strLeaves] using hstr
      have hszl : itemsSize ls ≤ n := by
        simp only [nodeSize] at hsz
        omega
      rw [show leafPV (Node.seq ls) = leafPVSeq ls 0 from by rw [leafPV]] at hpw
      have aux : ∀ (is : List Node) (i : Nat), itemsSize is ≤ n →
          strLeavesItems is = true → pw ∈ leafPVSeq is i →
          ∃ s, pw.2 = Node.vstr s := by
        intro is
        induction is with
        | nil =>
          intro i _ _ h
          rw [show leafPVSeq [] i = [] from by rw [leafPVSeq]] at h
          simp at h
        | cons w is ihis =>
          intro i his hstrs h
          have hstrw : strLeaves w = true ∧ strLeavesItems is = true := by
            simpa [strLeavesItems] using hstrs
          rw [show leafPVSeq (w :: is) i =
            (leafPV w).map (fun pw2 => (Seg.idx i :: pw2.1, pw2.2)) ++
              leafPVSeq is (i + 1) from by rw [leafPVSeq]] at h
          rcases List.mem_append.mp h with h1 | h1
          · obtain ⟨pw2, hpw2, he⟩ := List.mem_map.mp h1
            have hszw : nodeSize w ≤ n := by
              simp only [itemsSize] at his
              omega
            obtain ⟨s, hs⟩ := ih w hszw hstrw.1 pw2 hpw2
            exact ⟨s, by rw [← he]; exact hs⟩
          · exact ihis (i + 1) (by simp only [itemsSize] at his; omega) hstrw.2 h1
      exact aux ls 0 hszl hstr' hpw

/-! ### `apply_updates` over rendered paths is `foldPairs` over segments -/

theorem apply_updates_foldPairs :
    ∀ (pws : List (List Seg × String)) (A : Node),
      (∀ pw ∈ pws, goodSegs pw.1) →
      apply_updates A (pws.map (fun pw => (renderPath pw.1, pw.2))) = foldPairs A pws := by
  intro pws
  induction pws with
  | nil => intro A _; rfl
  | cons pw pws ih =>
    obtain ⟨p, str⟩ := pw
    intro A hgood
    have hp : goodSegs p := hgood (p, str) (List.mem_cons_self _ _)
    show apply_updates A ((renderPath p, str) :: pws.map (fun pw => (renderPath pw.1, pw.2))) =
      foldPairs A ((p, str) :: pws)
    rw [apply_updates, foldPairs, set_nested_value, parseParts_renderPath p hp]
    cases h : setParts A (p.map segString) (Node.vstr str) with
    | none => rfl
    | some A2 => exact ih A2 (fun pw2 hpw2 => hgood pw2 (List.mem_cons_of_mem _ hpw2))

/-! ### Claim C1: the flatten/merge round trip -/

/-- C1 counterexample: the round-trip law fails for arbitrary trees.  The
tree `{"a.b": "x"}` (a dot inside a dict key) flattens to the pair
`("a.b", "x")`, which merges back into the nested tree
`{"a": {"b": "x"}}`, not the original. -/
theorem C1_counterexample :
    apply_updates (Node.map [])
      (flatten_data (Node.map [(PyKey.ks "a.b", Node.vstr "x")]) "") ≠
      some (Node.map [(PyKey.ks "a.b", Node.vstr "x")]) := by
  rw [show flatten_data (Node.map [(PyKey.ks "a.b", Node.vstr "x")]) "" =
    [("a.b", "x")] from by
    simp [flatten_data, flattenMapLoop, dset, pyKeyStr, pyStr]]
  intro h
  rw [show apply_updates (Node.map []) [("a.b", "x")] =
    some (Node.map [(PyKey.ks "a", Node.map [(PyKey.ks "b", Node.vstr "x")])])
    from rfl] at h
  simp at h

/-- C1 (amended): for every tree whose root is a dict, whose dict keys are
nonempty, pairwise distinct, not all-digit, and free of the characters
`.`, `[`, `]`, whose containers below the root are nonempty, whose lists
never directly contain lists, and whose leaves are all strings, flattening
with `flatten_data` and then merging every (path, value) pair with
`set_nested_value`, in flatten order, into an empty root rebuilds the
original tree exactly (lines 38-61 and 89-134). -/
theorem C1_flatten_merge_round_trip (T : Node) (hroot : goodRoot T = true)
    (hstr : strLeaves T = true) :
    apply_updates (Node.map []) (flatten_data T "") = some T := by
  cases T with
  | vstr s => simp [goodRoot] at hroot
  | vint i => simp [goodRoot] at hroot
  | vbool b2 => simp [goodRoot] at hroot
  | vnull => simp [goodRoot] at hroot
  | seq ls => simp [goodRoot] at hroot
  | map m =>
    have hroot' : (m.map Prod.fst).Nodup ∧ goodEntries m = true := by
      simpa [goodRoot] using hroot
    cases m with
    | nil =>
      rw [show flatten_data (Node.map []) "" = [] from by
        simp [flatten_data, flattenMapLoop]]
      rfl
    | cons kv m' =>
      set T := Node.map (kv :: m') with hT
      have hgs : goodStruct T = true := by
        rw [hT]
        simp only [goodStruct, Bool.and_eq_true, decide_eq_true_eq]
        exact ⟨⟨by simp, hroot'.1⟩, hroot'.2⟩
      have hnodup : ((flatten_pairs T "").map Prod.fst).Nodup := by
        have h1 := flatten_keys_nodup T hgs [] (fun sg hsg => absurd hsg (by simp))
        rw [show renderPath [] = "" from rfl] at h1
        exact h1
      rw [flatten_data_eq_pairs (nodeSize T) T (Nat.le_refl _) "" hnodup]
      rw [flatten_pairs_eq (nodeSize T) T (Nat.le_refl _) hgs ""]
      have hmapsplit : (leafPV T).map (fun pw => (renderAt "" pw.1, pyStr pw.2)) =
          ((leafPV T).map (fun pw => (pw.1, pyStr pw.2))).map
            (fun pw => (renderPath pw.1, pw.2)) := by
        rw [List.map_map]
        apply List.map_congr_left
        intro pw _
        simp [renderAt, Function.comp]
      rw [hmapsplit]
      rw [apply_updates_foldPairs ((leafPV T).map (fun pw => (pw.1, pyStr pw.2)))
        (Node.map []) ?_]
      · set f : List Seg → String := fun p =>
          match dget (leafPV T) p with
          | some (Node.vstr s2) => s2
          | _ => "" with hfdef
        have hfprop : ∀ pw ∈ leafPV T, Node.vstr (f pw.1) = pw.2 := by
          intro pw hpw
          have hdg : dget (leafPV T) pw.1 = some pw.2 :=
            dget_of_mem_nodup _ _ _
              (leafPV_paths_nodup (nodeSize T) T (Nat.le_refl _) hgs) hpw
          obtain ⟨s2, hs2⟩ :=
            leafPV_strLeaves (nodeSize T) T (Nat.le_refl _) hstr pw hpw
          show Node.vstr (match dget (leafPV T) pw.1 with
            | some (Node.vstr s2) => s2
            | _ => "") = pw.2
          rw [hdg, hs2]
        have hpws : (leafPV T).map (fun pw => (pw.1, pyStr pw.2)) =
            pairs f [] T := by
          rw [pairs]
          apply List.map_congr_left
          intro pw hpw
          have h1 := hfprop pw hpw
          simp only [List.nil_append]
          rw [show pyStr pw.2 = f pw.1 from by rw [← h1]; rfl]
        rw [hpws, hT, pairs_map]
        have hfold := entries_fold (kv :: m')
          (fun kv2 _ => graftSpec_all (nodeSize kv2.2) kv2.2 (Nat.le_refl _))
          hroot'.2 f (Node.map []) [] []
          rfl (fun kv2 _ => by simp [dget]) hroot'.1
        rw [hfold, replaceAt_nil, List.nil_append]
        have hrlb : relabelEntries f [] (kv :: m') = kv :: m' := by
          have h1 := relabel_id (nodeSize T) T (Nat.le_refl _) hstr f []
            (fun pw hpw => by
              rw [List.nil_append]
              exact hfprop pw hpw)
          rw [hT] at h1
          rw [show relabel f [] (Node.map (kv :: m')) =
            Node.map (relabelEntries f [] (kv :: m')) from by rw [relabel]] at h1
          exact Node.map.inj h1
        rw [hrlb]
      · intro pw hpw
        obtain ⟨pw2, hpw2, he⟩ := List.mem_map.mp hpw
        have h1 := leafPV_paths_good (nodeSize T) T (Nat.le_refl _) hgs pw2 hpw2
        rw [← he]
        exact h1

/-- C1 witness: the round trip holds on the concrete tree
`{"hello": "world"}`. -/
theorem C1_witness :
    goodRoot (Node.map [(PyKey.ks "hello", Node.vstr "world")]) = true ∧
    strLeaves (Node.map [(PyKey.ks "hello", Node.vstr "world")]) = true ∧
    apply_updates (Node.map [])
      (flatten_data (Node.map [(PyKey.ks "hello", Node.vstr "world")]) "") =
      some (Node.map [(PyKey.ks "hello", Node.vstr "world")]) := by
  have hg : goodRoot (Node.map [(PyKey.ks "hello", Node.vstr "world")]) = true := by
    simp [goodRoot, goodEntries, goodStruct, goodKeyStr, isAllDigits, goodKeyChar]
  have hs : strLeaves (Node.map [(PyKey.ks "hello", Node.vstr "world")]) = true := by
    simp [strLeaves, strLeavesEntries]
  exact ⟨hg, hs, C1_flatten_merge_round_trip _ hg hs⟩

/-! ### Relabelling preserves the tree's shape and well-formedness -/

theorem leafPV_relabel :
    ∀ (n : Nat) (v : Node), nodeSize v ≤ n → ∀ (f : List Seg → String) (base : List Seg),
      leafPV (relabel f base v) =
        (leafPV v).map (fun pw => (pw.1, Node.vstr (f (base ++ pw.1)))) := by
  intro n
  induction n with
  | zero =>
    intro v h
    have := nodeSize_pos v
    omega
  | succ n ih =>
    intro v hsz f base
    cases v with
    | vstr s => simp [relabel, leafPV]
    | vint i => simp [relabel, leafPV]
    | vbool b2 => simp [relabel, leafPV]
    | vnull => simp [relabel, leafPV]
    | map m =>
      have hszm : entriesSize m ≤ n := by
        simp only [nodeSize] at hsz
        omega
      rw [show relabel f base (Node.map m) = Node.map (relabelEntries f base m) from by
        rw [relabel]]
      rw [show leafPV (Node.map (relabelEntries f base m)) =
        leafPVMap (relabelEntries f base m) from by rw [leafPV]]
      rw [show leafPV (Node.map m) = leafPVMap m from by rw [leafPV]]
      have aux : ∀ (es : List (PyKey × Node)), entriesSize es ≤ n →
          leafPVMap (relabelEntries f base es) =
            (leafPVMap es).map (fun pw => (pw.1, Node.vstr (f (base ++ pw.1)))) := by
        intro es
        induction es with
        | nil =>
          intro _
          rw [show relabelEntries f base [] = [] from by rw [relabelEntries]]
          rw [show leafPVMap ([] : List (PyKey × Node)) = [] from by rw [leafPVMap]]
          simp
        | cons kv es ihes =>
          obtain ⟨k, w⟩ := kv
          intro hes
          have hszw : nodeSize w ≤ n := by
            simp only [entriesSize] at hes
            omega
          rw [show relabelEntries f base ((k, w) :: es) =
            (k, relabel f (base ++ [Seg.key (pyKeyStr k)]) w) ::
              relabelEntries f base es from by rw [relabelEntries]]
          rw [show leafPVMap ((k, relabel f (base ++ [Seg.key (pyKeyStr k)]) w) ::
              relabelEntries f base es) =
            (leafPV (relabel f (base ++ [Seg.key (pyKeyStr k)]) w)).map
              (fun pw => (Seg.key (pyKeyStr k) :: pw.1, pw.2)) ++
              leafPVMap (relabelEntries f base es) from by rw [leafPVMap]]
          rw [show leafPVMap ((k, w) :: es) =
            (leafPV w).map (fun pw => (Seg.key (pyKeyStr k) :: pw.1, pw.2)) ++
              leafPVMap es from by rw [leafPVMap]]
          rw [ih w hszw f (base ++ [Seg.key (pyKeyStr k)]),
            ihes (by simp only [entriesSize] at hes; omega)]
          rw [List.map_append, List.map_map, List.map_map]
          congr 1
          apply List.map_congr_left
          intro pw _
          simp [Function.comp, List.append_assoc]
      exact aux m hszm
    | seq ls =>
      have hszl : itemsSize ls ≤ n := by
        simp only [nodeSize] at hsz
        omega
      rw [show relabel f base (Node.seq ls) = Node.seq (relabelItems f base 0 ls) from by
        rw [relabel]]
      rw [show leafPV (Node.seq (relabelItems f base 0 ls)) =
        leafPVSeq (relabelItems f base 0 ls) 0 from by rw [leafPV]]
      rw [show leafPV (Node.seq ls) = leafPVSeq ls 0 from by rw [leafPV]]
      have aux : ∀ (is : List Node) (i : Nat), itemsSize is ≤ n →
          leafPVSeq (relabelItems f base i is) i =
            (leafPVSeq is i).map (fun pw => (pw.1, Node.vstr (f (base ++ pw.1)))) := by
        intro is
        induction is with
        | nil =>
          intro i _
          rw [show relabelItems f base i [] = [] from by rw [relabelItems]]
          rw [show leafPVSeq ([] : List Node) i = [] from by rw [leafPVSeq]]
          simp
        | cons w is ihis =>
          intro i his
          have hszw : nodeSize w ≤ n := by
            simp only [itemsSize] at his
            omega
          rw [show relabelItems f base i (w :: is) =
            relabel f (base ++ [Seg.idx i]) w :: relabelItems f base (i + 1) is
            from by rw [relabelItems]]
          rw [show leafPVSeq (relabel f (base ++ [Seg.idx i]) w ::
              relabelItems f base (i + 1) is) i =
            (leafPV (relabel f (base ++ [Seg.idx i]) w)).map
              (fun pw => (Seg.idx i :: pw.1, pw.2)) ++
              leafPVSeq (relabelItems f base (i + 1) is) (i + 1) from by rw [leafPVSeq]]
          rw [show leafPVSeq (w :: is) i =
            (leafPV w).map (fun pw => (Seg.idx i :: pw.1, pw.2)) ++
              leafPVSeq is (i + 1) from by rw [leafPVSeq]]
          rw [ih w hszw f (base ++ [Seg.idx i]),
            ihis (i + 1) (by simp only [itemsSize] at his; omega)]
          rw [List.map_append, List.map_map, List.map_map]
          congr 1
          apply List.map_congr_left
          intro pw _
          simp [Function.comp, List.append_assoc]
      exact aux ls 0 hszl

theorem relabelEntries_keys (f : List Seg → String) (base : List Seg) :
    ∀ (es : List (PyKey × Node)),
      (relabelEntries f base es).map Prod.fst = es.map Prod.fst := by
  intro es
  induction es with
  | nil => rw [show relabelEntries f base [] = [] from by rw [relabelEntries]]
  | cons kv es ih =>
    obtain ⟨k, w⟩ := kv
    rw [show relabelEntries f base ((k, w) :: es) =
      (k, relabel f (base ++ [Seg.key (pyKeyStr k)]) w) ::
        relabelEntries f base es from by rw [relabelEntries]]
    simp [ih]

theorem relabelItems_length (f : List Seg → String) (base : List Seg) :
    ∀ (is : List Node) (i : Nat), (relabelItems f base i is).length = is.length := by
  intro is
  induction is with
  | nil => intro i; rw [show relabelItems f base i [] = [] from by rw [relabelItems]]
  | cons w is ih =>
    intro i
    rw [show relabelItems f base i (w :: is) =
      relabel f (base ++ [Seg.idx i]) w :: relabelItems f base (i + 1) is
      from by rw [relabelItems]]
    simp [ih (i + 1)]

theorem goodStruct_relabel :
    ∀ (n : Nat) (v : Node), nodeSize v ≤ n → goodStruct v = true →
      ∀ (f : List Seg → String) (base : List Seg),
        goodStruct (relabel f base v) = true := by
  intro n
  induction n with
  | zero =>
    intro v h
    have := nodeSize_pos v
    omega
  | succ n ih =>
    intro v hsz hg f base
    cases v with
    | vstr s => simp [relabel, goodStruct]
    | vint i => simp [relabel, goodStruct]
    | vbool b2 => simp [relabel, goodStruct]
    | vnull => simp [relabel, goodStruct]
    | map m =>
      have hg' : (¬m.isEmpty ∧ (m.map Prod.fst).Nodup) ∧ goodEntries m = true := by
        simpa [goodStruct, Bool.and_eq_true, Bool.not_eq_true'] using hg
      have hszm : entriesSize m ≤ n := by
        simp only [nodeSize] at hsz
        omega
      rw [show relabel f base (Node.map m) = Node.map (relabelEntries f base m) from by
        rw [relabel]]
      have hge : ∀ (es : List (PyKey × Node)), entriesSize es ≤ n →
          goodEntries es = true → goodEntries (relabelEntries f base es) = true := by
        intro es
        induction es with
        | nil =>
          intro _ _
          rw [show relabelEntries f base [] = [] from by rw [relabelEntries]]
          rw [goodEntries]
        | cons kv es ihes =>
          obtain ⟨k, w⟩ := kv
          intro hes hges
          cases k with
          | ki nn => simp [goodEntries] at hges
          | ks s2 =>
            have hc : goodKeyStr s2 = true ∧ goodStruct w = true ∧
                goodEntries es = true := by
              simpa [goodEntries, and_assoc] using hges
            have hszw : nodeSize w ≤ n := by
              simp only [entriesSize] at hes
              omega
            rw [show relabelEntries f base ((PyKey.ks s2, w) :: es) =
              (PyKey.ks s2, relabel f (base ++ [Seg.key (pyKeyStr (PyKey.ks s2))]) w) ::
                relabelEntries f base es from by rw [relabelEntries]]
            simp only [goodEntries, Bool.and_eq_true]
            exact ⟨⟨hc.1, ih w hszw hc.2.1 f _⟩,
              ihes (by simp only [entriesSize] at hes; omega) hc.2.2⟩
      simp only [goodStruct, Bool.and_eq_true, Bool.not_eq_true', decide_eq_true_eq]
      refine ⟨⟨?_, ?_⟩, hge m hszm hg'.2⟩
      · cases m with
        | nil => simp at hg'
        | cons kv es =>
          rw [show relabelEntries f base (kv :: es) =
            (kv.1, relabel f (base ++ [Seg.key (pyKeyStr kv.1)]) kv.2) ::
              relabelEntries f base es from by rw [relabelEntries]]
          simp
      · rw [relabelEntries_keys]
        exact hg'.1.2
    | seq ls =>
      have hg' : ¬ls.isEmpty ∧ goodItems ls = true := by
        simpa [goodStruct, Bool.and_eq_true, Bool.not_eq_true'] using hg
      have hszl : itemsSize ls ≤ n := by
        simp only [nodeSize] at hsz
        omega
      rw [show relabel f base (Node.seq ls) = Node.seq (relabelItems f base 0 ls) from by
        rw [relabel]]
      have hgi : ∀ (is : List Node) (i : Nat), itemsSize is ≤ n →
          goodItems is = true → goodItems (relabelItems f base i is) = true := by
        intro is
        induction is with
        | nil =>
          intro i _ _
          rw [show relabelItems f base i [] = [] from by rw [relabelItems]]
          rw [goodItems]
        | cons w is ihis =>
          intro i his hgis
          have hszw : nodeSize w ≤ n := by
            simp only [itemsSize] at his
            omega
          rw [show relabelItems f base i (w :: is) =
            relabel f (base ++ [Seg.idx i]) w :: relabelItems f base (i + 1) is
            from by rw [relabelItems]]
          cases w with
          | seq l2 => simp [goodItems] at hgis
          | map m2 =>
            have hc : goodStruct (Node.map m2) = true ∧ goodItems is = true := by
              simpa [goodItems] using hgis
            rw [show relabel f (base ++ [Seg.idx i]) (Node.map m2) =
              Node.map (relabelEntries f (base ++ [Seg.idx i]) m2) from by rw [relabel]]
            simp only [goodItems, Bool.and_eq_true]
            constructor
            · have := ih (Node.map m2) hszw hc.1 f (base ++ [Seg.idx i])
              rw [show relabel f (base ++ [Seg.idx i]) (Node.map m2) =
                Node.map (relabelEntries f (base ++ [Seg.idx i]) m2) from by
                rw [relabel]] at this
              exact this
            · exact ihis (i + 1) (by simp only [itemsSize] at his; omega) hc.2
          | vstr s2 =>
            have hc : goodItems is = true := by simpa [goodItems, goodStruct] using hgis
            rw [show relabel f (base ++ [Seg.idx i]) (Node.vstr s2) =
              Node.vstr (f (base ++ [Seg.idx i])) from by simp [relabel]]
            simpa [goodItems, goodStruct] using
              ihis (i + 1) (by simp only [itemsSize] at his; omega) hc
          | vint iv =>
            have hc : goodItems is = true := by simpa [goodItems, goodStruct] using hgis
            rw [show relabel f (base ++ [Seg.idx i]) (Node.vint iv) =
              Node.vstr (f (base ++ [Seg.idx i])) from by simp [relabel]]
            simpa [goodItems, goodStruct] using
              ihis (i + 1) (by simp only [itemsSize] at his; omega) hc
          | vbool bv =>
            have hc : goodItems is = true := by simpa [goodItems, goodStruct] using hgis
            rw [show relabel f (base ++ [Seg.idx i]) (Node.vbool bv) =
              Node.vstr (f (base ++ [Seg.idx i])) from by simp [relabel]]
            simpa [goodItems, goodStruct] using
              ihis (i + 1) (by simp only [itemsSize] at his; omega) hc
          | vnull =>
            have hc : goodItems is = true := by simpa [goodItems, goodStruct] using hgis
            rw [show relabel f (base ++ [Seg.idx i]) Node.vnull =
              Node.vstr (f (base ++ [Seg.idx i])) from by simp [relabel]]
            simpa [goodItems, goodStruct] using
              ihis (i + 1) (by simp only [itemsSize] at his; omega) hc
      simp only [goodStruct, Bool.and_eq_true, Bool.not_eq_true']
      refine ⟨?_, hgi ls 0 hszl hg'.2⟩
      cases ls with
      | nil => simp at hg'
      | cons w is =>
        rw [show relabelItems f base 0 (w :: is) =
          relabel f (base ++ [Seg.idx 0]) w :: relabelItems f base (0 + 1) is
          from by rw [relabelItems]]
        simp

/-! ### Merging any zipped value list over the source keys succeeds and
reproduces the key set -/

theorem flatten_empty_map : flatten_data (Node.map []) "" = [] := by
  simp [flatten_data, flattenMapLoop]

theorem flatten_root_eq (T : Node) (hgs : goodStruct T = true) :
    flatten_data T "" = (leafPV T).map (fun pw => (renderPath pw.1, pyStr pw.2)) := by
  have hnodup : ((flatten_pairs T "").map Prod.fst).Nodup := by
    have h1 := flatten_keys_nodup T hgs [] (fun sg hsg => absurd hsg (by simp))
    rw [show renderPath [] = "" from rfl] at h1
    exact h1
  rw [flatten_data_eq_pairs (nodeSize T) T (Nat.le_refl _) "" hnodup]
  rw [flatten_pairs_eq (nodeSize T) T (Nat.le_refl _) hgs ""]
  apply List.map_congr_left
  intro pw _
  simp [renderAt]

theorem zip_fst_map {α β γ : Type} (g : α → γ) :
    ∀ (l : List α) (t : List β),
      (l.map g).zip t = (l.zip t).map (fun z => (g z.1, z.2)) := by
  intro l
  induction l with
  | nil => intro t; simp
  | cons a l ih =>
    intro t
    cases t with
    | nil => simp
    | cons b t => simp [ih]

theorem zip_map_proj {α β γ : Type} (g : α → γ) :
    ∀ (l : List α) (t : List β), l.length ≤ t.length →
      (l.zip t).map (fun z => g z.1) = l.map g := by
  intro l
  induction l with
  | nil => intro t _; simp
  | cons a l ih =>
    intro t hlen
    cases t with
    | nil => simp at hlen
    | cons b t =>
      simp only [List.zip_cons_cons, List.map_cons]
      rw [ih t (by simpa using hlen)]

theorem merge_zip (T : Node) (hroot : goodRoot T = true) (translated : List String)
    (hlen : translated.length = (flatten_data T "").length) :
    ∃ t', apply_updates (Node.map [])
        (((flatten_data T "").map Prod.fst).zip translated) = some t' ∧
      (flatten_data t' "").map Prod.fst = (flatten_data T "").map Prod.fst := by
  cases T with
  | vstr s => simp [goodRoot] at hroot
  | vint i => simp [goodRoot] at hroot
  | vbool b2 => simp [goodRoot] at hroot
  | vnull => simp [goodRoot] at hroot
  | seq ls => simp [goodRoot] at hroot
  | map m =>
    have hroot' : (m.map Prod.fst).Nodup ∧ goodEntries m = true := by
      simpa [goodRoot] using hroot
    cases m with
    | nil =>
      refine ⟨Node.map [], ?_, rfl⟩
      rw [flatten_empty_map]
      rfl
    | cons kv m' =>
      have hgs : goodStruct (Node.map (kv :: m')) = true := by
        simp only [goodStruct, Bool.and_eq_true, decide_eq_true_eq]
        exact ⟨⟨by simp, hroot'.1⟩, hroot'.2⟩
      have hflat := flatten_root_eq (Node.map (kv :: m')) hgs
      have hlen' : (leafPV (Node.map (kv :: m'))).length ≤ translated.length := by
        rw [hlen, hflat]
        simp
      have hfstkeys : (flatten_data (Node.map (kv :: m')) "").map Prod.fst =
          (leafPV (Node.map (kv :: m'))).map (fun pw => renderPath pw.1) := by
        rw [hflat, List.map_map]
        rfl
      have hpws : ∀ (f2 : (List Seg × Node) × String → List Seg × String),
          ((leafPV (Node.map (kv :: m'))).zip translated).map f2 =
          ((leafPV (Node.map (kv :: m'))).zip translated).map f2 := fun _ => rfl
      have hzip1 : ((flatten_data (Node.map (kv :: m')) "").map Prod.fst).zip translated =
          (((leafPV (Node.map (kv :: m'))).zip translated).map
            (fun z => (z.1.1, z.2))).map (fun pr => (renderPath pr.1, pr.2)) := by
        rw [hfstkeys, zip_fst_map, List.map_map]
        rfl
      have hfst : ((((leafPV (Node.map (kv :: m'))).zip translated).map
          (fun z => (z.1.1, z.2))).map Prod.fst) =
          (leafPV (Node.map (kv :: m'))).map Prod.fst := by
        rw [List.map_map]
        exact zip_map_proj Prod.fst _ _ hlen'
      have hnd : ((((leafPV (Node.map (kv :: m'))).zip translated).map
          (fun z => (z.1.1, z.2))).map Prod.fst).Nodup := by
        rw [hfst]
        exact leafPV_paths_nodup (nodeSize (Node.map (kv :: m'))) _ (Nat.le_refl _) hgs
      have hfmem : ∀ pr ∈ ((leafPV (Node.map (kv :: m'))).zip translated).map
          (fun z => (z.1.1, z.2)),
          (dget (((leafPV (Node.map (kv :: m'))).zip translated).map
            (fun z => (z.1.1, z.2))) pr.1).getD "" = pr.2 := by
        intro pr hpr
        rw [dget_of_mem_nodup _ pr.1 pr.2 hnd hpr]
        rfl
      have hpws_pairs : ((leafPV (Node.map (kv :: m'))).zip translated).map
          (fun z => (z.1.1, z.2)) =
          pairs (fun p => (dget (((leafPV (Node.map (kv :: m'))).zip translated).map
            (fun z => (z.1.1, z.2))) p).getD "") [] (Node.map (kv :: m')) := by
        rw [pairs]
        have h1 : (((leafPV (Node.map (kv :: m'))).zip translated).map
            (fun z => (z.1.1, z.2))).map (fun pr => (pr.1,
              (dget (((leafPV (Node.map (kv :: m'))).zip translated).map
                (fun z => (z.1.1, z.2))) pr.1).getD "")) =
            ((leafPV (Node.map (kv :: m'))).zip translated).map
              (fun z => (z.1.1, z.2)) := by
          conv_rhs => rw [show ((leafPV (Node.map (kv :: m'))).zip translated).map
            (fun z => (z.1.1, z.2)) =
            (((leafPV (Node.map (kv :: m'))).zip translated).map
              (fun z => (z.1.1, z.2))).map id from by rw [List.map_id]]
          apply List.map_congr_left
          intro pr hpr
          rw [hfmem pr hpr]
          rfl
        simp only [List.nil_append]
        conv_lhs => rw [← h1, List.map_map]
        exact zip_map_proj (fun pw : List Seg × Node => (pw.1,
          (dget (((leafPV (Node.map (kv :: m'))).zip translated).map
            (fun z => (z.1.1, z.2))) pw.1).getD "")) _ _ hlen'
      have hsegs : ∀ pr ∈ ((leafPV (Node.map (kv :: m'))).zip translated).map
          (fun z => (z.1.1, z.2)), goodSegs pr.1 := by
        intro pr hpr
        obtain ⟨z, hz, he⟩ := List.mem_map.mp hpr
        have hz1 : z.1 ∈ leafPV (Node.map (kv :: m')) := (List.of_mem_zip hz).1
        rw [← he]
        exact leafPV_paths_good (nodeSize (Node.map (kv :: m'))) _ (Nat.le_refl _)
          hgs z.1 hz1
      rw [hzip1, apply_updates_foldPairs _ (Node.map []) hsegs, hpws_pairs, pairs_map]
      have hfold := entries_fold (kv :: m')
        (fun kv2 _ => graftSpec_all (nodeSize kv2.2) kv2.2 (Nat.le_refl _))
        hroot'.2
        (fun p => (dget (((leafPV (Node.map (kv :: m'))).zip translated).map
          (fun z => (z.1.1, z.2))) p).getD "")
        (Node.map []) [] []
        rfl (fun kv2 _ => by simp [dget]) hroot'.1
      rw [hfold, replaceAt_nil, List.nil_append]
      refine ⟨_, rfl, ?_⟩
      have hrel : Node.map (relabelEntries (fun p =>
          (dget (((leafPV (Node.map (kv :: m'))).zip translated).map
            (fun z => (z.1.1, z.2))) p).getD "") [] (kv :: m')) =
          relabel (fun p => (dget (((leafPV (Node.map (kv :: m'))).zip translated).map
            (fun z => (z.1.1, z.2))) p).getD "") [] (Node.map (kv :: m')) := by
        rw [show relabel (fun p => (dget (((leafPV (Node.map (kv :: m'))).zip
            translated).map (fun z => (z.1.1, z.2))) p).getD "") []
            (Node.map (kv :: m')) =
          Node.map (relabelEntries (fun p =>
            (dget (((leafPV (Node.map (kv :: m'))).zip translated).map
              (fun z => (z.1.1, z.2))) p).getD "") [] (kv :: m')) from by rw [relabel]]
      rw [hrel]
      have hgs2 := goodStruct_relabel (nodeSize (Node.map (kv :: m')))
        (Node.map (kv :: m')) (Nat.le_refl _) hgs
        (fun p => (dget (((leafPV (Node.map (kv :: m'))).zip translated).map
          (fun z => (z.1.1, z.2))) p).getD "") []
      rw [flatten_root_eq _ hgs2, hflat]
      rw [leafPV_relabel (nodeSize (Node.map (kv :: m'))) (Node.map (kv :: m'))
        (Nat.le_refl _) _ []]
      rw [List.map_map, List.map_map, List.map_map]
      rfl

/-! ### Second-run analysis of `main` -/

theorem missing_keys_empty_target (fs : List (String × String)) :
    missing_keys fs [] = fs.map Prod.fst := by
  rw [missing_keys, List.filter_eq_self.mpr]
  intro k _
  simp [dmem, dget]

theorem keys_to_translate_no_changed (ms : List String) :
    keys_to_translate ms [] = ms := by
  simp [keys_to_translate]

theorem missing_keys_covered (fs ft : List (String × String))
    (h : ∀ k ∈ fs.map Prod.fst, dmem ft k = true) :
    missing_keys fs ft = [] := by
  rw [missing_keys, List.filter_eq_nil]
  intro k hk
  simp [h k hk]

theorem batch_translate_length (cap : List String → Option (List String))
    (hlen : ∀ b r, cap b = some r → r.length = b.length) (texts : List String) :
    (batch_translate cap texts).length = texts.length := by
  rw [batch_translate]
  exact (bt_loop_spec cap hlen texts.length texts (Nat.le_refl _)).1

theorem filterMap_all_write (g : String → LangOutcome) (F : String → Node) :
    ∀ (langs : List String), (∀ l ∈ langs, g l = LangOutcome.write (F l)) →
      langs.filterMap (fun l => match g l with
        | LangOutcome.write t => some (l, t)
        | _ => none) = langs.map (fun l => (l, F l)) := by
  intro langs
  induction langs with
  | nil => intro _; rfl
  | cons l langs ih =>
    intro h
    rw [List.filterMap_cons, h l (List.mem_cons_self _ _)]
    simp only [List.map_cons]
    rw [ih (fun l2 hl2 => h l2 (List.mem_cons_of_mem _ hl2))]

theorem filterMap_all_skip (g : String → LangOutcome) :
    ∀ (langs : List String), (∀ l ∈ langs, g l = LangOutcome.skip) →
      langs.filterMap (fun l => match g l with
        | LangOutcome.write t => some (l, t)
        | _ => none) = [] := by
  intro langs
  induction langs with
  | nil => intro _; rfl
  | cons l langs ih =>
    intro h
    rw [List.filterMap_cons, h l (List.mem_cons_self _ _)]
    exact ih (fun l2 hl2 => h l2 (List.mem_cons_of_mem _ hl2))

theorem processLang_skip_of_covered (c : List String → Option (List String))
    (flatS : List (String × String)) (t : Node)
    (hcov : ∀ k ∈ flatS.map Prod.fst, dmem (flatten_data t "") k = true) :
    processLang c flatS [] t = LangOutcome.skip := by
  have hmk := missing_keys_covered flatS (flatten_data t "") hcov
  simp [processLang, hmk, keys_to_translate]

theorem second_run_skips (T : Node) (htruthy : pyTruthy T = true)
    (hash : String → String) (cap : String → List String → Option (List String))
    (tg : String → Node)
    (hcov : ∀ lang ∈ TARGET_LANGS, ∀ k ∈ (flatten_data T "").map Prod.fst,
      dmem (flatten_data (tg lang) "") k = true) :
    mainModel ⟨T, get_hashes hash (flatten_data T ""), none, tg, cap, hash⟩ =
      ⟨[], some (get_hashes hash (flatten_data T ""))⟩ := by
  have hres : resolve_old_hashes
      ⟨T, get_hashes hash (flatten_data T ""), none, tg, cap, hash⟩
      (get_hashes hash (flatten_data T "")) =
      get_hashes hash (flatten_data T "") := by
    rw [resolve_old_hashes]
    simp
  have hchg : run_changed ⟨T, get_hashes hash (flatten_data T ""), none, tg, cap, hash⟩ =
      [] := by
    rw [run_changed]
    show changed_keys_of (get_hashes hash (flatten_data T "")) _ = []
    rw [hres]
    exact changed_keys_of_self _ (get_hashes_nodup hash _)
  have hskip : ∀ l ∈ TARGET_LANGS,
      langOutcome ⟨T, get_hashes hash (flatten_data T ""), none, tg, cap, hash⟩ l =
        LangOutcome.skip := by
    intro l hl
    rw [langOutcome, hchg]
    exact processLang_skip_of_covered _ _ _ (hcov l hl)
  rw [mainModel_no_crash _ (by exact htruthy)
    (fun l hl => by rw [hskip l hl]; exact fun h => LangOutcome.noConfusion h)]
  rw [filterMap_all_skip _ TARGET_LANGS hskip]

theorem dget_map_self {β : Type} (t1 : String → β) :
    ∀ (langs : List String) (lang : String), lang ∈ langs →
      dget (langs.map (fun l => (l, t1 l))) lang = some (t1 lang) := by
  intro langs
  induction langs with
  | nil => intro lang h; simp at h
  | cons l langs ih =>
    intro lang h
    by_cases he : l = lang
    · subst he
      simp [dget]
    · rcases List.mem_cons.mp h with h1 | h1
      · exact absurd h1.symm he
      · simp [dget, he, ih lang h1]

theorem first_run_spec (T : Node) (hroot : goodRoot T = true)
    (htruthy : pyTruthy T = true) (hash : String → String)
    (cap : String → List String → Option (List String))
    (hcap : ∀ lang b, ∃ out, cap lang b = some out ∧ out.length = b.length) :
    (mainModel ⟨T, [], none, fun _ => Node.map [], cap, hash⟩).hashWrite =
      some (get_hashes hash (flatten_data T "")) ∧
    (∀ lang t, dget (mainModel ⟨T, [], none, fun _ => Node.map [], cap, hash⟩).writes
        lang = some t →
      (flatten_data t "").map Prod.fst = (flatten_data T "").map Prod.fst) ∧
    (∀ lang ∈ TARGET_LANGS,
      dget (mainModel ⟨T, [], none, fun _ => Node.map [], cap, hash⟩).writes lang =
        none →
      (flatten_data T "").map Prod.fst = []) := by
  have hres : resolve_old_hashes ⟨T, [], none, fun _ => Node.map [], cap, hash⟩
      (get_hashes hash (flatten_data T "")) =
      get_hashes hash (flatten_data T "") := by
    rw [resolve_old_hashes]
    simp
  have hchg : run_changed ⟨T, [], none, fun _ => Node.map [], cap, hash⟩ = [] := by
    rw [run_changed]
    show changed_keys_of (get_hashes hash (flatten_data T "")) _ = []
    rw [hres]
    exact changed_keys_of_self _ (get_hashes_nodup hash _)
  by_cases hks : (flatten_data T "").map Prod.fst = []
  · have hskip : ∀ l ∈ TARGET_LANGS,
        langOutcome ⟨T, [], none, fun _ => Node.map [], cap, hash⟩ l =
          LangOutcome.skip := by
      intro l _
      rw [langOutcome, hchg]
      show processLang (cap l) (flatten_data T "") [] (Node.map []) = LangOutcome.skip
      simp [processLang, flatten_empty_map, missing_keys_empty_target, hks,
        keys_to_translate]
    rw [mainModel_no_crash _ (by exact htruthy)
      (fun l hl => by rw [hskip l hl]; exact fun h => LangOutcome.noConfusion h)]
    rw [filterMap_all_skip _ TARGET_LANGS hskip]
    refine ⟨rfl, ?_, fun _ _ _ => hks⟩
    intro lang t hdg
    simp [dget] at hdg
  · set F : String → Node := fun l =>
      (apply_updates (Node.map []) (((flatten_data T "").map Prod.fst).zip
        (batch_translate (cap l) (((flatten_data T "").map Prod.fst).map
          (fun k => (dget (flatten_data T "") k).getD ""))))).getD (Node.map [])
      with hF
    have hwl : ∀ l, langOutcome ⟨T, [], none, fun _ => Node.map [], cap, hash⟩ l =
        LangOutcome.write (F l) ∧
        (flatten_data (F l) "").map Prod.fst = (flatten_data T "").map Prod.fst := by
      intro l
      have hcapLen : ∀ b r, cap l b = some r → r.length = b.length := by
        intro b r hr
        obtain ⟨out, ho, hl2⟩ := hcap l b
        rw [ho] at hr
        rw [← Option.some_inj.mp hr]
        exact hl2
      have hlen : (batch_translate (cap l) (((flatten_data T "").map Prod.fst).map
          (fun k => (dget (flatten_data T "") k).getD ""))).length =
          (flatten_data T "").length := by
        rw [batch_translate_length (cap l) hcapLen]
        simp
      obtain ⟨t', ht', hkeys⟩ := merge_zip T hroot _ hlen
      have hFl : apply_updates (Node.map []) (((flatten_data T "").map Prod.fst).zip
          (batch_translate (cap l) (((flatten_data T "").map Prod.fst).map
            (fun k => (dget (flatten_data T "") k).getD "")))) = some (F l) := by
        simp only [hF]
        rw [ht']
        rfl
      constructor
      · rw [langOutcome, hchg]
        show processLang (cap l) (flatten_data T "") [] (Node.map []) =
          LangOutcome.write (F l)
        have hFl2 := hFl
        simp only [List.map_map] at hFl2
        simp [processLang, flatten_empty_map, missing_keys_empty_target,
          keys_to_translate, hks, hFl2]
      · have : F l = t' := by
          simp only [hF]
          rw [ht']
          rfl
        rw [this]
        exact hkeys
    rw [mainModel_no_crash _ (by exact htruthy)
      (fun l _ => by rw [(hwl l).1]; exact fun h => LangOutcome.noConfusion h)]
    rw [filterMap_all_write _ F TARGET_LANGS (fun l _ => (hwl l).1)]
    refine ⟨rfl, ?_, ?_⟩
    swap
    · intro lang hl hdgn
      rw [dget_map_self F TARGET_LANGS lang hl] at hdgn
      exact Option.noConfusion hdgn
    intro lang t hdg
    have hmem := dget_mem _ _ _ hdg
    obtain ⟨l2, _, he⟩ := List.mem_map.mp hmem
    have he1 : l2 = lang := congrArg Prod.fst he
    have he2 : F l2 = t := congrArg Prod.snd he
    rw [← he2]
    exact (hwl l2).2

/-! ### Claim C7: a second run after a successful run -/

/-- C7 (amended): after a successful first run from empty targets over a
well-formed truthy source (dict root; nonempty, distinct, non-digit,
special-character-free keys; nonempty containers; no list directly inside
a list) with a translation capability that always answers with one output
per input, the second run writes no target file — but it always rewrites
the baseline hash file (with unchanged content), so the second run is not
write-free (lines 229-230 run unconditionally whenever the loop
completes). -/
theorem C7_second_run_target_writes (T : Node) (hroot : goodRoot T = true)
    (htruthy : pyTruthy T = true) (hash : String → String)
    (cap : String → List String → Option (List String))
    (hcap : ∀ lang b, ∃ out, cap lang b = some out ∧ out.length = b.length) :
    (mainModel ⟨T, [], none, fun _ => Node.map [], cap, hash⟩).hashWrite =
      some (get_hashes hash (flatten_data T "")) ∧
    mainModel ⟨T, get_hashes hash (flatten_data T ""), none,
      (fun lang => (dget (mainModel ⟨T, [], none, fun _ => Node.map [],
        cap, hash⟩).writes lang).getD (Node.map [])), cap, hash⟩ =
      ⟨[], some (get_hashes hash (flatten_data T ""))⟩ := by
  obtain ⟨hhash1, hcov1, hnone1⟩ := first_run_spec T hroot htruthy hash cap hcap
  refine ⟨hhash1, ?_⟩
  apply second_run_skips T htruthy hash cap
  intro lang hl k hk
  show dmem (flatten_data ((dget (mainModel ⟨T, [], none, fun _ => Node.map [],
    cap, hash⟩).writes lang).getD (Node.map [])) "") k = true
  cases hdg : dget (mainModel ⟨T, [], none, fun _ => Node.map [],
      cap, hash⟩).writes lang with
  | some t =>
    rw [Option.getD_some]
    show (dget (flatten_data t "") k).isSome = true
    rw [dget_isSome_iff, hcov1 lang t hdg]
    exact hk
  | none =>
    rw [hnone1 lang hl hdg] at hk
    simp at hk

/-- C7 counterexample: the claim says a second run performs no file
writes.  But the baseline hash file is saved on every completed run
(line 230): starting from exactly the state a successful first run over
source `{"a": "x"}` leaves behind (baseline persisted, targets filled),
the next run still performs that write. -/
theorem C7_counterexample :
    (mainModel ⟨Node.map [(PyKey.ks "a", Node.vstr "x")],
      get_hashes (fun s => s)
        (flatten_data (Node.map [(PyKey.ks "a", Node.vstr "x")]) ""),
      none,
      (fun lang => (dget (mainModel ⟨Node.map [(PyKey.ks "a", Node.vstr "x")],
        [], none, fun _ => Node.map [], fun _ texts => some texts,
        fun s => s⟩).writes lang).getD (Node.map [])),
      fun _ texts => some texts, fun s => s⟩).hashWrite ≠ none := by
  have hroot : goodRoot (Node.map [(PyKey.ks "a", Node.vstr "x")]) = true := by
    simp [goodRoot, goodEntries, goodStruct, goodKeyStr, isAllDigits, goodKeyChar]
  have htruthy : pyTruthy (Node.map [(PyKey.ks "a", Node.vstr "x")]) = true := by
    simp [pyTruthy]
  have hcap : ∀ (lang : String) (b : List String),
      ∃ out, (fun (_ : String) (texts : List String) => some texts) lang b =
        some out ∧ out.length = b.length :=
    fun _ b => ⟨b, rfl, rfl⟩
  obtain ⟨hhash1, hcov1, hnone1⟩ := first_run_spec
    (Node.map [(PyKey.ks "a", Node.vstr "x")]) hroot htruthy
    (fun s => s) (fun _ texts => some texts) hcap
  have h2 := second_run_skips (Node.map [(PyKey.ks "a", Node.vstr "x")]) htruthy
    (fun s => s) (fun _ texts => some texts)
    (fun lang => (dget (mainModel ⟨Node.map [(PyKey.ks "a", Node.vstr "x")],
      [], none, fun _ => Node.map [], fun _ texts => some texts,
      fun s => s⟩).writes lang).getD (Node.map []))
    (by
      intro lang hl k hk
      show dmem (flatten_data ((dget (mainModel ⟨Node.map [(PyKey.ks "a",
        Node.vstr "x")], [], none, fun _ => Node.map [],
        fun _ texts => some texts, fun s => s⟩).writes lang).getD
        (Node.map [])) "") k = true
      cases hdg : dget (mainModel ⟨Node.map [(PyKey.ks "a", Node.vstr "x")],
          [], none, fun _ => Node.map [], fun _ texts => some texts,
          fun s => s⟩).writes lang with
      | some t =>
        rw [Option.getD_some]
        show (dget (flatten_data t "") k).isSome = true
        rw [dget_isSome_iff, hcov1 lang t hdg]
        exact hk
      | none =>
        rw [hnone1 lang hl hdg] at hk
        simp at hk)
  rw [h2]
  intro h
  exact Option.noConfusion h

/-- C7 witness: the amended second-run theorem at the concrete source
`{"a": "x"}`, identity hashing, and an echoing capability. -/
theorem C7_witness :
    goodRoot (Node.map [(PyKey.ks "a", Node.vstr "x")]) = true ∧
    pyTruthy (Node.map [(PyKey.ks "a", Node.vstr "x")]) = true ∧
    (mainModel ⟨Node.map [(PyKey.ks "a", Node.vstr "x")], [], none,
      fun _ => Node.map [], fun _ texts => some texts, fun s => s⟩).hashWrite =
      some (get_hashes (fun s => s)
        (flatten_data (Node.map [(PyKey.ks "a", Node.vstr "x")]) "")) ∧
    mainModel ⟨Node.map [(PyKey.ks "a", Node.vstr "x")],
      get_hashes (fun s => s)
        (flatten_data (Node.map [(PyKey.ks "a", Node.vstr "x")]) ""),
      none,
      (fun lang => (dget (mainModel ⟨Node.map [(PyKey.ks "a", Node.vstr "x")],
        [], none, fun _ => Node.map [], fun _ texts => some texts,
        fun s => s⟩).writes lang).getD (Node.map [])),
      fun _ texts => some texts, fun s => s⟩ =
      ⟨[], some (get_hashes (fun s => s)
        (flatten_data (Node.map [(PyKey.ks "a", Node.vstr "x")]) ""))⟩ := by
  have hroot : goodRoot (Node.map [(PyKey.ks "a", Node.vstr "x")]) = true := by
    simp [goodRoot, goodEntries, goodStruct, goodKeyStr, isAllDigits, goodKeyChar]
  have htruthy : pyTruthy (Node.map [(PyKey.ks "a", Node.vstr "x")]) = true := by
    simp [pyTruthy]
  have hcap : ∀ (lang : String) (b : List String),
      ∃ out, (fun (_ : String) (texts : List String) => some texts) lang b =
        some out ∧ out.length = b.length :=
    fun _ b => ⟨b, rfl, rfl⟩
  have h := C7_second_run_target_writes (Node.map [(PyKey.ks "a", Node.vstr "x")])
    hroot htruthy (fun s => s) (fun _ texts => some texts) hcap
  exact ⟨hroot, htruthy, h.1, h.2⟩

end TranslateLocales
